import Mathlib

/-!
Verification development for the Draper–Grover subset-sum solver
(`ssp/solver.py`, `ssp/measurements.py`, `ssp/stats.py`).

Quantum-circuit amplitudes for the gates used by the solver (H, X, CP with
dyadic-rational angles, MCX, QFT) all live in the cyclotomic field
`ℚ(ζ)` with `ζ = exp(2·π·i / 2^(L+1))`, which we realise computably as
`ℚ[X] / (X^(2^L) + 1)`: coefficient vectors indexed by `Fin (2^L)` with
negacyclic-convolution multiplication.  States of an `nq`-qubit circuit are
amplitude functions `ℕ → K L` over little-endian basis indices, and each
Qiskit gate becomes an explicit linear action on such functions.
-/

namespace SSP

/-- Coefficient vector of `ζ^t` (for arbitrary `t : ℕ`) in the basis
`1, ζ, …, ζ^(2^L - 1)`, using `ζ^(2^L) = -1`. -/
def eCoef (L : ℕ) (t : ℕ) (k : Fin (2 ^ L)) : ℚ :=
  if k.val = t % 2 ^ L then (-1 : ℚ) ^ (t / 2 ^ L) else 0

/-- The cyclotomic field `ℚ(exp(2·π·i/2^(L+1)))`, represented as
polynomials in `ζ` of degree `< 2^L` modulo `ζ^(2^L) = -1`. -/
structure K (L : ℕ) where
  coef : Fin (2 ^ L) → ℚ

namespace K

variable {L : ℕ}

theorem ext' {a b : K L} (hcoef : ∀ k, a.coef k = b.coef k) : a = b := by
  cases a; cases b; simp only [K.mk.injEq]; funext k; exact hcoef k

instance : Zero (K L) := ⟨⟨fun _ => 0⟩⟩

instance : Add (K L) := ⟨fun a b => ⟨fun k => a.coef k + b.coef k⟩⟩

instance : Neg (K L) := ⟨fun a => ⟨fun k => -(a.coef k)⟩⟩

/-- `ζ^t` as an element of `K L`. -/
def eN (L : ℕ) (t : ℕ) : K L := ⟨eCoef L t⟩

instance : One (K L) := ⟨eN L 0⟩

instance : Mul (K L) :=
  ⟨fun a b => ⟨fun k => ∑ i : Fin (2 ^ L), ∑ j : Fin (2 ^ L),
      a.coef i * b.coef j * eCoef L (i.val + j.val) k⟩⟩

@[simp] theorem coef_zero (k : Fin (2 ^ L)) : (0 : K L).coef k = 0 := rfl

@[simp] theorem coef_add (a b : K L) (k : Fin (2 ^ L)) :
    (a + b).coef k = a.coef k + b.coef k := rfl

@[simp] theorem coef_neg (a : K L) (k : Fin (2 ^ L)) :
    (-a).coef k = -(a.coef k) := rfl

theorem coef_mul (a b : K L) (k : Fin (2 ^ L)) :
    (a * b).coef k = ∑ i : Fin (2 ^ L), ∑ j : Fin (2 ^ L),
      a.coef i * b.coef j * eCoef L (i.val + j.val) k := rfl

theorem coef_one (k : Fin (2 ^ L)) : (1 : K L).coef k = eCoef L 0 k := rfl

theorem two_pow_pos (L : ℕ) : 0 < 2 ^ L := Nat.pos_pow_of_pos L (by norm_num)

theorem neg_one_pow_mod_two (x : ℕ) : ((-1 : ℚ)) ^ (x % 2) = (-1 : ℚ) ^ x := by
  conv_rhs => rw [← Nat.mod_add_div x 2]
  rw [pow_add, pow_mul]
  norm_num

/-- Reduction of the exponent in `eCoef`: peeling off the part of `t`
below `2^L` produces the sign `(-1)^(t / 2^L)`. -/
theorem eCoef_add_left (t l : ℕ) (k : Fin (2 ^ L)) :
    eCoef L (t + l) k = (-1 : ℚ) ^ (t / 2 ^ L) * eCoef L (t % 2 ^ L + l) k := by
  unfold eCoef
  have hidx : (t + l) % 2 ^ L = (t % 2 ^ L + l) % 2 ^ L := by
    rw [Nat.add_mod t l, Nat.add_mod (t % 2 ^ L) l,
      Nat.mod_mod_of_dvd t (dvd_refl (2 ^ L))]
  have hsign : (t + l) / 2 ^ L = t / 2 ^ L + (t % 2 ^ L + l) / 2 ^ L := by
    conv_lhs => rw [← Nat.mod_add_div' t (2 ^ L), Nat.add_right_comm]
    rw [Nat.add_mul_div_right _ _ (two_pow_pos L), Nat.add_comm]
  rw [hidx, hsign, pow_add]
  by_cases hk : k.val = (t % 2 ^ L + l) % 2 ^ L
  · simp [hk]
  · simp [hk]

theorem eCoef_of_lt {t : ℕ} (ht : t < 2 ^ L) (k : Fin (2 ^ L)) :
    eCoef L t k = if k.val = t then 1 else 0 := by
  unfold eCoef
  rw [Nat.mod_eq_of_lt ht, Nat.div_eq_of_lt ht, pow_zero]

/-- Collapsing a sum against the single nonzero coefficient of `ζ^t`. -/
theorem sum_eCoef_mul (t l : ℕ) (k : Fin (2 ^ L)) :
    ∑ p : Fin (2 ^ L), eCoef L t p * eCoef L (p.val + l) k = eCoef L (t + l) k := by
  have h2 : t % 2 ^ L < 2 ^ L := Nat.mod_lt _ (two_pow_pos L)
  have hterm : ∀ p : Fin (2 ^ L), eCoef L t p * eCoef L (p.val + l) k
      = if p = ⟨t % 2 ^ L, h2⟩ then
          (-1 : ℚ) ^ (t / 2 ^ L) * eCoef L (t % 2 ^ L + l) k else 0 := by
    intro p
    by_cases hp : p.val = t % 2 ^ L
    · have hpe : p = ⟨t % 2 ^ L, h2⟩ := Fin.ext hp
      rw [if_pos hpe]
      unfold eCoef
      rw [if_pos hp, hp]
    · rw [if_neg (by simp [Fin.ext_iff, hp])]
      unfold eCoef
      rw [if_neg hp, zero_mul]
  rw [Finset.sum_congr rfl (fun p _ => hterm p), Finset.sum_ite_eq' Finset.univ]
  rw [if_pos (Finset.mem_univ _)]
  exact (eCoef_add_left t l k).symm

/-- Variant of `sum_eCoef_mul` with the summation index added on the right. -/
theorem sum_eCoef_mul' (t l : ℕ) (k : Fin (2 ^ L)) :
    ∑ p : Fin (2 ^ L), eCoef L t p * eCoef L (l + p.val) k = eCoef L (l + t) k := by
  have h : ∀ p : Fin (2 ^ L), eCoef L t p * eCoef L (l + p.val) k
      = eCoef L t p * eCoef L (p.val + l) k := by
    intro p; rw [Nat.add_comm l p.val]
  rw [Finset.sum_congr rfl (fun p _ => h p), sum_eCoef_mul, Nat.add_comm]

theorem mul_assoc' (a b c : K L) : a * b * c = a * (b * c) := by
  apply ext'
  intro k
  rw [coef_mul, coef_mul]
  have lhs : (∑ p : Fin (2 ^ L), ∑ l : Fin (2 ^ L),
      (a * b).coef p * c.coef l * eCoef L (p.val + l.val) k)
      = ∑ l : Fin (2 ^ L), ∑ i : Fin (2 ^ L), ∑ j : Fin (2 ^ L),
        a.coef i * b.coef j * c.coef l * eCoef L (i.val + j.val + l.val) k := by
    have h1 : ∀ p l : Fin (2 ^ L), (a * b).coef p * c.coef l * eCoef L (p.val + l.val) k
        = ∑ i : Fin (2 ^ L), ∑ j : Fin (2 ^ L),
            a.coef i * b.coef j * c.coef l *
              (eCoef L (i.val + j.val) p * eCoef L (p.val + l.val) k) := by
      intro p l
      rw [coef_mul, Finset.sum_mul, Finset.sum_mul]
      apply Finset.sum_congr rfl; intro i _
      rw [Finset.sum_mul, Finset.sum_mul]
      apply Finset.sum_congr rfl; intro j _
      ring
    calc ∑ p : Fin (2 ^ L), ∑ l : Fin (2 ^ L),
          (a * b).coef p * c.coef l * eCoef L (p.val + l.val) k
        = ∑ p : Fin (2 ^ L), ∑ l : Fin (2 ^ L), ∑ i : Fin (2 ^ L), ∑ j : Fin (2 ^ L),
            a.coef i * b.coef j * c.coef l *
              (eCoef L (i.val + j.val) p * eCoef L (p.val + l.val) k) := by
          apply Finset.sum_congr rfl; intro p _
          apply Finset.sum_congr rfl; intro l _
          exact h1 p l
      _ = ∑ l : Fin (2 ^ L), ∑ p : Fin (2 ^ L), ∑ i : Fin (2 ^ L), ∑ j : Fin (2 ^ L),
            a.coef i * b.coef j * c.coef l *
              (eCoef L (i.val + j.val) p * eCoef L (p.val + l.val) k) :=
          Finset.sum_comm
      _ = ∑ l : Fin (2 ^ L), ∑ i : Fin (2 ^ L), ∑ p : Fin (2 ^ L), ∑ j : Fin (2 ^ L),
            a.coef i * b.coef j * c.coef l *
              (eCoef L (i.val + j.val) p * eCoef L (p.val + l.val) k) := by
          apply Finset.sum_congr rfl; intro l _
          exact Finset.sum_comm
      _ = ∑ l : Fin (2 ^ L), ∑ i : Fin (2 ^ L), ∑ j : Fin (2 ^ L), ∑ p : Fin (2 ^ L),
            a.coef i * b.coef j * c.coef l *
              (eCoef L (i.val + j.val) p * eCoef L (p.val + l.val) k) := by
          apply Finset.sum_congr rfl; intro l _
          apply Finset.sum_congr rfl; intro i _
          exact Finset.sum_comm
      _ = ∑ l : Fin (2 ^ L), ∑ i : Fin (2 ^ L), ∑ j : Fin (2 ^ L),
            a.coef i * b.coef j * c.coef l * eCoef L (i.val + j.val + l.val) k := by
          apply Finset.sum_congr rfl; intro l _
          apply Finset.sum_congr rfl; intro i _
          apply Finset.sum_congr rfl; intro j _
          rw [← Finset.mul_sum, sum_eCoef_mul]
  have rhs : (∑ i : Fin (2 ^ L), ∑ p : Fin (2 ^ L),
      a.coef i * (b * c).coef p * eCoef L (i.val + p.val) k)
      = ∑ i : Fin (2 ^ L), ∑ j : Fin (2 ^ L), ∑ l : Fin (2 ^ L),
        a.coef i * b.coef j * c.coef l * eCoef L (i.val + j.val + l.val) k := by
    apply Finset.sum_congr rfl; intro i _
    have h1 : ∀ p : Fin (2 ^ L), a.coef i * (b * c).coef p * eCoef L (i.val + p.val) k
        = ∑ j : Fin (2 ^ L), ∑ l : Fin (2 ^ L),
            a.coef i * b.coef j * c.coef l *
              (eCoef L (j.val + l.val) p * eCoef L (i.val + p.val) k) := by
      intro p
      rw [coef_mul, Finset.mul_sum, Finset.sum_mul]
      apply Finset.sum_congr rfl; intro j _
      rw [Finset.mul_sum, Finset.sum_mul]
      apply Finset.sum_congr rfl; intro l _
      ring
    calc ∑ p : Fin (2 ^ L), a.coef i * (b * c).coef p * eCoef L (i.val + p.val) k
        = ∑ p : Fin (2 ^ L), ∑ j : Fin (2 ^ L), ∑ l : Fin (2 ^ L),
            a.coef i * b.coef j * c.coef l *
              (eCoef L (j.val + l.val) p * eCoef L (i.val + p.val) k) := by
          apply Finset.sum_congr rfl; intro p _
          exact h1 p
      _ = ∑ j : Fin (2 ^ L), ∑ p : Fin (2 ^ L), ∑ l : Fin (2 ^ L),
            a.coef i * b.coef j * c.coef l *
              (eCoef L (j.val + l.val) p * eCoef L (i.val + p.val) k) :=
          Finset.sum_comm
      _ = ∑ j : Fin (2 ^ L), ∑ l : Fin (2 ^ L), ∑ p : Fin (2 ^ L),
            a.coef i * b.coef j * c.coef l *
              (eCoef L (j.val + l.val) p * eCoef L (i.val + p.val) k) := by
          apply Finset.sum_congr rfl; intro j _
          exact Finset.sum_comm
      _ = ∑ j : Fin (2 ^ L), ∑ l : Fin (2 ^ L),
            a.coef i * b.coef j * c.coef l * eCoef L (i.val + j.val + l.val) k := by
          apply Finset.sum_congr rfl; intro j _
          apply Finset.sum_congr rfl; intro l _
          rw [← Finset.mul_sum, sum_eCoef_mul', ← Nat.add_assoc]
  rw [lhs, rhs]
  rw [Finset.sum_comm]
  apply Finset.sum_congr rfl; intro i _
  exact Finset.sum_comm

theorem mul_comm' (a b : K L) : a * b = b * a := by
  apply ext'
  intro k
  rw [coef_mul, coef_mul, Finset.sum_comm]
  apply Finset.sum_congr rfl; intro j _
  apply Finset.sum_congr rfl; intro i _
  rw [Nat.add_comm j.val i.val]; ring

theorem one_mul' (a : K L) : 1 * a = a := by
  apply ext'
  intro k
  rw [coef_mul]
  have hterm : ∀ i : Fin (2 ^ L), (∑ j : Fin (2 ^ L),
      (1 : K L).coef i * a.coef j * eCoef L (i.val + j.val) k)
      = if i = (⟨0, two_pow_pos L⟩ : Fin (2 ^ L)) then
          (∑ j : Fin (2 ^ L), a.coef j * eCoef L (j.val) k) else 0 := by
    intro i
    by_cases hi : i = (⟨0, two_pow_pos L⟩ : Fin (2 ^ L))
    · rw [if_pos hi]
      apply Finset.sum_congr rfl; intro j _
      rw [coef_one, eCoef_of_lt (two_pow_pos L)]
      rw [hi]
      simp
    · rw [if_neg hi]
      apply Finset.sum_eq_zero; intro j _
      rw [coef_one, eCoef_of_lt (two_pow_pos L)]
      rw [if_neg (by simpa [Fin.ext_iff] using hi)]
      ring
  rw [Finset.sum_congr rfl (fun i _ => hterm i), Finset.sum_ite_eq' Finset.univ]
  rw [if_pos (Finset.mem_univ _)]
  have h2 : ∀ j : Fin (2 ^ L), a.coef j * eCoef L (j.val) k
      = if j = k then a.coef j else 0 := by
    intro j
    rw [eCoef_of_lt j.isLt]
    by_cases hj : j = k
    · rw [if_pos hj, if_pos (by rw [hj]), mul_one]
    · rw [if_neg hj, if_neg (by simpa [Fin.ext_iff, eq_comm] using hj), mul_zero]
  rw [Finset.sum_congr rfl (fun j _ => h2 j), Finset.sum_ite_eq' Finset.univ]
  rw [if_pos (Finset.mem_univ _)]

instance : CommRing (K L) where
  add_assoc a b c := by apply ext'; intro k; simp only [coef_add]; ring
  zero_add a := by apply ext'; intro k; simp only [coef_add, coef_zero]; ring
  add_zero a := by apply ext'; intro k; simp only [coef_add, coef_zero]; ring
  add_comm a b := by apply ext'; intro k; simp only [coef_add]; ring
  neg_add_cancel a := by apply ext'; intro k; simp only [coef_add, coef_neg, coef_zero]; ring
  nsmul := nsmulRec
  zsmul := zsmulRec
  left_distrib a b c := by
    apply ext'
    intro k
    simp only [coef_mul, coef_add]
    rw [← Finset.sum_add_distrib]
    apply Finset.sum_congr rfl; intro i _
    rw [← Finset.sum_add_distrib]
    apply Finset.sum_congr rfl; intro j _
    ring
  right_distrib a b c := by
    apply ext'
    intro k
    simp only [coef_mul, coef_add]
    rw [← Finset.sum_add_distrib]
    apply Finset.sum_congr rfl; intro i _
    rw [← Finset.sum_add_distrib]
    apply Finset.sum_congr rfl; intro j _
    ring
  zero_mul a := by
    apply ext'
    intro k
    simp only [coef_mul, coef_zero]
    apply Finset.sum_eq_zero; intro i _
    apply Finset.sum_eq_zero; intro j _
    ring
  mul_zero a := by
    apply ext'
    intro k
    simp only [coef_mul, coef_zero]
    apply Finset.sum_eq_zero; intro i _
    apply Finset.sum_eq_zero; intro j _
    ring
  mul_assoc := mul_assoc'
  one_mul := one_mul'
  mul_one a := by rw [mul_comm', one_mul']
  mul_comm := mul_comm'

theorem sum_coef_eCoef (a : K L) (k : Fin (2 ^ L)) :
    ∑ j : Fin (2 ^ L), a.coef j * eCoef L j.val k = a.coef k := by
  have h2 : ∀ j : Fin (2 ^ L), a.coef j * eCoef L j.val k
      = if j = k then a.coef j else 0 := by
    intro j
    rw [eCoef_of_lt j.isLt]
    by_cases hj : j = k
    · rw [if_pos hj, if_pos (by rw [hj]), mul_one]
    · rw [if_neg hj, if_neg (by simpa [Fin.ext_iff, eq_comm] using hj), mul_zero]
  rw [Finset.sum_congr rfl (fun j _ => h2 j), Finset.sum_ite_eq' Finset.univ]
  rw [if_pos (Finset.mem_univ _)]

/-- Multiplicativity of the powers of `ζ`. -/
theorem eN_mul (s t : ℕ) : eN L s * eN L t = eN L (s + t) := by
  apply ext'
  intro k
  rw [coef_mul]
  calc ∑ i : Fin (2 ^ L), ∑ j : Fin (2 ^ L),
        (eN L s).coef i * (eN L t).coef j * eCoef L (i.val + j.val) k
      = ∑ i : Fin (2 ^ L), eCoef L s i *
          (∑ j : Fin (2 ^ L), eCoef L t j * eCoef L (i.val + j.val) k) := by
        apply Finset.sum_congr rfl; intro i _
        rw [Finset.mul_sum]
        apply Finset.sum_congr rfl; intro j _
        show eCoef L s i * eCoef L t j * eCoef L (i.val + j.val) k = _
        ring
    _ = ∑ i : Fin (2 ^ L), eCoef L s i * eCoef L (i.val + t) k := by
        apply Finset.sum_congr rfl; intro i _
        rw [sum_eCoef_mul']
    _ = eCoef L (s + t) k := sum_eCoef_mul s t k

theorem eN_zero_eq_one : eN L 0 = 1 := rfl

/-- `ζ` has order `2^(L+1)`. -/
theorem eN_period (t : ℕ) : eN L (t + 2 ^ (L + 1)) = eN L t := by
  apply ext'
  intro k
  unfold eN eCoef
  have hP : (2 : ℕ) ^ (L + 1) = 2 ^ L * 2 := by rw [pow_succ]
  have hidx : (t + 2 ^ (L + 1)) % 2 ^ L = t % 2 ^ L := by
    rw [hP, Nat.add_mul_mod_self_left]
  have hsign : (t + 2 ^ (L + 1)) / 2 ^ L = t / 2 ^ L + 2 := by
    rw [hP, Nat.add_mul_div_left _ _ (two_pow_pos L)]
  rw [hidx, hsign, pow_add]
  norm_num

/-- `ζ^(2^L) = -1`. -/
theorem eN_half (t : ℕ) : eN L (t + 2 ^ L) = -(eN L t) := by
  apply ext'
  intro k
  unfold eN eCoef
  have hidx : (t + 2 ^ L) % 2 ^ L = t % 2 ^ L := Nat.add_mod_right _ _
  have hsign : (t + 2 ^ L) / 2 ^ L = t / 2 ^ L + 1 :=
    Nat.add_div_right _ (two_pow_pos L)
  rw [hidx, hsign, pow_succ, coef_neg]
  by_cases hk : k.val = t % 2 ^ L
  · simp [hk]
  · simp [hk]

theorem eN_add_mul_period (t c : ℕ) : eN L (t + c * 2 ^ (L + 1)) = eN L t := by
  induction c with
  | zero => rw [Nat.zero_mul, Nat.add_zero]
  | succ c ih =>
      have : t + (c + 1) * 2 ^ (L + 1) = (t + c * 2 ^ (L + 1)) + 2 ^ (L + 1) := by ring
      rw [this, eN_period, ih]

theorem eN_mod (t : ℕ) : eN L (t % 2 ^ (L + 1)) = eN L t := by
  conv_rhs => rw [← Nat.mod_add_div t (2 ^ (L + 1)), Nat.mul_comm]
  rw [eN_add_mul_period]

/-- `ζ^z` for an integer exponent `z`. -/
def eZ (L : ℕ) (z : ℤ) : K L := eN L (z % ((2 : ℤ) ^ (L + 1))).toNat

theorem intPow_two_pos (n : ℕ) : (0 : ℤ) < 2 ^ n := pow_pos (by norm_num) n

theorem eZ_natCast (n : ℕ) : eZ L (n : ℤ) = eN L n := by
  unfold eZ
  have h : ((n : ℤ) % (2 : ℤ) ^ (L + 1)) = ((n % 2 ^ (L + 1) : ℕ) : ℤ) := by
    push_cast
    rfl
  rw [h, Int.toNat_natCast, eN_mod]

theorem eZ_congr {a b : ℤ} (h : a % ((2 : ℤ) ^ (L + 1)) = b % ((2 : ℤ) ^ (L + 1))) :
    eZ L a = eZ L b := by
  unfold eZ
  rw [h]

theorem eZ_self_toNat (a : ℤ) :
    eZ L a = eN L ((a % ((2 : ℤ) ^ (L + 1))).toNat) := rfl

theorem emod_toNat_cast (a : ℤ) :
    (((a % ((2 : ℤ) ^ (L + 1))).toNat : ℤ)) = a % ((2 : ℤ) ^ (L + 1)) :=
  Int.toNat_of_nonneg (Int.emod_nonneg a (ne_of_gt (intPow_two_pos (L + 1))))

theorem eZ_eq_of_natCast {a : ℤ} {n : ℕ}
    (h : a % ((2 : ℤ) ^ (L + 1)) = (n : ℤ) % ((2 : ℤ) ^ (L + 1))) :
    eZ L a = eN L n := by
  rw [eZ_congr h, eZ_natCast]

theorem eZ_add (a b : ℤ) : eZ L (a + b) = eZ L a * eZ L b := by
  have ha : eZ L a = eN L ((a % ((2 : ℤ) ^ (L + 1))).toNat) := rfl
  have hb : eZ L b = eN L ((b % ((2 : ℤ) ^ (L + 1))).toNat) := rfl
  have hmod : (a + b) % ((2 : ℤ) ^ (L + 1))
      = ((((a % ((2 : ℤ) ^ (L + 1))).toNat + (b % ((2 : ℤ) ^ (L + 1))).toNat : ℕ) : ℤ))
        % ((2 : ℤ) ^ (L + 1)) := by
    push_cast
    rw [emod_toNat_cast, emod_toNat_cast]
    exact Int.add_emod a b _
  rw [ha, hb, eZ_eq_of_natCast hmod, eN_mul]

theorem eZ_zero_eq_one : eZ L 0 = 1 := by
  rw [eZ_self_toNat]
  norm_num
  exact eN_zero_eq_one

theorem eZ_add_half (z : ℤ) : eZ L (z + (2 : ℤ) ^ L) = -(eZ L z) := by
  have hz : eZ L z = eN L ((z % ((2 : ℤ) ^ (L + 1))).toNat) := rfl
  have hmod : (z + (2 : ℤ) ^ L) % ((2 : ℤ) ^ (L + 1))
      = ((((z % ((2 : ℤ) ^ (L + 1))).toNat + 2 ^ L : ℕ) : ℤ)) % ((2 : ℤ) ^ (L + 1)) := by
    push_cast
    rw [emod_toNat_cast]
    conv_lhs => rw [Int.add_emod]
    conv_rhs => rw [Int.add_emod, Int.emod_emod_of_dvd z (dvd_refl _)]
  rw [eZ_eq_of_natCast hmod, eN_half, hz]

theorem eZ_add_mul_period (z c : ℤ) : eZ L (z + c * (2 : ℤ) ^ (L + 1)) = eZ L z := by
  apply eZ_congr
  rw [Int.mul_comm c, Int.add_mul_emod_self_left]

/-- Embedding of the rationals into `K L`. -/
def ofRat (L : ℕ) (q : ℚ) : K L := ⟨fun k => if k.val = 0 then q else 0⟩

theorem ofRat_mul (q : ℚ) (a : K L) :
    ofRat L q * a = ⟨fun k => q * a.coef k⟩ := by
  apply ext'
  intro k
  rw [coef_mul]
  have hterm : ∀ i : Fin (2 ^ L), (∑ j : Fin (2 ^ L),
      (ofRat L q).coef i * a.coef j * eCoef L (i.val + j.val) k)
      = if i = (⟨0, two_pow_pos L⟩ : Fin (2 ^ L)) then
          (∑ j : Fin (2 ^ L), q * (a.coef j * eCoef L (j.val) k)) else 0 := by
    intro i
    by_cases hi : i = (⟨0, two_pow_pos L⟩ : Fin (2 ^ L))
    · rw [if_pos hi]
      apply Finset.sum_congr rfl; intro j _
      show (ofRat L q).coef i * a.coef j * eCoef L (i.val + j.val) k = _
      rw [hi]
      show (if (0 : ℕ) = 0 then q else 0) * a.coef j * eCoef L (0 + j.val) k = _
      rw [if_pos rfl, Nat.zero_add]
      ring
    · rw [if_neg hi]
      apply Finset.sum_eq_zero; intro j _
      show (ofRat L q).coef i * a.coef j * eCoef L (i.val + j.val) k = 0
      have : (ofRat L q).coef i = 0 := by
        show (if i.val = 0 then q else 0) = 0
        rw [if_neg (by simpa [Fin.ext_iff] using hi)]
      rw [this]
      ring
  rw [Finset.sum_congr rfl (fun i _ => hterm i), Finset.sum_ite_eq' Finset.univ]
  rw [if_pos (Finset.mem_univ _), ← Finset.mul_sum, sum_coef_eCoef]

theorem ofRat_mul_ofRat (q r : ℚ) : ofRat L q * ofRat L r = ofRat L (q * r) := by
  rw [ofRat_mul]
  apply ext'
  intro k
  show q * (if k.val = 0 then r else 0) = (if k.val = 0 then q * r else 0)
  by_cases hk : k.val = 0
  · rw [if_pos hk, if_pos hk]
  · rw [if_neg hk, if_neg hk, mul_zero]

theorem ofRat_one : ofRat L 1 = 1 := by
  apply ext'
  intro k
  show (if k.val = 0 then (1 : ℚ) else 0) = eCoef L 0 k
  rw [eCoef_of_lt (two_pow_pos L)]

theorem ofRat_add (q r : ℚ) : ofRat L q + ofRat L r = ofRat L (q + r) := by
  apply ext'
  intro k
  show (if k.val = 0 then q else 0) + (if k.val = 0 then r else 0)
      = (if k.val = 0 then q + r else 0)
  by_cases hk : k.val = 0
  · simp [hk]
  · simp [hk]

/-- `1/√2 = (ζ₈ + ζ₈⁻¹)/2`, with `ζ₈ = ζ^(2^(L-2))` the primitive eighth
root of unity (meaningful for `2 ≤ L`). -/
def invSqrt2 (L : ℕ) : K L :=
  ofRat L (1 / 2) * (eN L (2 ^ (L - 2)) + eN L (7 * 2 ^ (L - 2)))

theorem invSqrt2_mul_self {L : ℕ} (hL : 2 ≤ L) :
    invSqrt2 L * invSqrt2 L = ofRat L (1 / 2) := by
  obtain ⟨N, rfl⟩ : ∃ N, L = N + 2 := ⟨L - 2, by omega⟩
  set x : K (N + 2) := eN (N + 2) (2 ^ (N + 2 - 2)) with hx
  set y : K (N + 2) := eN (N + 2) (7 * 2 ^ (N + 2 - 2)) with hy
  have hNN : N + 2 - 2 = N := by omega
  have hxx : x * x = eN (N + 2) (2 ^ (N + 1)) := by
    rw [hx, eN_mul]
    congr 1
    rw [hNN]
    ring
  have hxy : x * y = 1 := by
    rw [hx, hy, eN_mul]
    have h8 : 2 ^ (N + 2 - 2) + 7 * 2 ^ (N + 2 - 2) = 0 + 2 ^ (N + 2 + 1) := by
      rw [hNN]
      ring
    rw [h8, eN_period, eN_zero_eq_one]
  have hyy : y * y = -(eN (N + 2) (2 ^ (N + 1))) := by
    rw [hy, eN_mul]
    have h14 : 7 * 2 ^ (N + 2 - 2) + 7 * 2 ^ (N + 2 - 2)
        = (2 ^ (N + 1) + 2 ^ (N + 2)) + 2 ^ (N + 2 + 1) := by
      rw [hNN]
      ring
    rw [h14, eN_period, eN_half]
  have expand : invSqrt2 (N + 2) * invSqrt2 (N + 2)
      = ofRat (N + 2) (1 / 2) * ofRat (N + 2) (1 / 2)
        * (x * x + (x * y + (y * x + y * y))) := by
    unfold invSqrt2
    rw [← hx, ← hy]
    ring
  rw [expand, hxx, hxy, mul_comm y x, hxy, hyy]
  have hsum : eN (N + 2) (2 ^ (N + 1)) + (1 + (1 + -(eN (N + 2) (2 ^ (N + 1)))))
      = 1 + 1 := by ring
  rw [hsum, ofRat_mul_ofRat]
  have h11 : (1 : K (N + 2)) + 1 = ofRat (N + 2) 2 := by
    rw [← ofRat_one, ofRat_add]
    norm_num
  rw [h11, ofRat_mul_ofRat]
  norm_num

/-- Complex conjugation on `K L` (sends `ζ` to `ζ⁻¹`). -/
def conjK (a : K L) : K L :=
  ⟨fun k => if h0 : k.val = 0 then a.coef ⟨0, two_pow_pos L⟩
    else -(a.coef ⟨2 ^ L - k.val, Nat.sub_lt (two_pow_pos L) (Nat.pos_of_ne_zero h0)⟩)⟩

theorem conjK_neg (a : K L) : conjK (-a) = -(conjK a) := by
  apply ext'
  intro k
  unfold conjK
  by_cases h0 : k.val = 0
  · simp [h0]
  · simp [h0]

theorem conjK_zero : conjK (0 : K L) = 0 := by
  apply ext'
  intro k
  unfold conjK
  by_cases h0 : k.val = 0
  · simp [h0]
  · simp [h0]

theorem eZ_add_odd_half {o : ℕ} (ho : Odd o) (z : ℤ) :
    eZ L (z + (o : ℤ) * (2 : ℤ) ^ L) = -(eZ L z) := by
  obtain ⟨c, hc⟩ := ho
  have : z + (o : ℤ) * (2 : ℤ) ^ L = (z + (c : ℤ) * (2 : ℤ) ^ (L + 1)) + (2 : ℤ) ^ L := by
    rw [hc]
    push_cast
    ring
  rw [this, eZ_add_half, eZ_add_mul_period]

end K

/-- `ω^t` where `ω = exp(2·π·i/2^m)` is the basic `2^m`-th root of unity
used on an `m`-qubit sum register (faithful for `m ≤ L + 1`). -/
def wroot (L m : ℕ) (t : ℤ) : K L := K.eZ L (t * (2 : ℤ) ^ (L + 1 - m))

theorem wroot_add (L m : ℕ) (a b : ℤ) :
    wroot L m (a + b) = wroot L m a * wroot L m b := by
  unfold wroot
  rw [add_mul, K.eZ_add]

theorem wroot_zero (L m : ℕ) : wroot L m 0 = 1 := by
  unfold wroot
  rw [zero_mul, K.eZ_zero_eq_one]

theorem wroot_add_mul_two_pow {L m : ℕ} (hm : m ≤ L + 1) (t c : ℤ) :
    wroot L m (t + c * (2 : ℤ) ^ m) = wroot L m t := by
  unfold wroot
  have hexp : (t + c * (2 : ℤ) ^ m) * (2 : ℤ) ^ (L + 1 - m)
      = t * (2 : ℤ) ^ (L + 1 - m) + c * (2 : ℤ) ^ (L + 1) := by
    have h2 : (2 : ℤ) ^ m * (2 : ℤ) ^ (L + 1 - m) = (2 : ℤ) ^ (L + 1) := by
      rw [← pow_add]
      congr 1
      omega
    calc (t + c * (2 : ℤ) ^ m) * (2 : ℤ) ^ (L + 1 - m)
        = t * (2 : ℤ) ^ (L + 1 - m) + c * ((2 : ℤ) ^ m * (2 : ℤ) ^ (L + 1 - m)) := by ring
      _ = t * (2 : ℤ) ^ (L + 1 - m) + c * (2 : ℤ) ^ (L + 1) := by rw [h2]
  rw [hexp, K.eZ_add_mul_period]

theorem wroot_eq_of_emod {L m : ℕ} (hm : m ≤ L + 1) {a b : ℤ}
    (h : a % ((2 : ℤ) ^ m) = b % ((2 : ℤ) ^ m)) : wroot L m a = wroot L m b := by
  have hmod : a ≡ b [ZMOD ((2 : ℤ) ^ m)] := h
  obtain ⟨c, hc⟩ := Int.ModEq.dvd hmod
  have hb : b = a + c * (2 : ℤ) ^ m := by linarith
  rw [hb, wroot_add_mul_two_pow hm]

/-- A sum over an even number of blocks cancels when shifting by one block
negates the summand. -/
theorem sum_cancel_blocks {M : Type*} [AddCommGroup M] (g : ℕ → M) (hs n : ℕ)
    (hg : ∀ z, g (z + hs) = -(g z)) :
    ∑ z ∈ Finset.range (2 * n * hs), g z = 0 := by
  induction n with
  | zero => simp
  | succ n ih =>
      have hsplit : 2 * (n + 1) * hs = 2 * n * hs + (hs + hs) := by ring
      rw [hsplit, Finset.sum_range_add, ih, zero_add, Finset.sum_range_add]
      have hneg : ∀ x, g (2 * n * hs + (hs + x)) = -(g (2 * n * hs + x)) := by
        intro x
        rw [show 2 * n * hs + (hs + x) = (2 * n * hs + x) + hs by ring, hg]
      rw [Finset.sum_congr rfl (fun x _ => hneg x), Finset.sum_neg_distrib]
      exact add_neg_cancel _

/-- Sum of a fixed nontrivial power of all `2^m`-th roots of unity is zero. -/
theorem sum_wroot_eq_zero {L m : ℕ} (hm : m ≤ L + 1) (d : ℕ) (hd0 : 0 < d)
    (hdm : d < 2 ^ m) :
    ∑ z ∈ Finset.range (2 ^ m), wroot L m ((d : ℤ) * (z : ℤ)) = 0 := by
  obtain ⟨u, o, hod, hdo⟩ : ∃ u o, ¬2 ∣ o ∧ d = 2 ^ u * o :=
    Nat.exists_eq_pow_mul_and_not_dvd (Nat.pos_iff_ne_zero.mp hd0) 2 (by norm_num)
  have hoodd : Odd o := Nat.odd_iff.mpr (Nat.not_even_iff.mp (fun he => hod he.two_dvd))
  have hm1 : 1 ≤ m := by
    by_contra hc
    have hm0 : m = 0 := by omega
    rw [hm0] at hdm
    omega
  have hu : u < m := by
    have h2u : 2 ^ u ≤ d := by
      rw [hdo]
      exact Nat.le_mul_of_pos_right _ hoodd.pos
    have h2um : (2 : ℕ) ^ u < 2 ^ m := lt_of_le_of_lt h2u hdm
    exact (Nat.pow_lt_pow_iff_right (by norm_num)).mp h2um
  have hpair : ∀ z : ℕ, wroot L m ((d : ℤ) * ((z + 2 ^ (m - 1 - u) : ℕ) : ℤ))
      = -(wroot L m ((d : ℤ) * (z : ℤ))) := by
    intro z
    have hkeyN : d * 2 ^ (m - 1 - u) * 2 ^ (L + 1 - m) = o * 2 ^ L := by
      rw [hdo, show 2 ^ u * o * 2 ^ (m - 1 - u) * 2 ^ (L + 1 - m)
          = o * (2 ^ u * 2 ^ (m - 1 - u) * 2 ^ (L + 1 - m)) by ring]
      congr 1
      rw [← pow_add, ← pow_add]
      congr 1
      omega
    have hkey : (d : ℤ) * ((2 : ℤ) ^ (m - 1 - u)) * (2 : ℤ) ^ (L + 1 - m)
        = (o : ℤ) * (2 : ℤ) ^ L := by exact_mod_cast hkeyN
    unfold wroot
    have hsplit : (d : ℤ) * ((z + 2 ^ (m - 1 - u) : ℕ) : ℤ) * (2 : ℤ) ^ (L + 1 - m)
        = (d : ℤ) * (z : ℤ) * (2 : ℤ) ^ (L + 1 - m) + (o : ℤ) * (2 : ℤ) ^ L := by
      push_cast
      linear_combination hkey
    rw [hsplit, K.eZ_add_odd_half hoodd]
  have h2m : 2 ^ m = 2 * 2 ^ u * 2 ^ (m - 1 - u) := by
    rw [show (2 : ℕ) * 2 ^ u * 2 ^ (m - 1 - u) = 2 ^ (1 + u + (m - 1 - u)) by
      rw [pow_add, pow_add, pow_one]]
    congr 1
    omega
  rw [h2m]
  exact sum_cancel_blocks (fun z => wroot L m ((d : ℤ) * (z : ℤ))) (2 ^ (m - 1 - u))
    (2 ^ u) hpair

/-! ### Bit reversal -/

/-- Reversal of the low `m` bits of `y` (the value `Σ y_j · 2^(m-1-j)`). -/
def brev (m y : ℕ) : ℕ :=
  ∑ j ∈ Finset.range m, if y.testBit j then 2 ^ (m - 1 - j) else 0

theorem sum_range_two_pow (m : ℕ) : ∑ i ∈ Finset.range m, 2 ^ i = 2 ^ m - 1 := by
  induction m with
  | zero => simp
  | succ m ih =>
      rw [Finset.sum_range_succ, ih]
      have h1 : (2 : ℕ) ^ (m + 1) = 2 * 2 ^ m := by rw [pow_succ]; ring
      have h2 : 0 < (2 : ℕ) ^ m := K.two_pow_pos m
      omega

theorem brev_lt (m y : ℕ) : brev m y < 2 ^ m := by
  have hle : brev m y ≤ ∑ j ∈ Finset.range m, 2 ^ (m - 1 - j) := by
    apply Finset.sum_le_sum
    intro j _
    split
    · exact le_refl _
    · exact Nat.zero_le _
  have hre : ∑ j ∈ Finset.range m, 2 ^ (m - 1 - j) = 2 ^ m - 1 := by
    rw [Finset.sum_range_reflect (fun j => 2 ^ j) m]
    exact sum_range_two_pow m
  have h2 : 0 < (2 : ℕ) ^ m := K.two_pow_pos m
  omega

theorem brev_succ (m y : ℕ) :
    brev (m + 1) y = (if y.testBit 0 then 2 ^ m else 0) + brev m (y / 2) := by
  unfold brev
  rw [Finset.sum_range_succ' (fun j => if y.testBit j then 2 ^ (m + 1 - 1 - j) else 0) m]
  rw [Nat.add_comm, show m + 1 - 1 - 0 = m from by omega]
  congr 1
  apply Finset.sum_congr rfl
  intro j _
  rw [Nat.testBit_succ, show m + 1 - 1 - (j + 1) = m - 1 - j from by omega]

theorem brev_testBit (m y i : ℕ) :
    (brev m y).testBit i = if i < m then y.testBit (m - 1 - i) else false := by
  induction m generalizing y i with
  | zero => simp [brev]
  | succ m ih =>
      have hform : brev (m + 1) y
          = 2 ^ m * (if y.testBit 0 then 1 else 0) + brev m (y / 2) := by
        rw [brev_succ]
        by_cases hc : y.testBit 0
        · rw [if_pos hc, if_pos hc, mul_one]
        · rw [if_neg hc, if_neg hc, mul_zero]
      rw [hform, Nat.testBit_mul_pow_two_add _ (brev_lt m (y / 2)) i]
      by_cases him : i < m
      · have h1 : i < m + 1 := by omega
        rw [if_pos him, ih, if_pos him, if_pos h1]
        have h2 : m + 1 - 1 - i = (m - 1 - i) + 1 := by omega
        rw [h2, Nat.testBit_succ]
      · by_cases hieq : i = m
        · subst hieq
          have h1 : i < i + 1 := by omega
          rw [if_neg him, if_pos h1, Nat.sub_self]
          have h2 : i + 1 - 1 - i = 0 := by omega
          rw [h2]
          cases hyb : y.testBit 0 <;> simp [hyb]
        · have h1 : ¬i < m + 1 := by omega
          rw [if_neg him, if_neg h1]
          have h2 : (if y.testBit 0 then 1 else 0) < 2 ^ (i - m) := by
            have hge : 1 ≤ i - m := by omega
            have h3 : (2 : ℕ) ≤ 2 ^ (i - m) := by
              calc (2 : ℕ) = 2 ^ 1 := rfl
                _ ≤ 2 ^ (i - m) := Nat.pow_le_pow_right (by norm_num) hge
            split <;> omega
          exact Nat.testBit_eq_false_of_lt h2

theorem brev_brev {m y : ℕ} (hy : y < 2 ^ m) : brev m (brev m y) = y := by
  apply Nat.eq_of_testBit_eq
  intro i
  rw [brev_testBit, brev_testBit]
  by_cases him : i < m
  · rw [if_pos him, if_pos (by omega)]
    congr 1
    omega
  · rw [if_neg him]
    exact (Nat.testBit_eq_false_of_lt
      (lt_of_lt_of_le hy (Nat.pow_le_pow_right (by norm_num) (by omega)))).symm

theorem sum_brev_reindex {M : Type*} [AddCommMonoid M] (m : ℕ) (f : ℕ → M) :
    ∑ z ∈ Finset.range (2 ^ m), f (brev m z) = ∑ z ∈ Finset.range (2 ^ m), f z := by
  apply Finset.sum_bij' (fun z _ => brev m z) (fun z _ => brev m z)
  · intro a ha
    exact Finset.mem_range.mpr (brev_lt m a)
  · intro a ha
    exact Finset.mem_range.mpr (brev_lt m a)
  · intro a ha
    exact brev_brev (Finset.mem_range.mp ha)
  · intro a ha
    exact brev_brev (Finset.mem_range.mp ha)
  · intro a _
    rfl

/-! ### Quantum states and gates -/

/-- State of a quantum register: the amplitude (in `K L`) of each little-endian
computational-basis index. -/
abbrev V (L : ℕ) := ℕ → K L

/-- Scaling a state by an amplitude. -/
def KS {L : ℕ} (c : K L) (v : V L) : V L := fun n => c * v n

/-- Computational basis state `|n₀⟩`. -/
def bv (L : ℕ) (n₀ : ℕ) : V L := fun n => if n = n₀ then 1 else 0

/-- Gates appearing in the solver's circuits.  A `cp` gate stores its phase
angle as a rational multiple of `2·π` (the Python code passes the float
`2·π·r` to `QuantumCircuit.cp`); `qft o m`/`iqft o m` are the library's
`QFT(m, do_swaps=False)` gate and its inverse acting on qubits
`o, …, o+m-1`. -/
inductive QGate where
  | x (q : ℕ)
  | h (q : ℕ)
  | cp (r : ℚ) (c : ℕ) (t : ℕ)
  | mcx (cs : List ℕ) (t : ℕ)
  | qft (o : ℕ) (m : ℕ)
  | iqft (o : ℕ) (m : ℕ)
  deriving DecidableEq

/-- Flip bit `q` of `n`. -/
def bflip (q n : ℕ) : ℕ := n ^^^ 2 ^ q

/-- Clear bit `q` of `n`. -/
def bclr (q n : ℕ) : ℕ := if n.testBit q then bflip q n else n

/-- Set bit `q` of `n`. -/
def bset (q n : ℕ) : ℕ := if n.testBit q then n else bflip q n

/-- Bits `o, …, o+m-1` of `n`, as a number below `2^m`. -/
def midb (o m n : ℕ) : ℕ := n / 2 ^ o % 2 ^ m

/-- Replace bits `o, …, o+m-1` of `n` by the `m`-bit value `y`. -/
def repMid (o m n y : ℕ) : ℕ :=
  n % 2 ^ o + 2 ^ o * y + 2 ^ (o + m) * (n / 2 ^ (o + m))

/-- The amplitude `exp(i·θ)` for a phase angle `θ = 2·π·r`; faithful whenever
the denominator of `r` divides `2^(L+1)`. -/
def phaseRat (L : ℕ) (r : ℚ) : K L :=
  if (r * 2 ^ (L + 1)).den = 1 then K.eZ L (r * 2 ^ (L + 1)).num else 1

/-- The normalisation `(1/√2)^m`. -/
def nrm (L m : ℕ) : K L := K.invSqrt2 L ^ m

/-- Action of one gate on a state.

* `x`, `mcx` permute basis states.
* `h` is the Hadamard matrix `((1,1),(1,-1))/√2` on bit `q`.
* `cp` multiplies by `exp(2·π·i·r)` exactly when both involved bits are set.
* `qft o m` is `QFT(m, do_swaps=False)`: it maps `|v⟩` to
  `(1/√2^m)·Σ_s ω^(v·brev s)·|s⟩` with `ω = exp(2·π·i/2^m)` (the swap-free
  Qiskit QFT produces the Fourier transform with bit-reversed output), and
  `iqft o m` is its inverse (conjugate transpose). -/
def applyGate (L : ℕ) : QGate → V L → V L
  | .x q, v => fun n => v (bflip q n)
  | .h q, v => fun n =>
      K.invSqrt2 L * (v (bclr q n) + (if n.testBit q then -1 else 1) * v (bset q n))
  | .cp r c t, v => fun n =>
      (if n.testBit c && n.testBit t then phaseRat L r else 1) * v n
  | .mcx cs t, v => fun n => v (if cs.all n.testBit then bflip t n else n)
  | .qft o m, v => fun n =>
      nrm L m * ∑ y ∈ Finset.range (2 ^ m),
        wroot L m ((y : ℤ) * (brev m (midb o m n) : ℤ)) * v (repMid o m n y)
  | .iqft o m, v => fun n =>
      nrm L m * ∑ y ∈ Finset.range (2 ^ m),
        wroot L m (-((midb o m n : ℤ) * (brev m y : ℤ))) * v (repMid o m n y)

/-- Run a list of gates (first gate applied first). -/
def runG (L : ℕ) (gs : List QGate) (v : V L) : V L :=
  gs.foldl (fun w g => applyGate L g w) v

theorem runG_nil {L : ℕ} (v : V L) : runG L [] v = v := rfl

theorem runG_cons {L : ℕ} (g : QGate) (gs : List QGate) (v : V L) :
    runG L (g :: gs) v = runG L gs (applyGate L g v) := rfl

theorem runG_append {L : ℕ} (g1 g2 : List QGate) (v : V L) :
    runG L (g1 ++ g2) v = runG L g2 (runG L g1 v) := by
  unfold runG
  exact List.foldl_append _ _ _ _

theorem applyGate_add {L : ℕ} (g : QGate) (v w : V L) :
    applyGate L g (v + w) = applyGate L g v + applyGate L g w := by
  cases g with
  | x q =>
      funext n
      show (v + w) (bflip q n) = _
      simp [applyGate, Pi.add_apply]
  | h q =>
      funext n
      show K.invSqrt2 L * ((v + w) (bclr q n) + _ * (v + w) (bset q n)) = _
      simp only [Pi.add_apply, applyGate]
      ring
  | cp r c t =>
      funext n
      simp only [Pi.add_apply, applyGate]
      ring
  | mcx cs t =>
      funext n
      simp [applyGate, Pi.add_apply]
  | qft o m =>
      funext n
      simp only [Pi.add_apply, applyGate]
      rw [← mul_add, ← Finset.sum_add_distrib]
      congr 1
      apply Finset.sum_congr rfl
      intro y _
      ring
  | iqft o m =>
      funext n
      simp only [Pi.add_apply, applyGate]
      rw [← mul_add, ← Finset.sum_add_distrib]
      congr 1
      apply Finset.sum_congr rfl
      intro y _
      ring

theorem applyGate_ks {L : ℕ} (g : QGate) (c : K L) (v : V L) :
    applyGate L g (KS c v) = KS c (applyGate L g v) := by
  cases g with
  | x q =>
      funext n
      simp [applyGate, KS]
  | h q =>
      funext n
      simp only [applyGate, KS]
      ring
  | cp r c' t =>
      funext n
      simp only [applyGate, KS]
      ring
  | mcx cs t =>
      funext n
      simp [applyGate, KS]
  | qft o m =>
      funext n
      simp only [applyGate, KS]
      rw [Finset.mul_sum]
      rw [Finset.mul_sum]
      rw [Finset.mul_sum]
      apply Finset.sum_congr rfl
      intro y _
      ring
  | iqft o m =>
      funext n
      simp only [applyGate, KS]
      rw [Finset.mul_sum]
      rw [Finset.mul_sum]
      rw [Finset.mul_sum]
      apply Finset.sum_congr rfl
      intro y _
      ring

theorem applyGate_zero {L : ℕ} (g : QGate) : applyGate L g (0 : V L) = 0 := by
  cases g with
  | x q => funext n; simp [applyGate]
  | h q => funext n; simp [applyGate]
  | cp r c t => funext n; simp [applyGate]
  | mcx cs t => funext n; simp [applyGate]
  | qft o m => funext n; simp [applyGate]
  | iqft o m => funext n; simp [applyGate]

theorem runG_add {L : ℕ} (gs : List QGate) (v w : V L) :
    runG L gs (v + w) = runG L gs v + runG L gs w := by
  induction gs generalizing v w with
  | nil => rfl
  | cons g gs ih => rw [runG_cons, runG_cons, runG_cons, applyGate_add, ih]

theorem runG_ks {L : ℕ} (gs : List QGate) (c : K L) (v : V L) :
    runG L gs (KS c v) = KS c (runG L gs v) := by
  induction gs generalizing v with
  | nil => rfl
  | cons g gs ih => rw [runG_cons, runG_cons, applyGate_ks, ih]

theorem runG_zero {L : ℕ} (gs : List QGate) : runG L gs (0 : V L) = 0 := by
  induction gs with
  | nil => rfl
  | cons g gs ih => rw [runG_cons, applyGate_zero, ih]

theorem runG_sum {L : ℕ} {ι : Type} (gs : List QGate) (F : Finset ι) (f : ι → V L) :
    runG L gs (∑ y ∈ F, f y) = ∑ y ∈ F, runG L gs (f y) := by
  classical
  induction F using Finset.induction with
  | empty => simp [runG_zero]
  | insert hni ih =>
      rw [Finset.sum_insert hni, Finset.sum_insert hni, runG_add, ih]

theorem KS_add {L : ℕ} (c : K L) (v w : V L) : KS c (v + w) = KS c v + KS c w := by
  funext n
  simp only [KS, Pi.add_apply]
  ring

theorem KS_ks {L : ℕ} (a b : K L) (v : V L) : KS a (KS b v) = KS (a * b) v := by
  funext n
  simp only [KS]
  ring

theorem KS_one {L : ℕ} (v : V L) : KS 1 v = v := by
  funext n
  simp [KS]

theorem KS_sum {L : ℕ} {ι : Type} (c : K L) (F : Finset ι) (f : ι → V L) :
    KS c (∑ y ∈ F, f y) = ∑ y ∈ F, KS c (f y) := by
  funext n
  simp only [KS, Finset.sum_apply]
  rw [Finset.mul_sum]

/-! ### Bit-manipulation lemmas -/

theorem bflip_bflip (q n : ℕ) : bflip q (bflip q n) = n := by
  unfold bflip
  rw [Nat.xor_assoc, Nat.xor_self, Nat.xor_zero]

theorem bflip_eq_iff {q n n' : ℕ} : bflip q n = n' ↔ n = bflip q n' := by
  constructor
  · intro hc
    rw [← hc, bflip_bflip]
  · intro hc
    rw [hc, bflip_bflip]

theorem testBit_bflip_self (q n : ℕ) : (bflip q n).testBit q = !(n.testBit q) := by
  unfold bflip
  rw [Nat.testBit_xor, Nat.testBit_two_pow_self, Bool.xor_true]

theorem testBit_bflip_ne {q i : ℕ} (hne : q ≠ i) (n : ℕ) :
    (bflip q n).testBit i = n.testBit i := by
  unfold bflip
  rw [Nat.testBit_xor, Nat.testBit_two_pow_of_ne hne, Bool.xor_false]

theorem ne_of_testBit_ne {n n' q : ℕ} (hne : n.testBit q ≠ n'.testBit q) : n ≠ n' := by
  intro hc
  rw [hc] at hne
  exact hne rfl

theorem midb_lt (o m n : ℕ) : midb o m n < 2 ^ m := Nat.mod_lt _ (K.two_pow_pos m)

theorem repMid_expand (o m n y : ℕ) :
    repMid o m n y = n % 2 ^ o + 2 ^ o * (y + 2 ^ m * (n / 2 ^ (o + m))) := by
  unfold repMid
  rw [pow_add]
  ring

theorem low_repMid (o m n y : ℕ) : repMid o m n y % 2 ^ o = n % 2 ^ o := by
  rw [repMid_expand, Nat.add_mul_mod_self_left, Nat.mod_mod_of_dvd n (dvd_refl _)]

theorem high_repMid (o m n : ℕ) {y : ℕ} (hy : y < 2 ^ m) :
    repMid o m n y / 2 ^ (o + m) = n / 2 ^ (o + m) := by
  have h1 : n % 2 ^ o < 2 ^ o := Nat.mod_lt _ (K.two_pow_pos o)
  have hlow : n % 2 ^ o + 2 ^ o * y < 2 ^ (o + m) := by
    calc n % 2 ^ o + 2 ^ o * y < 2 ^ o + 2 ^ o * y := by omega
      _ = 2 ^ o * (y + 1) := by ring
      _ ≤ 2 ^ o * 2 ^ m := Nat.mul_le_mul_left _ (by omega)
      _ = 2 ^ (o + m) := (pow_add 2 o m).symm
  have hrw : repMid o m n y
      = (n % 2 ^ o + 2 ^ o * y) + 2 ^ (o + m) * (n / 2 ^ (o + m)) := by
    unfold repMid
    ring
  rw [hrw, Nat.add_mul_div_left _ _ (K.two_pow_pos (o + m)), Nat.div_eq_of_lt hlow,
    Nat.zero_add]

theorem repMid_midb (o m n : ℕ) : repMid o m n (midb o m n) = n := by
  unfold repMid midb
  have hpow : (2 : ℕ) ^ (o + m) = 2 ^ o * 2 ^ m := pow_add 2 o m
  have h2 : n / 2 ^ o % 2 ^ m = n % 2 ^ (o + m) / 2 ^ o := by
    rw [hpow, Nat.mod_mul_right_div_self]
  have h1 : n % 2 ^ o = n % 2 ^ (o + m) % 2 ^ o := by
    rw [Nat.mod_mod_of_dvd n (pow_dvd_pow 2 (Nat.le_add_right o m))]
  rw [h1, h2, Nat.mod_add_div (n % 2 ^ (o + m)) (2 ^ o), Nat.mod_add_div n (2 ^ (o + m))]

theorem midb_repMid (o m n : ℕ) {y : ℕ} (hy : y < 2 ^ m) :
    midb o m (repMid o m n y) = y := by
  unfold midb
  rw [repMid_expand, Nat.add_mul_div_left _ _ (K.two_pow_pos o),
    Nat.div_eq_of_lt (Nat.mod_lt _ (K.two_pow_pos o)), Nat.zero_add,
    Nat.add_mul_mod_self_left, Nat.mod_eq_of_lt hy]

theorem repMid_repMid (o m n z : ℕ) {y : ℕ} (hy : y < 2 ^ m) :
    repMid o m (repMid o m n y) z = repMid o m n z := by
  show (repMid o m n y) % 2 ^ o + 2 ^ o * z + 2 ^ (o + m) * ((repMid o m n y) / 2 ^ (o + m))
      = repMid o m n z
  rw [low_repMid, high_repMid o m n hy]
  rfl

theorem repMid_eq_iff_out (o m n n₀ : ℕ) :
    repMid o m n (midb o m n₀) = n₀
      ↔ (n % 2 ^ o = n₀ % 2 ^ o ∧ n / 2 ^ (o + m) = n₀ / 2 ^ (o + m)) := by
  constructor
  · intro hc
    constructor
    · rw [← hc, low_repMid]
    · rw [← hc, high_repMid o m n (midb_lt o m n₀)]
  · intro hx
    have : repMid o m n (midb o m n₀) = repMid o m n₀ (midb o m n₀) := by
      unfold repMid
      rw [hx.1, hx.2]
    rw [this, repMid_midb]

theorem repMid_cond_symm (o m n n₀ : ℕ) :
    repMid o m n (midb o m n₀) = n₀ ↔ n = repMid o m n₀ (midb o m n) := by
  rw [repMid_eq_iff_out]
  have h2 := repMid_eq_iff_out o m n₀ n
  constructor
  · intro hx
    exact (h2.mpr ⟨hx.1.symm, hx.2.symm⟩).symm
  · intro hx
    have hy := h2.mp hx.symm
    exact ⟨hy.1.symm, hy.2.symm⟩

/-! ### Action of single gates on basis states -/

theorem apply_x_bv {L : ℕ} (q n₀ : ℕ) :
    applyGate L (.x q) (bv L n₀) = bv L (bflip q n₀) := by
  funext n
  show (if bflip q n = n₀ then (1 : K L) else 0) = (if n = bflip q n₀ then 1 else 0)
  by_cases hc : bflip q n = n₀
  · rw [if_pos hc, if_pos (bflip_eq_iff.mp hc)]
  · rw [if_neg hc, if_neg (fun hx => hc (bflip_eq_iff.mpr hx))]

theorem apply_cp_bv {L : ℕ} (r : ℚ) (c t n₀ : ℕ) :
    applyGate L (.cp r c t) (bv L n₀)
      = KS (if n₀.testBit c && n₀.testBit t then phaseRat L r else 1) (bv L n₀) := by
  funext n
  show (if n.testBit c && n.testBit t then phaseRat L r else 1) * bv L n₀ n
      = (if n₀.testBit c && n₀.testBit t then phaseRat L r else 1) * bv L n₀ n
  by_cases hn : n = n₀
  · rw [hn]
  · have h0 : bv L n₀ n = 0 := by
      unfold bv
      rw [if_neg hn]
    rw [h0, mul_zero, mul_zero]

theorem all_testBit_bflip {t n : ℕ} (cs : List ℕ) (hq : ∀ c ∈ cs, c ≠ t) :
    cs.all (bflip t n).testBit = cs.all n.testBit := by
  induction cs with
  | nil => rfl
  | cons c cs ih =>
      rw [List.all_cons, List.all_cons, ih (fun c' hc' => hq c' (List.mem_cons_of_mem c hc'))]
      rw [testBit_bflip_ne (fun hx => hq c (List.mem_cons_self c cs) hx.symm) n]

/-- The multi-controlled-X permutation. -/
def mcxPerm (cs : List ℕ) (t n : ℕ) : ℕ := if cs.all n.testBit then bflip t n else n

theorem mcxPerm_mcxPerm (cs : List ℕ) (t : ℕ) (hq : ∀ c ∈ cs, c ≠ t) (n : ℕ) :
    mcxPerm cs t (mcxPerm cs t n) = n := by
  unfold mcxPerm
  by_cases hall : cs.all n.testBit
  · rw [if_pos hall, if_pos (by rw [all_testBit_bflip cs hq]; exact hall), bflip_bflip]
  · rw [if_neg hall, if_neg hall]

theorem apply_mcx_bv {L : ℕ} (cs : List ℕ) (t n₀ : ℕ) (hq : ∀ c ∈ cs, c ≠ t) :
    applyGate L (.mcx cs t) (bv L n₀) = bv L (mcxPerm cs t n₀) := by
  funext n
  show (if mcxPerm cs t n = n₀ then (1 : K L) else 0)
      = (if n = mcxPerm cs t n₀ then 1 else 0)
  by_cases hc : mcxPerm cs t n = n₀
  · rw [if_pos hc, if_pos (by rw [← hc, mcxPerm_mcxPerm cs t hq])]
  · rw [if_neg hc, if_neg (fun hx => hc (by rw [hx, mcxPerm_mcxPerm cs t hq]))]

theorem apply_h_bv {L : ℕ} (q n₀ : ℕ) :
    applyGate L (.h q) (bv L n₀)
      = KS (K.invSqrt2 L)
          (bv L (bclr q n₀)
            + KS (if n₀.testBit q then -1 else 1) (bv L (bset q n₀))) := by
  funext n
  show K.invSqrt2 L * (bv L n₀ (bclr q n) + (if n.testBit q then -1 else 1) * bv L n₀ (bset q n))
      = K.invSqrt2 L * (bv L (bclr q n₀) n + (if n₀.testBit q then -1 else 1) * bv L (bset q n₀) n)
  congr 1
  by_cases hn : n.testBit q <;> by_cases h0 : n₀.testBit q
  · -- both bits set: terms match under `bflip_eq_iff`
    rw [show bclr q n = bflip q n from if_pos hn,
      show bset q n = n from if_pos hn,
      show bclr q n₀ = bflip q n₀ from if_pos h0,
      show bset q n₀ = n₀ from if_pos h0,
      if_pos hn, if_pos h0]
    show (if bflip q n = n₀ then (1 : K L) else 0) + -1 * (if n = n₀ then (1 : K L) else 0)
        = (if n = bflip q n₀ then (1 : K L) else 0) + -1 * (if n = n₀ then (1 : K L) else 0)
    congr 1
    by_cases hc : bflip q n = n₀
    · rw [if_pos hc, if_pos (bflip_eq_iff.mp hc)]
    · rw [if_neg hc, if_neg (fun hx => hc (bflip_eq_iff.mpr hx))]
  · -- n bit set, n₀ bit clear
    have h0' : n₀.testBit q = false := by simpa using h0
    have hne1 : n ≠ n₀ := ne_of_testBit_ne (by rw [hn, h0']; simp)
    rw [show bclr q n = bflip q n from if_pos hn,
      show bset q n = n from if_pos hn,
      show bclr q n₀ = n₀ from if_neg h0,
      show bset q n₀ = bflip q n₀ from if_neg h0,
      if_pos hn, if_neg h0]
    show (if bflip q n = n₀ then (1 : K L) else 0) + -1 * (if n = n₀ then (1 : K L) else 0)
        = (if n = n₀ then (1 : K L) else 0) + 1 * (if n = bflip q n₀ then (1 : K L) else 0)
    rw [if_neg hne1]
    by_cases hc : bflip q n = n₀
    · rw [if_pos hc, if_pos (bflip_eq_iff.mp hc)]
      ring
    · rw [if_neg hc, if_neg (fun hx => hc (bflip_eq_iff.mpr hx))]
      ring
  · -- n bit clear, n₀ bit set
    have hn' : n.testBit q = false := by simpa using hn
    have hne1 : n ≠ n₀ := ne_of_testBit_ne (by rw [hn', h0]; simp)
    rw [show bclr q n = n from if_neg hn,
      show bset q n = bflip q n from if_neg hn,
      show bclr q n₀ = bflip q n₀ from if_pos h0,
      show bset q n₀ = n₀ from if_pos h0,
      if_neg hn, if_pos h0]
    show (if n = n₀ then (1 : K L) else 0) + 1 * (if bflip q n = n₀ then (1 : K L) else 0)
        = (if n = bflip q n₀ then (1 : K L) else 0) + -1 * (if n = n₀ then (1 : K L) else 0)
    rw [if_neg hne1]
    by_cases hc : bflip q n = n₀
    · rw [if_pos hc, if_pos (bflip_eq_iff.mp hc)]
      ring
    · rw [if_neg hc, if_neg (fun hx => hc (bflip_eq_iff.mpr hx))]
      ring
  · -- both bits clear: terms match under `bflip_eq_iff`
    rw [show bclr q n = n from if_neg hn,
      show bset q n = bflip q n from if_neg hn,
      show bclr q n₀ = n₀ from if_neg h0,
      show bset q n₀ = bflip q n₀ from if_neg h0,
      if_neg hn, if_neg h0]
    show (if n = n₀ then (1 : K L) else 0) + 1 * (if bflip q n = n₀ then (1 : K L) else 0)
        = (if n = n₀ then (1 : K L) else 0) + 1 * (if n = bflip q n₀ then (1 : K L) else 0)
    congr 2
    by_cases hc : bflip q n = n₀
    · rw [if_pos hc, if_pos (bflip_eq_iff.mp hc)]
    · rw [if_neg hc, if_neg (fun hx => hc (bflip_eq_iff.mpr hx))]

/-- Common collapse computation for `qft`/`iqft` applied to a basis state:
a gate whose matrix entry between mid-values `y` (input) and `z` (output) is
`nrm·C z y` maps `|n₀⟩` to `Σ_z nrm·C z (midb n₀)·|repMid n₀ z⟩`. -/
theorem apply_fourierlike_bv {L : ℕ} (o m n₀ : ℕ) (C : ℕ → ℕ → K L) :
    (fun n => nrm L m * ∑ y ∈ Finset.range (2 ^ m),
        C (midb o m n) y * bv L n₀ (repMid o m n y))
      = ∑ z ∈ Finset.range (2 ^ m),
          KS (nrm L m * C z (midb o m n₀)) (bv L (repMid o m n₀ z)) := by
  funext n
  have hmem : midb o m n₀ ∈ Finset.range (2 ^ m) := Finset.mem_range.mpr (midb_lt o m n₀)
  have hmem2 : midb o m n ∈ Finset.range (2 ^ m) := Finset.mem_range.mpr (midb_lt o m n)
  have hLHS : (nrm L m * ∑ y ∈ Finset.range (2 ^ m),
      C (midb o m n) y * bv L n₀ (repMid o m n y))
      = nrm L m * (C (midb o m n) (midb o m n₀)
          * (if repMid o m n (midb o m n₀) = n₀ then 1 else 0)) := by
    congr 1
    have hterm : ∀ y ∈ Finset.range (2 ^ m),
        C (midb o m n) y * bv L n₀ (repMid o m n y)
        = if y = midb o m n₀ then
            C (midb o m n) (midb o m n₀)
              * (if repMid o m n (midb o m n₀) = n₀ then 1 else 0) else 0 := by
      intro y hy
      by_cases hc : y = midb o m n₀
      · subst hc
        rw [if_pos rfl]
        rfl
      · rw [if_neg hc]
        have hzero : bv L n₀ (repMid o m n y) = 0 := by
          unfold bv
          rw [if_neg (fun hx => hc
            (by rw [← midb_repMid o m n (Finset.mem_range.mp hy), hx]))]
        rw [hzero, mul_zero]
    rw [Finset.sum_congr rfl hterm, Finset.sum_ite_eq' _ (midb o m n₀) _, if_pos hmem]
  have hRHS : (∑ z ∈ Finset.range (2 ^ m),
      KS (nrm L m * C z (midb o m n₀)) (bv L (repMid o m n₀ z))) n
      = (nrm L m * C (midb o m n) (midb o m n₀))
          * (if n = repMid o m n₀ (midb o m n) then 1 else 0) := by
    rw [Finset.sum_apply]
    have hterm : ∀ z ∈ Finset.range (2 ^ m),
        KS (nrm L m * C z (midb o m n₀)) (bv L (repMid o m n₀ z)) n
        = if z = midb o m n then
            (nrm L m * C (midb o m n) (midb o m n₀))
              * (if n = repMid o m n₀ (midb o m n) then 1 else 0) else 0 := by
      intro z hz
      by_cases hc : z = midb o m n
      · subst hc
        rw [if_pos rfl]
        rfl
      · rw [if_neg hc]
        have hzero : bv L (repMid o m n₀ z) n = 0 := by
          unfold bv
          rw [if_neg (fun hx => hc
            (by rw [hx, midb_repMid o m n₀ (Finset.mem_range.mp hz)]))]
        show (nrm L m * C z (midb o m n₀)) * bv L (repMid o m n₀ z) n = 0
        rw [hzero, mul_zero]
    rw [Finset.sum_congr rfl hterm, Finset.sum_ite_eq' _ (midb o m n) _, if_pos hmem2]
  show (nrm L m * ∑ y ∈ Finset.range (2 ^ m),
      C (midb o m n) y * bv L n₀ (repMid o m n y)) = _
  rw [hLHS, hRHS]
  by_cases hcond : repMid o m n (midb o m n₀) = n₀
  · rw [if_pos hcond, if_pos ((repMid_cond_symm o m n n₀).mp hcond)]
    ring
  · rw [if_neg hcond, if_neg (fun hx => hcond ((repMid_cond_symm o m n n₀).mpr hx))]
    ring

theorem apply_qft_bv {L : ℕ} (o m n₀ : ℕ) :
    applyGate L (.qft o m) (bv L n₀)
      = ∑ z ∈ Finset.range (2 ^ m),
          KS (nrm L m * wroot L m ((midb o m n₀ : ℤ) * (brev m z : ℤ)))
            (bv L (repMid o m n₀ z)) := by
  have hgen := apply_fourierlike_bv o m n₀
    (fun z y => wroot L m ((y : ℤ) * (brev m z : ℤ)))
  calc applyGate L (.qft o m) (bv L n₀)
      = ∑ z ∈ Finset.range (2 ^ m),
          KS (nrm L m * wroot L m ((midb o m n₀ : ℤ) * (brev m z : ℤ)))
            (bv L (repMid o m n₀ z)) := hgen
    _ = _ := rfl

theorem apply_iqft_bv {L : ℕ} (o m n₀ : ℕ) :
    applyGate L (.iqft o m) (bv L n₀)
      = ∑ z ∈ Finset.range (2 ^ m),
          KS (nrm L m * wroot L m (-((z : ℤ) * (brev m (midb o m n₀) : ℤ))))
            (bv L (repMid o m n₀ z)) := by
  have hgen := apply_fourierlike_bv o m n₀
    (fun z y => wroot L m (-((z : ℤ) * (brev m y : ℤ))))
  exact hgen

theorem KS_zero_left {L : ℕ} (v : V L) : KS 0 v = 0 := by
  funext n
  simp [KS]

theorem KS_zero_right {L : ℕ} (c : K L) : KS c (0 : V L) = 0 := by
  funext n
  simp [KS]

theorem sum_KS_same {L : ℕ} {ι : Type} (F : Finset ι) (a : ι → K L) (v : V L) :
    ∑ z ∈ F, KS (a z) v = KS (∑ z ∈ F, a z) v := by
  funext n
  rw [Finset.sum_apply]
  show ∑ z ∈ F, a z * v n = (∑ z ∈ F, a z) * v n
  rw [Finset.sum_mul]

theorem applyGate_sum {L : ℕ} {ι : Type} (g : QGate) (F : Finset ι) (f : ι → V L) :
    applyGate L g (∑ y ∈ F, f y) = ∑ y ∈ F, applyGate L g (f y) :=
  runG_sum [g] F f

theorem sum_range_double {M : Type*} [AddCommMonoid M] (n : ℕ) (f : ℕ → M) :
    ∑ y ∈ Finset.range (2 * n), f y
      = ∑ y ∈ Finset.range n, (f (2 * y) + f (2 * y + 1)) := by
  induction n with
  | zero => simp
  | succ n ih =>
      rw [show 2 * (n + 1) = (2 * n + 1) + 1 by ring, Finset.sum_range_succ,
        Finset.sum_range_succ, ih, Finset.sum_range_succ, add_assoc]

theorem repMid_add (o m n y : ℕ) : repMid o m n y = repMid o m n 0 + 2 ^ o * y := by
  unfold repMid
  ring

/-- A mid-window bit of `n` is the corresponding low bit of `midb o m n`. -/
theorem testBit_eq_midb_bit (o m j n : ℕ) (hj : j < m) :
    n.testBit (o + j) = (midb o m n).testBit j := by
  rw [Nat.testBit_to_div_mod, Nat.testBit_to_div_mod]
  have h1 : n / 2 ^ (o + j) = n / 2 ^ o / 2 ^ j := by
    rw [Nat.div_div_eq_div_mul, pow_add]
  have h2 : midb o m n / 2 ^ j % 2 = n / 2 ^ o / 2 ^ j % 2 := by
    unfold midb
    rw [show (2 : ℕ) ^ m = 2 ^ j * 2 ^ (m - j) from by rw [← pow_add]; congr 1; omega]
    rw [Nat.mod_mul_right_div_self]
    rw [Nat.mod_mod_of_dvd _ (dvd_pow_self 2 (show m - j ≠ 0 by omega))]
  rw [h2, h1]

theorem testBit_repMid_bit0 (o m n y : ℕ) (hm : 0 < m) (hy : y < 2 ^ m) :
    (repMid o m n y).testBit o = y.testBit 0 := by
  have h := testBit_eq_midb_bit o m 0 (repMid o m n y) hm
  rw [Nat.add_zero] at h
  rw [h, midb_repMid o m n hy]

/-- Flipping an unset bit is addition of `2^q`. -/
theorem bflip_of_testBit_false {q n : ℕ} (h : n.testBit q = false) :
    bflip q n = n + 2 ^ q := by
  have hc : n % 2 ^ (q + 1) < 2 ^ q := by
    have h2 : (n % 2 ^ (q + 1)).testBit q = false := by
      rw [Nat.testBit_mod_two_pow]
      simp [h]
    rw [Nat.testBit_to_div_mod] at h2
    have hlt2 : n % 2 ^ (q + 1) / 2 ^ q < 2 := by
      rw [Nat.div_lt_iff_lt_mul (K.two_pow_pos q)]
      calc n % 2 ^ (q + 1) < 2 ^ (q + 1) := Nat.mod_lt _ (K.two_pow_pos _)
        _ = 2 * 2 ^ q := by rw [pow_succ]; ring
    have hne : n % 2 ^ (q + 1) / 2 ^ q ≠ 1 := by
      intro hc
      rw [hc] at h2
      simp at h2
    have h0 : n % 2 ^ (q + 1) / 2 ^ q = 0 := by
      generalize hx : n % 2 ^ (q + 1) / 2 ^ q = x at hlt2 hne
      omega
    exact (Nat.div_eq_zero_iff (K.two_pow_pos q)).mp h0
  have hlt1 : n % 2 ^ (q + 1) < 2 ^ (q + 1) := Nat.mod_lt _ (K.two_pow_pos _)
  have hn : n = 2 ^ (q + 1) * (n / 2 ^ (q + 1)) + n % 2 ^ (q + 1) :=
    (Nat.div_add_mod n (2 ^ (q + 1))).symm
  apply Nat.eq_of_testBit_eq
  intro i
  have hrhs : n + 2 ^ q
      = 2 ^ (q + 1) * (n / 2 ^ (q + 1)) + (2 ^ q * 1 + n % 2 ^ (q + 1)) := by
    conv_lhs => rw [hn]
    ring
  have hinlt : 2 ^ q * 1 + n % 2 ^ (q + 1) < 2 ^ (q + 1) := by
    have : (2 : ℕ) ^ (q + 1) = 2 ^ q + 2 ^ q := by rw [pow_succ]; ring
    omega
  rw [show bflip q n = n ^^^ 2 ^ q from rfl, Nat.testBit_xor, hrhs,
    Nat.testBit_mul_pow_two_add _ hinlt i]
  conv_lhs => rw [hn, Nat.testBit_mul_pow_two_add _ hlt1 i]
  by_cases hiq : i < q
  · rw [if_pos (show i < q + 1 by omega), if_pos (show i < q + 1 by omega)]
    rw [Nat.testBit_mul_pow_two_add _ hc i, if_pos hiq]
    rw [Nat.testBit_two_pow_of_ne (show q ≠ i by omega), Bool.xor_false]
  · by_cases hieq : i = q
    · subst hieq
      rw [if_pos (show i < i + 1 by omega), if_pos (show i < i + 1 by omega)]
      rw [Nat.testBit_mul_pow_two_add _ hc i, if_neg (show ¬i < i by omega)]
      rw [Nat.testBit_two_pow_self, Nat.testBit_eq_false_of_lt hc, Nat.sub_self]
      rfl
    · rw [if_neg (show ¬i < q + 1 by omega), if_neg (show ¬i < q + 1 by omega)]
      rw [Nat.testBit_two_pow_of_ne (show q ≠ i by omega), Bool.xor_false]

theorem bflip_repMid_even (o m n : ℕ) {y : ℕ} (hm : 0 < m) (hy : y < 2 ^ m)
    (hy0 : y.testBit 0 = false) :
    bflip o (repMid o m n y) = repMid o m n (y + 1) := by
  rw [bflip_of_testBit_false (by rw [testBit_repMid_bit0 o m n y hm hy, hy0])]
  rw [repMid_add o m n y, repMid_add o m n (y + 1)]
  ring

theorem bflip_repMid_odd (o m n : ℕ) {y : ℕ} (hm : 0 < m) (hy : y < 2 ^ m)
    (hy0 : y.testBit 0 = true) :
    bflip o (repMid o m n y) = repMid o m n (y - 1) := by
  have hy1 : 1 ≤ y := by
    by_contra hc
    have : y = 0 := by omega
    rw [this] at hy0
    simp [Nat.zero_testBit] at hy0
  have hodd : y % 2 = 1 := by
    rw [Nat.testBit_zero] at hy0
    simpa using hy0
  have hprev : (y - 1).testBit 0 = false := by
    rw [Nat.testBit_zero]
    simp
    omega
  have h1 : bflip o (repMid o m n (y - 1)) = repMid o m n y := by
    rw [bflip_repMid_even o m n hm (by omega) hprev]
    congr 1
    omega
  rw [← h1, bflip_bflip]

/-- Splitting the lowest bit off a bit window of `repMid`. -/
theorem repMid_window_succ (o r n₀ : ℕ) {d : ℕ} (hd : d < 2) (y' : ℕ) :
    repMid o (r + 1) n₀ (d + 2 * y')
      = repMid (o + 1) r (repMid o (r + 1) n₀ d) y' := by
  have hlow : n₀ % 2 ^ o + 2 ^ o * d < 2 ^ (o + 1) := by
    have h1 : n₀ % 2 ^ o < 2 ^ o := Nat.mod_lt _ (K.two_pow_pos o)
    have h2 : (2 : ℕ) ^ (o + 1) = 2 ^ o + 2 ^ o := by rw [pow_succ]; ring
    have h3 : 2 ^ o * d ≤ 2 ^ o * 1 := Nat.mul_le_mul_left _ (by omega)
    omega
  have hB : repMid o (r + 1) n₀ d
      = (n₀ % 2 ^ o + 2 ^ o * d) + 2 ^ (o + 1) * (2 ^ r * (n₀ / 2 ^ (o + (r + 1)))) := by
    unfold repMid
    rw [show (2 : ℕ) ^ (o + (r + 1)) = 2 ^ (o + 1) * 2 ^ r from by
      rw [← pow_add]; congr 1; omega]
    ring
  have hmod : repMid o (r + 1) n₀ d % 2 ^ (o + 1) = n₀ % 2 ^ o + 2 ^ o * d := by
    rw [hB, Nat.add_mul_mod_self_left, Nat.mod_eq_of_lt hlow]
  have hdiv : repMid o (r + 1) n₀ d / 2 ^ (o + 1 + r) = n₀ / 2 ^ (o + (r + 1)) := by
    rw [hB, show (2 : ℕ) ^ (o + 1 + r) = 2 ^ (o + 1) * 2 ^ r from by
      rw [← pow_add]]
    rw [← Nat.div_div_eq_div_mul]
    rw [Nat.add_mul_div_left _ _ (K.two_pow_pos (o + 1)), Nat.div_eq_of_lt hlow,
      Nat.zero_add, Nat.mul_div_cancel_left _ (K.two_pow_pos r)]
  show repMid o (r + 1) n₀ (d + 2 * y')
      = repMid o (r + 1) n₀ d % 2 ^ (o + 1) + 2 ^ (o + 1) * y'
        + 2 ^ (o + 1 + r) * (repMid o (r + 1) n₀ d / 2 ^ (o + 1 + r))
  rw [hmod, hdiv]
  unfold repMid
  rw [show (2 : ℕ) ^ (o + 1 + r) = 2 ^ (o + (r + 1)) from by congr 1; omega]
  ring

theorem bclr_of_false {q n : ℕ} (h : n.testBit q = false) : bclr q n = n := by
  simp [bclr, h]

theorem bclr_of_true {q n : ℕ} (h : n.testBit q = true) : bclr q n = bflip q n := by
  simp [bclr, h]

theorem bset_of_false {q n : ℕ} (h : n.testBit q = false) : bset q n = bflip q n := by
  simp [bset, h]

theorem bset_of_true {q n : ℕ} (h : n.testBit q = true) : bset q n = n := by
  simp [bset, h]

/-- The scalar `√2 = 2·(1/√2)` raised to the `r`-th power. -/
def sq2p (L r : ℕ) : K L := ((1 + 1 : K L) * K.invSqrt2 L) ^ r

theorem one_add_one_eq_ofRat_two {L : ℕ} : (1 + 1 : K L) = K.ofRat L 2 := by
  rw [← K.ofRat_one, K.ofRat_add]
  norm_num

theorem two_invSqrt2_sq {L : ℕ} (hL : 2 ≤ L) :
    (1 + 1 : K L) * (K.invSqrt2 L * K.invSqrt2 L) = 1 := by
  rw [K.invSqrt2_mul_self hL, one_add_one_eq_ofRat_two, K.ofRat_mul_ofRat]
  norm_num
  exact K.ofRat_one

theorem nrm_mul_sq2p {L : ℕ} (hL : 2 ≤ L) (r : ℕ) : nrm L r * sq2p L r = 1 := by
  unfold nrm sq2p
  rw [← mul_pow]
  rw [show K.invSqrt2 L * ((1 + 1) * K.invSqrt2 L)
      = (1 + 1 : K L) * (K.invSqrt2 L * K.invSqrt2 L) from by ring]
  rw [two_invSqrt2_sq hL, one_pow]

theorem nrm_succ {L : ℕ} (r : ℕ) : nrm L (r + 1) = nrm L r * K.invSqrt2 L := by
  unfold nrm
  rw [pow_succ]

/-- Hadamards on a window of zeroed qubits produce the uniform superposition
over that window. -/
theorem hladder_build {L : ℕ} (r : ℕ) : ∀ (o n₀ : ℕ),
    runG L ((List.range' o r).map QGate.h) (bv L (repMid o r n₀ 0))
      = ∑ y ∈ Finset.range (2 ^ r), KS (nrm L r) (bv L (repMid o r n₀ y)) := by
  induction r with
  | zero =>
      intro o n₀
      rw [show (2 : ℕ) ^ 0 = 1 from rfl, Finset.sum_range_one]
      rw [show nrm L 0 = 1 from pow_zero _, KS_one]
      rfl
  | succ r ih =>
      intro o n₀
      rw [List.range'_succ, List.map_cons, runG_cons]
      have hbit : (repMid o (r + 1) n₀ 0).testBit o = false := by
        rw [testBit_repMid_bit0 o (r + 1) n₀ 0 (by omega) (K.two_pow_pos _)]
        exact Nat.zero_testBit 0
      have hflip : bflip o (repMid o (r + 1) n₀ 0) = repMid o (r + 1) n₀ 1 := by
        rw [bflip_repMid_even o (r + 1) n₀ (by omega) (K.two_pow_pos _)
          (Nat.zero_testBit 0)]
      have hstep : applyGate L (.h o) (bv L (repMid o (r + 1) n₀ 0))
          = KS (K.invSqrt2 L) (bv L (repMid o (r + 1) n₀ 0)
              + KS 1 (bv L (repMid o (r + 1) n₀ 1))) := by
        rw [apply_h_bv, bclr_of_false hbit, bset_of_false hbit, hflip, hbit]
        rfl
      rw [hstep, runG_ks, runG_add, runG_ks]
      have hE0 : repMid (o + 1) r (repMid o (r + 1) n₀ 0) 0 = repMid o (r + 1) n₀ 0 := by
        have hw := repMid_window_succ o r n₀ (show (0 : ℕ) < 2 by omega) 0
        simpa using hw.symm
      have hE1 : repMid (o + 1) r (repMid o (r + 1) n₀ 1) 0 = repMid o (r + 1) n₀ 1 := by
        have hw := repMid_window_succ o r n₀ (show (1 : ℕ) < 2 by omega) 0
        simpa using hw.symm
      rw [show bv L (repMid o (r + 1) n₀ 0)
          = bv L (repMid (o + 1) r (repMid o (r + 1) n₀ 0) 0) from by rw [hE0]]
      rw [show bv L (repMid o (r + 1) n₀ 1)
          = bv L (repMid (o + 1) r (repMid o (r + 1) n₀ 1) 0) from by rw [hE1]]
      rw [ih (o + 1) (repMid o (r + 1) n₀ 0), ih (o + 1) (repMid o (r + 1) n₀ 1)]
      rw [KS_one, KS_add, KS_sum, KS_sum]
      rw [show (2 : ℕ) ^ (r + 1) = 2 * 2 ^ r from by rw [pow_succ]; ring]
      rw [sum_range_double]
      rw [← Finset.sum_add_distrib]
      apply Finset.sum_congr rfl
      intro y' _
      have hw0 : repMid (o + 1) r (repMid o (r + 1) n₀ 0) y' = repMid o (r + 1) n₀ (2 * y') := by
        have hw := repMid_window_succ o r n₀ (show (0 : ℕ) < 2 by omega) y'
        rw [← hw]
        congr 1
        omega
      have hw1 : repMid (o + 1) r (repMid o (r + 1) n₀ 1) y'
          = repMid o (r + 1) n₀ (2 * y' + 1) := by
        have hw := repMid_window_succ o r n₀ (show (1 : ℕ) < 2 by omega) y'
        rw [← hw]
        congr 1
        omega
      rw [hw0, hw1, KS_ks, KS_ks]
      have hco : K.invSqrt2 L * nrm L r = nrm L (r + 1) := by
        rw [nrm_succ]
        ring
      rw [hco]

theorem testBit0_double (y : ℕ) : (2 * y).testBit 0 = false := by
  rw [Nat.testBit_zero, show 2 * y % 2 = 0 from by omega]
  rfl

theorem testBit0_double_succ (y : ℕ) : (2 * y + 1).testBit 0 = true := by
  rw [Nat.testBit_zero, show (2 * y + 1) % 2 = 1 from by omega]
  rfl

theorem win0 (o r n₀ y' : ℕ) :
    repMid o (r + 1) n₀ (2 * y') = repMid (o + 1) r (repMid o (r + 1) n₀ 0) y' := by
  have hw := repMid_window_succ o r n₀ (show (0 : ℕ) < 2 by omega) y'
  rw [← hw]
  congr 1
  omega

theorem win1 (o r n₀ y' : ℕ) :
    repMid o (r + 1) n₀ (2 * y' + 1) = repMid (o + 1) r (repMid o (r + 1) n₀ 1) y' := by
  have hw := repMid_window_succ o r n₀ (show (1 : ℕ) < 2 by omega) y'
  rw [← hw]
  congr 1
  omega

theorem apply_h_even {L : ℕ} (o m n₀ y : ℕ) (hm : 0 < m) (hy : y < 2 ^ m)
    (hy0 : y.testBit 0 = false) :
    applyGate L (.h o) (bv L (repMid o m n₀ y))
      = KS (K.invSqrt2 L)
          (bv L (repMid o m n₀ y) + KS 1 (bv L (repMid o m n₀ (y + 1)))) := by
  have hbit : (repMid o m n₀ y).testBit o = y.testBit 0 := testBit_repMid_bit0 o m n₀ y hm hy
  rw [apply_h_bv, bclr_of_false (by rw [hbit, hy0]), bset_of_false (by rw [hbit, hy0]),
    bflip_repMid_even o m n₀ hm hy hy0, hbit, hy0]
  rfl

theorem apply_h_odd {L : ℕ} (o m n₀ y : ℕ) (hm : 0 < m) (hy : y < 2 ^ m)
    (hy0 : y.testBit 0 = true) :
    applyGate L (.h o) (bv L (repMid o m n₀ y))
      = KS (K.invSqrt2 L)
          (bv L (repMid o m n₀ (y - 1)) + KS (-1) (bv L (repMid o m n₀ y))) := by
  have hbit : (repMid o m n₀ y).testBit o = y.testBit 0 := testBit_repMid_bit0 o m n₀ y hm hy
  rw [apply_h_bv, bclr_of_true (by rw [hbit, hy0]), bset_of_true (by rw [hbit, hy0]),
    bflip_repMid_odd o m n₀ hm hy hy0, hbit, hy0]
  rfl

/-- Hadamards on a window holding a full uniform family of basis states merge
it back into the all-zero window state (scaled by `√2` per qubit). -/
theorem hladder_merge {L : ℕ} (r : ℕ) : ∀ (o n₀ : ℕ) (c : K L),
    runG L ((List.range' o r).map QGate.h)
        (∑ y ∈ Finset.range (2 ^ r), KS c (bv L (repMid o r n₀ y)))
      = KS (c * sq2p L r) (bv L (repMid o r n₀ 0)) := by
  induction r with
  | zero =>
      intro o n₀ c
      rw [show (2 : ℕ) ^ 0 = 1 from rfl, Finset.sum_range_one]
      rw [show sq2p L 0 = 1 from pow_zero _, mul_one]
      rfl
  | succ r ih =>
      intro o n₀ c
      rw [List.range'_succ, List.map_cons, runG_cons]
      have hdist : applyGate L (.h o)
          (∑ y ∈ Finset.range (2 ^ (r + 1)), KS c (bv L (repMid o (r + 1) n₀ y)))
          = ∑ y ∈ Finset.range (2 ^ (r + 1)),
              KS c (applyGate L (.h o) (bv L (repMid o (r + 1) n₀ y))) := by
        rw [applyGate_sum]
        apply Finset.sum_congr rfl
        intro y _
        rw [applyGate_ks]
      rw [hdist, show (2 : ℕ) ^ (r + 1) = 2 * 2 ^ r from by rw [pow_succ]; ring,
        sum_range_double]
      have h2r : (2 : ℕ) * 2 ^ r = 2 ^ (r + 1) := by rw [pow_succ]; ring
      have hpair : ∀ y' ∈ Finset.range (2 ^ r),
          (KS c (applyGate L (.h o) (bv L (repMid o (r + 1) n₀ (2 * y')))) +
            KS c (applyGate L (.h o) (bv L (repMid o (r + 1) n₀ (2 * y' + 1)))))
          = KS (c * ((1 + 1) * K.invSqrt2 L))
              (bv L (repMid (o + 1) r (repMid o (r + 1) n₀ 0) y')) := by
        intro y' hy'
        have hy'r : y' < 2 ^ r := Finset.mem_range.mp hy'
        have hyE : 2 * y' < 2 ^ (r + 1) := by omega
        have hyO : 2 * y' + 1 < 2 ^ (r + 1) := by omega
        rw [apply_h_even o (r + 1) n₀ (2 * y') (by omega) hyE (testBit0_double y')]
        rw [apply_h_odd o (r + 1) n₀ (2 * y' + 1) (by omega) hyO (testBit0_double_succ y')]
        rw [show 2 * y' + 1 - 1 = 2 * y' from by omega]
        have hcomb : KS c (KS (K.invSqrt2 L) (bv L (repMid o (r + 1) n₀ (2 * y'))
              + KS 1 (bv L (repMid o (r + 1) n₀ (2 * y' + 1)))))
            + KS c (KS (K.invSqrt2 L) (bv L (repMid o (r + 1) n₀ (2 * y'))
              + KS (-1) (bv L (repMid o (r + 1) n₀ (2 * y' + 1)))))
            = KS (c * ((1 + 1) * K.invSqrt2 L)) (bv L (repMid o (r + 1) n₀ (2 * y'))) := by
          funext n
          simp only [KS, Pi.add_apply]
          ring
        rw [hcomb, win0]
      rw [Finset.sum_congr rfl hpair]
      rw [ih (o + 1) (repMid o (r + 1) n₀ 0) (c * ((1 + 1) * K.invSqrt2 L))]
      have hE0 : repMid (o + 1) r (repMid o (r + 1) n₀ 0) 0 = repMid o (r + 1) n₀ 0 := by
        have hw := win0 o r n₀ 0
        rw [show 2 * 0 = 0 from rfl] at hw
        exact hw.symm
      rw [hE0]
      unfold sq2p
      rw [pow_succ]
      ring

/-- Interleaved Hadamard-then-X pairs send the uniform window family to the
all-ones window basis state. -/
theorem hxladder {L : ℕ} (r : ℕ) : ∀ (o n₀ : ℕ) (c : K L),
    runG L ((List.range' o r).flatMap (fun k => [QGate.h k, QGate.x k]))
        (∑ y ∈ Finset.range (2 ^ r), KS c (bv L (repMid o r n₀ y)))
      = KS (c * sq2p L r) (bv L (repMid o r n₀ (2 ^ r - 1))) := by
  induction r with
  | zero =>
      intro o n₀ c
      rw [show (2 : ℕ) ^ 0 = 1 from rfl, Finset.sum_range_one]
      rw [show sq2p L 0 = 1 from pow_zero _, mul_one]
      rfl
  | succ r ih =>
      intro o n₀ c
      rw [List.range'_succ, List.flatMap_cons]
      rw [show ([QGate.h o, QGate.x o] : List QGate)
            ++ (List.range' (o + 1) r).flatMap (fun k => [QGate.h k, QGate.x k])
          = QGate.h o :: QGate.x o ::
            (List.range' (o + 1) r).flatMap (fun k => [QGate.h k, QGate.x k]) from rfl]
      rw [runG_cons, runG_cons]
      have hdist : applyGate L (.h o)
          (∑ y ∈ Finset.range (2 ^ (r + 1)), KS c (bv L (repMid o (r + 1) n₀ y)))
          = ∑ y ∈ Finset.range (2 ^ (r + 1)),
              KS c (applyGate L (.h o) (bv L (repMid o (r + 1) n₀ y))) := by
        rw [applyGate_sum]
        apply Finset.sum_congr rfl
        intro y _
        rw [applyGate_ks]
      rw [hdist, show (2 : ℕ) ^ (r + 1) = 2 * 2 ^ r from by rw [pow_succ]; ring,
        sum_range_double]
      have hpair : ∀ y' ∈ Finset.range (2 ^ r),
          (KS c (applyGate L (.h o) (bv L (repMid o (r + 1) n₀ (2 * y')))) +
            KS c (applyGate L (.h o) (bv L (repMid o (r + 1) n₀ (2 * y' + 1)))))
          = KS (c * ((1 + 1) * K.invSqrt2 L)) (bv L (repMid o (r + 1) n₀ (2 * y'))) := by
        intro y' hy'
        have hy'r : y' < 2 ^ r := Finset.mem_range.mp hy'
        have h2r : (2 : ℕ) * 2 ^ r = 2 ^ (r + 1) := by rw [pow_succ]; ring
        have hyE : 2 * y' < 2 ^ (r + 1) := by omega
        have hyO : 2 * y' + 1 < 2 ^ (r + 1) := by omega
        rw [apply_h_even o (r + 1) n₀ (2 * y') (by omega) hyE (testBit0_double y')]
        rw [apply_h_odd o (r + 1) n₀ (2 * y' + 1) (by omega) hyO (testBit0_double_succ y')]
        rw [show 2 * y' + 1 - 1 = 2 * y' from by omega]
        funext n
        simp only [KS, Pi.add_apply]
        ring
      rw [Finset.sum_congr rfl hpair]
      have hxdist : applyGate L (.x o)
          (∑ y' ∈ Finset.range (2 ^ r),
            KS (c * ((1 + 1) * K.invSqrt2 L)) (bv L (repMid o (r + 1) n₀ (2 * y'))))
          = ∑ y' ∈ Finset.range (2 ^ r),
              KS (c * ((1 + 1) * K.invSqrt2 L))
                (bv L (repMid (o + 1) r (repMid o (r + 1) n₀ 1) y')) := by
        rw [applyGate_sum]
        apply Finset.sum_congr rfl
        intro y' hy'
        have hy'r : y' < 2 ^ r := Finset.mem_range.mp hy'
        have h2r : (2 : ℕ) * 2 ^ r = 2 ^ (r + 1) := by rw [pow_succ]; ring
        rw [applyGate_ks, apply_x_bv]
        rw [bflip_repMid_even o (r + 1) n₀ (by omega) (by omega) (testBit0_double y')]
        rw [show 2 * y' + 1 = 2 * y' + 1 from rfl, win1]
      rw [hxdist]
      rw [ih (o + 1) (repMid o (r + 1) n₀ 1) (c * ((1 + 1) * K.invSqrt2 L))]
      have hfin : repMid (o + 1) r (repMid o (r + 1) n₀ 1) (2 ^ r - 1)
          = repMid o (r + 1) n₀ (2 ^ (r + 1) - 1) := by
        rw [← win1 o r n₀ (2 ^ r - 1)]
        congr 1
        have h1 : 0 < (2 : ℕ) ^ r := K.two_pow_pos r
        have h2 : (2 : ℕ) ^ (r + 1) = 2 * 2 ^ r := by rw [pow_succ]; ring
        omega
      rw [hfin]
      unfold sq2p
      rw [pow_succ]
      ring

/-- Interleaved X-then-Hadamard pairs expand the all-ones window basis state
back to the uniform window family. -/
theorem xhladder {L : ℕ} (r : ℕ) : ∀ (o n₀ : ℕ) (c : K L),
    runG L ((List.range' o r).flatMap (fun k => [QGate.x k, QGate.h k]))
        (KS c (bv L (repMid o r n₀ (2 ^ r - 1))))
      = ∑ y ∈ Finset.range (2 ^ r), KS (c * nrm L r) (bv L (repMid o r n₀ y)) := by
  induction r with
  | zero =>
      intro o n₀ c
      rw [show (2 : ℕ) ^ 0 = 1 from rfl, Finset.sum_range_one]
      rw [show nrm L 0 = 1 from pow_zero _, mul_one]
      rfl
  | succ r ih =>
      intro o n₀ c
      rw [List.range'_succ, List.flatMap_cons]
      rw [show ([QGate.x o, QGate.h o] : List QGate)
            ++ (List.range' (o + 1) r).flatMap (fun k => [QGate.x k, QGate.h k])
          = QGate.x o :: QGate.h o ::
            (List.range' (o + 1) r).flatMap (fun k => [QGate.x k, QGate.h k]) from rfl]
      rw [runG_cons, runG_cons]
      have h1 : 0 < (2 : ℕ) ^ r := K.two_pow_pos r
      have h2 : (2 : ℕ) ^ (r + 1) = 2 * 2 ^ r := by rw [pow_succ]; ring
      have hodd : (2 ^ (r + 1) - 1).testBit 0 = true := by
        rw [Nat.testBit_zero, show (2 ^ (r + 1) - 1) % 2 = 1 from by omega]
        rfl
      have hstep1 : applyGate L (.x o) (KS c (bv L (repMid o (r + 1) n₀ (2 ^ (r + 1) - 1))))
          = KS c (bv L (repMid o (r + 1) n₀ (2 * (2 ^ r - 1)))) := by
        rw [applyGate_ks, apply_x_bv,
          bflip_repMid_odd o (r + 1) n₀ (by omega) (by omega) hodd]
        rw [show 2 ^ (r + 1) - 1 - 1 = 2 * (2 ^ r - 1) from by omega]
      rw [hstep1]
      have hstep2 : applyGate L (.h o)
          (KS c (bv L (repMid o (r + 1) n₀ (2 * (2 ^ r - 1)))))
          = KS (c * K.invSqrt2 L)
              (bv L (repMid (o + 1) r (repMid o (r + 1) n₀ 0) (2 ^ r - 1))
                + bv L (repMid (o + 1) r (repMid o (r + 1) n₀ 1) (2 ^ r - 1))) := by
        rw [applyGate_ks,
          apply_h_even o (r + 1) n₀ (2 * (2 ^ r - 1)) (by omega) (by omega)
            (testBit0_double (2 ^ r - 1))]
        rw [KS_one, KS_ks]
        rw [win0 o r n₀ (2 ^ r - 1), win1 o r n₀ (2 ^ r - 1)]
      rw [hstep2, runG_ks, runG_add]
      have hih0 : runG L ((List.range' (o + 1) r).flatMap (fun k => [QGate.x k, QGate.h k]))
          (bv L (repMid (o + 1) r (repMid o (r + 1) n₀ 0) (2 ^ r - 1)))
          = ∑ y ∈ Finset.range (2 ^ r), KS (nrm L r)
              (bv L (repMid (o + 1) r (repMid o (r + 1) n₀ 0) y)) := by
        have hi := ih (o + 1) (repMid o (r + 1) n₀ 0) 1
        rw [KS_one] at hi
        rw [hi]
        apply Finset.sum_congr rfl
        intro y _
        rw [one_mul]
      have hih1 : runG L ((List.range' (o + 1) r).flatMap (fun k => [QGate.x k, QGate.h k]))
          (bv L (repMid (o + 1) r (repMid o (r + 1) n₀ 1) (2 ^ r - 1)))
          = ∑ y ∈ Finset.range (2 ^ r), KS (nrm L r)
              (bv L (repMid (o + 1) r (repMid o (r + 1) n₀ 1) y)) := by
        have hi := ih (o + 1) (repMid o (r + 1) n₀ 1) 1
        rw [KS_one] at hi
        rw [hi]
        apply Finset.sum_congr rfl
        intro y _
        rw [one_mul]
      rw [hih0, hih1, KS_add, KS_sum, KS_sum]
      rw [show (2 : ℕ) ^ (r + 1) = 2 * 2 ^ r from h2, sum_range_double,
        ← Finset.sum_add_distrib]
      apply Finset.sum_congr rfl
      intro y _
      rw [← win0 o r n₀ y, ← win1 o r n₀ y, KS_ks, KS_ks]
      rw [show c * K.invSqrt2 L * nrm L r = c * nrm L (r + 1) from by rw [nrm_succ]; ring]

theorem bflip_bclr (q n : ℕ) : bflip q (bclr q n) = bset q n := by
  by_cases hb : n.testBit q
  · rw [bclr_of_true hb, bset_of_true hb, bflip_bflip]
  · have hb' : n.testBit q = false := by simpa using hb
    rw [bclr_of_false hb', bset_of_false hb']

theorem bflip_bset (q n : ℕ) : bflip q (bset q n) = bclr q n := by
  rw [← bflip_bclr, bflip_bflip]

theorem testBit_bclr_self (q n : ℕ) : (bclr q n).testBit q = false := by
  by_cases hb : n.testBit q
  · rw [bclr_of_true hb, testBit_bflip_self, hb]
    rfl
  · have hb' : n.testBit q = false := by simpa using hb
    rw [bclr_of_false hb', hb']

theorem testBit_bset_self (q n : ℕ) : (bset q n).testBit q = true := by
  by_cases hb : n.testBit q
  · rw [bset_of_true hb, hb]
  · have hb' : n.testBit q = false := by simpa using hb
    rw [bset_of_false hb', testBit_bflip_self, hb']
    rfl

theorem all_testBit_bclr {q : ℕ} (cs : List ℕ) (hq : ∀ c ∈ cs, c ≠ q) (n : ℕ) :
    cs.all (bclr q n).testBit = cs.all n.testBit := by
  by_cases hb : n.testBit q
  · rw [bclr_of_true hb, all_testBit_bflip cs hq]
  · have hb' : n.testBit q = false := by simpa using hb
    rw [bclr_of_false hb']

theorem all_testBit_bset {q : ℕ} (cs : List ℕ) (hq : ∀ c ∈ cs, c ≠ q) (n : ℕ) :
    cs.all (bset q n).testBit = cs.all n.testBit := by
  by_cases hb : n.testBit q
  · rw [bset_of_true hb]
  · have hb' : n.testBit q = false := by simpa using hb
    rw [bset_of_false hb', all_testBit_bflip cs hq]

theorem apply_h_bclr {L : ℕ} (q n₀ : ℕ) :
    applyGate L (.h q) (bv L (bclr q n₀))
      = KS (K.invSqrt2 L) (bv L (bclr q n₀) + KS 1 (bv L (bset q n₀))) := by
  rw [apply_h_bv, bclr_of_false (testBit_bclr_self q n₀),
    bset_of_false (testBit_bclr_self q n₀), bflip_bclr, testBit_bclr_self]
  rfl

theorem apply_h_bset {L : ℕ} (q n₀ : ℕ) :
    applyGate L (.h q) (bv L (bset q n₀))
      = KS (K.invSqrt2 L) (bv L (bclr q n₀) + KS (-1) (bv L (bset q n₀))) := by
  rw [apply_h_bv, bclr_of_true (testBit_bset_self q n₀), bflip_bset,
    bset_of_true (testBit_bset_self q n₀), testBit_bset_self]
  rfl

/-- The `H – MCX – H` sandwich acts as a multi-controlled `Z`: it flips the
phase of exactly the basis states with all involved bits set. -/
theorem mcz_bv {L : ℕ} (hL : 2 ≤ L) (cs : List ℕ) (q n₀ : ℕ)
    (hq : ∀ c ∈ cs, c ≠ q) :
    runG L [.h q, .mcx cs q, .h q] (bv L n₀)
      = KS (if cs.all n₀.testBit && n₀.testBit q then -1 else 1) (bv L n₀) := by
  have h2 : (1 + 1 : K L) * (K.invSqrt2 L * K.invSqrt2 L) = 1 := two_invSqrt2_sq hL
  have hrun : runG L [.h q, .mcx cs q, .h q] (bv L n₀)
      = applyGate L (.h q) (applyGate L (.mcx cs q) (applyGate L (.h q) (bv L n₀))) := rfl
  rw [hrun, apply_h_bv]
  simp only [applyGate_ks, applyGate_add]
  rw [apply_mcx_bv cs q (bclr q n₀) hq, apply_mcx_bv cs q (bset q n₀) hq]
  by_cases hall : cs.all n₀.testBit
  · have hp1 : mcxPerm cs q (bclr q n₀) = bset q n₀ := by
      unfold mcxPerm
      rw [all_testBit_bclr cs hq n₀, hall, if_pos rfl, bflip_bclr]
    have hp2 : mcxPerm cs q (bset q n₀) = bclr q n₀ := by
      unfold mcxPerm
      rw [all_testBit_bset cs hq n₀, hall, if_pos rfl, bflip_bset]
    rw [hp1, hp2, apply_h_bset, apply_h_bclr]
    by_cases hbit : n₀.testBit q
    · rw [hbit, hall]
      conv_rhs => rw [show n₀ = bset q n₀ from (bset_of_true hbit).symm]
      funext n
      simp only [KS, Pi.add_apply]
      rw [show (if (true && true : Bool) then (-1 : K L) else 1) = -1 from rfl]
      simp only [if_true]
      linear_combination (-(bv L (bset q n₀) n)) * h2
    · have hbit' : n₀.testBit q = false := by simpa using hbit
      rw [hbit', hall]
      conv_rhs => rw [show n₀ = bclr q n₀ from (bclr_of_false hbit').symm]
      funext n
      simp only [KS, Pi.add_apply]
      rw [show (if (true && false : Bool) then (-1 : K L) else 1) = 1 from rfl]
      rw [if_neg (by simp : ¬(false = true))]
      linear_combination (bv L (bclr q n₀) n) * h2
  · have hall' : cs.all n₀.testBit = false := by simpa using hall
    have hp1 : mcxPerm cs q (bclr q n₀) = bclr q n₀ := by
      unfold mcxPerm
      rw [all_testBit_bclr cs hq n₀, hall']
      rfl
    have hp2 : mcxPerm cs q (bset q n₀) = bset q n₀ := by
      unfold mcxPerm
      rw [all_testBit_bset cs hq n₀, hall']
      rfl
    rw [hp1, hp2, apply_h_bclr, apply_h_bset]
    by_cases hbit : n₀.testBit q
    · rw [hbit, hall']
      conv_rhs => rw [show n₀ = bset q n₀ from (bset_of_true hbit).symm]
      funext n
      simp only [KS, Pi.add_apply]
      rw [show (if (false && true : Bool) then (-1 : K L) else 1) = 1 from rfl]
      simp only [if_true]
      linear_combination (bv L (bset q n₀) n) * h2
    · have hbit' : n₀.testBit q = false := by simpa using hbit
      rw [hbit', hall']
      conv_rhs => rw [show n₀ = bclr q n₀ from (bclr_of_false hbit').symm]
      funext n
      simp only [KS, Pi.add_apply]
      rw [show (if (false && false : Bool) then (-1 : K L) else 1) = 1 from rfl]
      rw [if_neg (by simp : ¬(false = true))]
      linear_combination (bv L (bclr q n₀) n) * h2

/-- The Draper Fourier state: base `n₀` whose `[o, o+m)` window holds the
image of `|w mod 2^m⟩` under `QFT(m, do_swaps=False)`, i.e. amplitude
`(1/√2^m)·ω^(w·brev z)` on window value `z`. -/
def fstate (L o m : ℕ) (n₀ : ℕ) (w : ℤ) : V L :=
  ∑ z ∈ Finset.range (2 ^ m),
    KS (nrm L m * wroot L m (w * (brev m z : ℤ))) (bv L (repMid o m n₀ z))

theorem apply_qft_fstate {L : ℕ} (o m n₀ : ℕ) :
    applyGate L (.qft o m) (bv L n₀) = fstate L o m n₀ (midb o m n₀) :=
  apply_qft_bv o m n₀

theorem fstate_repMid {L : ℕ} (o m n₀ : ℕ) {y : ℕ} (hy : y < 2 ^ m) (w : ℤ) :
    fstate L o m (repMid o m n₀ y) w = fstate L o m n₀ w := by
  unfold fstate
  apply Finset.sum_congr rfl
  intro z _
  rw [repMid_repMid o m n₀ z hy]

theorem fstate_congr {L o m : ℕ} (hm : m ≤ L + 1) (n₀ : ℕ) {w w' : ℤ}
    (h : w % ((2 : ℤ) ^ m) = w' % ((2 : ℤ) ^ m)) :
    fstate L o m n₀ w = fstate L o m n₀ w' := by
  unfold fstate
  apply Finset.sum_congr rfl
  intro z _
  have hmod : w * (brev m z : ℤ) % ((2 : ℤ) ^ m)
      = w' * (brev m z : ℤ) % ((2 : ℤ) ^ m) := by
    have hmodeq : w ≡ w' [ZMOD ((2 : ℤ) ^ m)] := h
    exact Int.ModEq.mul_right _ hmodeq
  rw [wroot_eq_of_emod hm hmod]

theorem nrm_sq_mul_two_pow {L : ℕ} (hL : 2 ≤ L) (m : ℕ) :
    nrm L m * nrm L m * ((2 ^ m : ℕ) : K L) = 1 := by
  have hcast : ((2 ^ m : ℕ) : K L) = ((1 + 1 : K L)) ^ m := by
    push_cast
    congr 1
    exact one_add_one_eq_two.symm
  rw [hcast]
  unfold nrm
  rw [← mul_pow, ← mul_pow,
    show K.invSqrt2 L * K.invSqrt2 L * (1 + 1)
      = (1 + 1 : K L) * (K.invSqrt2 L * K.invSqrt2 L) from by ring,
    two_invSqrt2_sq hL, one_pow]

/-- The inverse QFT sends the Fourier state of `w` back to the basis state
with window value `w mod 2^m`. -/
theorem apply_iqft_fstate {L o m : ℕ} (hL : 2 ≤ L) (hm : m ≤ L + 1) (n₀ : ℕ) (w : ℤ) :
    applyGate L (.iqft o m) (fstate L o m n₀ w)
      = bv L (repMid o m n₀ ((w % ((2 : ℤ) ^ m)).toNat)) := by
  have hMpos : (0 : ℤ) < (2 : ℤ) ^ m := K.intPow_two_pos m
  set w₀ : ℕ := (w % ((2 : ℤ) ^ m)).toNat with hw₀
  have hw₀cast : (w₀ : ℤ) = w % ((2 : ℤ) ^ m) :=
    Int.toNat_of_nonneg (Int.emod_nonneg w (ne_of_gt hMpos))
  have hw₀lt : w₀ < 2 ^ m := by
    have h1 : (w₀ : ℤ) < ((2 ^ m : ℕ) : ℤ) := by
      rw [hw₀cast]
      calc w % ((2 : ℤ) ^ m) < (2 : ℤ) ^ m := Int.emod_lt_of_pos w hMpos
        _ = ((2 ^ m : ℕ) : ℤ) := by push_cast; rfl
    exact_mod_cast h1
  unfold fstate
  rw [applyGate_sum]
  have hz : ∀ z ∈ Finset.range (2 ^ m),
      applyGate L (.iqft o m)
        (KS (nrm L m * wroot L m (w * (brev m z : ℤ))) (bv L (repMid o m n₀ z)))
      = ∑ s ∈ Finset.range (2 ^ m),
          KS ((nrm L m * wroot L m (w * (brev m z : ℤ)))
              * (nrm L m * wroot L m (-((s : ℤ) * (brev m z : ℤ)))))
            (bv L (repMid o m n₀ s)) := by
    intro z hzm
    rw [applyGate_ks, apply_iqft_bv, midb_repMid o m n₀ (Finset.mem_range.mp hzm), KS_sum]
    apply Finset.sum_congr rfl
    intro s _
    rw [KS_ks, repMid_repMid o m n₀ s (Finset.mem_range.mp hzm)]
  rw [Finset.sum_congr rfl hz, Finset.sum_comm]
  have hcollapse : ∀ s ∈ Finset.range (2 ^ m),
      (∑ z ∈ Finset.range (2 ^ m),
        KS ((nrm L m * wroot L m (w * (brev m z : ℤ)))
            * (nrm L m * wroot L m (-((s : ℤ) * (brev m z : ℤ)))))
          (bv L (repMid o m n₀ s)))
      = if s = w₀ then bv L (repMid o m n₀ w₀) else 0 := by
    intro s hsm
    have hslt : s < 2 ^ m := Finset.mem_range.mp hsm
    rw [sum_KS_same]
    have hfactor : ∀ z : ℕ,
        (nrm L m * wroot L m (w * (brev m z : ℤ)))
            * (nrm L m * wroot L m (-((s : ℤ) * (brev m z : ℤ))))
        = nrm L m * nrm L m * wroot L m ((w - (s : ℤ)) * (brev m z : ℤ)) := by
      intro z
      rw [show (w - (s : ℤ)) * (brev m z : ℤ)
          = w * (brev m z : ℤ) + (-((s : ℤ) * (brev m z : ℤ))) from by ring, wroot_add]
      ring
    rw [Finset.sum_congr rfl (fun z _ => hfactor z), ← Finset.mul_sum]
    have hreidx : (∑ z ∈ Finset.range (2 ^ m), wroot L m ((w - (s : ℤ)) * (brev m z : ℤ)))
        = ∑ z ∈ Finset.range (2 ^ m), wroot L m ((w - (s : ℤ)) * (z : ℤ)) :=
      sum_brev_reindex m (fun t => wroot L m ((w - (s : ℤ)) * (t : ℤ)))
    rw [hreidx]
    by_cases hsw : s = w₀
    · subst hsw
      have hzero : ∀ z ∈ Finset.range (2 ^ m),
          wroot L m ((w - (w₀ : ℤ)) * (z : ℤ)) = 1 := by
        intro z _
        have h1 : (w - (w₀ : ℤ)) % ((2 : ℤ) ^ m) = 0 := by
          rw [Int.sub_emod,
            show ((w₀ : ℤ)) % ((2 : ℤ) ^ m) = (w₀ : ℤ) from
              Int.emod_eq_of_lt (Int.natCast_nonneg _) (by exact_mod_cast hslt),
            hw₀cast]
          simp
        have hmodeq0 : (w - (w₀ : ℤ)) ≡ 0 [ZMOD ((2 : ℤ) ^ m)] := by
          show (w - (w₀ : ℤ)) % ((2 : ℤ) ^ m) = 0 % ((2 : ℤ) ^ m)
          rw [h1]
          simp
        have hmodeq : (w - (w₀ : ℤ)) * (z : ℤ) ≡ 0 * (z : ℤ) [ZMOD ((2 : ℤ) ^ m)] :=
          Int.ModEq.mul_right _ hmodeq0
        rw [wroot_eq_of_emod hm hmodeq, show ((0 : ℤ) * (z : ℤ)) = 0 from by ring,
          wroot_zero]
      rw [Finset.sum_congr rfl hzero, Finset.sum_const, Finset.card_range,
        nsmul_eq_mul, mul_one, if_pos rfl]
      rw [nrm_sq_mul_two_pow hL m, KS_one]
    · have hdcast : (((w - (s : ℤ)) % ((2 : ℤ) ^ m)).toNat : ℤ)
          = (w - (s : ℤ)) % ((2 : ℤ) ^ m) :=
        Int.toNat_of_nonneg (Int.emod_nonneg _ (ne_of_gt hMpos))
      set d : ℕ := ((w - (s : ℤ)) % ((2 : ℤ) ^ m)).toNat with hd
      have hemlt : (w - (s : ℤ)) % ((2 : ℤ) ^ m) < (2 : ℤ) ^ m :=
        Int.emod_lt_of_pos _ hMpos
      have hdlt : d < 2 ^ m := by
        have h1 : (d : ℤ) < ((2 ^ m : ℕ) : ℤ) := by
          rw [hdcast]
          calc (w - (s : ℤ)) % ((2 : ℤ) ^ m) < (2 : ℤ) ^ m := hemlt
            _ = ((2 ^ m : ℕ) : ℤ) := by push_cast; rfl
        exact_mod_cast h1
      have hdpos : 0 < d := by
        rcases Nat.eq_zero_or_pos d with h0 | hp
        · exfalso
          have hmod0 : (w - (s : ℤ)) % ((2 : ℤ) ^ m) = 0 := by omega
          have hdvd : ((2 : ℤ) ^ m) ∣ (w - (s : ℤ)) := Int.dvd_of_emod_eq_zero hmod0
          have hws : w % ((2 : ℤ) ^ m) = (s : ℤ) % ((2 : ℤ) ^ m) := by
            have hmeq : w ≡ (s : ℤ) [ZMOD ((2 : ℤ) ^ m)] := by
              apply Int.modEq_iff_dvd.mpr
              rw [show (s : ℤ) - w = -(w - (s : ℤ)) from by ring]
              exact dvd_neg.mpr hdvd
            exact hmeq
          have hseq : (s : ℤ) % ((2 : ℤ) ^ m) = (s : ℤ) :=
            Int.emod_eq_of_lt (Int.natCast_nonneg _) (by exact_mod_cast hslt)
          apply hsw
          have : (w₀ : ℤ) = (s : ℤ) := by rw [hw₀cast, hws, hseq]
          exact_mod_cast this.symm
        · exact hp
      have hterm : ∀ z ∈ Finset.range (2 ^ m),
          wroot L m ((w - (s : ℤ)) * (z : ℤ)) = wroot L m ((d : ℤ) * (z : ℤ)) := by
        intro z _
        apply wroot_eq_of_emod hm
        have hmodeq : (w - (s : ℤ)) ≡ (d : ℤ) [ZMOD ((2 : ℤ) ^ m)] := by
          show (w - (s : ℤ)) % ((2 : ℤ) ^ m) = (d : ℤ) % ((2 : ℤ) ^ m)
          rw [hdcast, Int.emod_emod_of_dvd _ (dvd_refl _)]
        exact Int.ModEq.mul_right _ hmodeq
      rw [Finset.sum_congr rfl hterm, sum_wroot_eq_zero hm d hdpos hdlt, mul_zero,
        KS_zero_left, if_neg hsw]
  rw [Finset.sum_congr rfl hcollapse,
    Finset.sum_ite_eq' (Finset.range (2 ^ m)) w₀ (fun _ => bv L (repMid o m n₀ w₀)),
    if_pos (Finset.mem_range.mpr hw₀lt)]

/-! ### Controlled-phase cascades (the Draper adder body) -/

/-- Diagonal factor of a controlled-phase gate at basis index `n`. -/
def cpFactor (L : ℕ) (r : ℚ) (c t n : ℕ) : K L :=
  if n.testBit c && n.testBit t then phaseRat L r else 1

theorem runG_cp_list {L : ℕ} (gs : List (ℚ × ℕ × ℕ)) (v : V L) :
    runG L (gs.map (fun g => QGate.cp g.1 g.2.1 g.2.2)) v
      = fun n => (gs.map (fun g => cpFactor L g.1 g.2.1 g.2.2 n)).prod * v n := by
  induction gs generalizing v with
  | nil =>
      funext n
      show v n = ((List.nil.map (fun g : ℚ × ℕ × ℕ => cpFactor L g.1 g.2.1 g.2.2 n)).prod) * v n
      rw [List.map_nil, List.prod_nil, one_mul]
  | cons g gs ih =>
      rw [List.map_cons, runG_cons, ih]
      funext n
      rw [List.map_cons, List.prod_cons]
      have happ : applyGate L (QGate.cp g.1 g.2.1 g.2.2) v n
          = cpFactor L g.1 g.2.1 g.2.2 n * v n := rfl
      show (gs.map (fun g : ℚ × ℕ × ℕ => cpFactor L g.1 g.2.1 g.2.2 n)).prod
          * applyGate L (QGate.cp g.1 g.2.1 g.2.2) v n = _
      rw [happ]
      ring

theorem phaseRat_eq_wroot {L m j : ℕ} (hj : j < m) (hm : m ≤ L + 1) (b : ℤ) :
    phaseRat L ((b : ℚ) / 2 ^ (j + 1)) = wroot L m (b * 2 ^ (m - 1 - j)) := by
  have hcalc : ((b : ℚ) / 2 ^ (j + 1)) * 2 ^ (L + 1) = ((b * 2 ^ (L - j) : ℤ) : ℚ) := by
    rw [div_mul_eq_mul_div,
      show ((2 : ℚ) ^ (L + 1)) = 2 ^ (j + 1) * 2 ^ (L - j) from by
        rw [← pow_add]; congr 1; omega,
      show (b : ℚ) * (2 ^ (j + 1) * 2 ^ (L - j)) = ((b : ℚ) * 2 ^ (L - j)) * 2 ^ (j + 1) from
        by ring,
      mul_div_assoc, div_self (by positivity : ((2 : ℚ) ^ (j + 1)) ≠ 0), mul_one]
    push_cast
    ring
  unfold phaseRat
  rw [hcalc, Rat.den_intCast, if_pos rfl, Rat.num_intCast]
  unfold wroot
  congr 1
  rw [mul_assoc,
    show ((2 : ℤ) ^ (m - 1 - j) * (2 : ℤ) ^ (L + 1 - m)) = (2 : ℤ) ^ (L - j) from by
      rw [← pow_add]; congr 1; omega]

theorem wroot_sum {L m : ℕ} {ι : Type} (F : Finset ι) (g : ι → ℤ) :
    wroot L m (∑ j ∈ F, g j) = ∏ j ∈ F, wroot L m (g j) := by
  classical
  induction F using Finset.induction with
  | empty => simp [wroot_zero]
  | insert hni ih => rw [Finset.sum_insert hni, Finset.prod_insert hni, wroot_add, ih]

theorem list_prod_range_eq {M : Type*} [CommMonoid M] (m : ℕ) (f : ℕ → M) :
    ((List.range m).map f).prod = ∏ j ∈ Finset.range m, f j := by
  induction m with
  | zero => simp
  | succ m ih =>
      rw [List.range_succ, List.map_append, List.prod_append, Finset.prod_range_succ, ih]
      simp

theorem prod_wroot_bits {L m : ℕ} (b : ℤ) (z : ℕ) :
    (∏ j ∈ Finset.range m, (if z.testBit j then wroot L m (b * 2 ^ (m - 1 - j)) else 1))
      = wroot L m (b * (brev m z : ℤ)) := by
  have hsum : wroot L m (b * (brev m z : ℤ))
      = wroot L m (∑ j ∈ Finset.range m,
          b * (if z.testBit j then ((2 : ℤ) ^ (m - 1 - j)) else 0)) := by
    congr 1
    unfold brev
    push_cast
    rw [Finset.mul_sum]
  rw [hsum, wroot_sum]
  apply Finset.prod_congr rfl
  intro j _
  by_cases hz : z.testBit j
  · rw [if_pos hz, if_pos hz]
  · rw [if_neg hz, if_neg hz, mul_zero, wroot_zero]

theorem prod_wroot_ctrl_list {L m : ℕ} (l : List (ℕ × ℤ)) (x : ℕ) (bz : ℤ) :
    (l.map (fun kb => if x.testBit kb.1 then wroot L m (kb.2 * bz) else 1)).prod
      = wroot L m ((l.map (fun kb => if x.testBit kb.1 then kb.2 else 0)).sum * bz) := by
  induction l with
  | nil =>
      rw [List.map_nil, List.prod_nil, List.map_nil, List.sum_nil, zero_mul, wroot_zero]
  | cons kb l ih =>
      rw [List.map_cons, List.prod_cons, ih, List.map_cons, List.sum_cons,
        show ((if x.testBit kb.1 then kb.2 else 0) + (l.map fun kb =>
            if x.testBit kb.1 then kb.2 else 0).sum) * bz
          = (if x.testBit kb.1 then kb.2 else 0) * bz
            + (l.map fun kb => if x.testBit kb.1 then kb.2 else 0).sum * bz from by ring,
        wroot_add]
      congr 1
      by_cases hx : x.testBit kb.1
      · rw [if_pos hx, if_pos hx]
      · rw [if_neg hx, if_neg hx, zero_mul, wroot_zero]

theorem testBit_repMid_low (o m n y q : ℕ) (hq : q < o) :
    (repMid o m n y).testBit q = n.testBit q := by
  have h2 : ∀ x : ℕ, x.testBit q = (x % 2 ^ o).testBit q := by
    intro x
    rw [Nat.testBit_mod_two_pow]
    simp [hq]
  rw [h2 (repMid o m n y), h2 n, low_repMid]

theorem diag_on_basis_sum {L : ℕ} {ι : Type} (P : ℕ → K L) (F : Finset ι)
    (c : ι → K L) (g : ι → ℕ) :
    (fun n => P n * (∑ z ∈ F, KS (c z) (bv L (g z))) n)
      = ∑ z ∈ F, KS (P (g z) * c z) (bv L (g z)) := by
  funext n
  rw [Finset.sum_apply, Finset.mul_sum, Finset.sum_apply]
  apply Finset.sum_congr rfl
  intro z _
  show P n * (c z * bv L (g z) n) = (P (g z) * c z) * bv L (g z) n
  by_cases hn : n = g z
  · rw [hn]
    ring
  · have hz : bv L (g z) n = 0 := by
      unfold bv
      rw [if_neg hn]
    rw [hz, mul_zero, mul_zero, mul_zero]

/-- The controlled-phase cascade adding each value `B[k]` into the Fourier
window `[o, o+m)` under control of qubit `k`: the body shared by `sum_gate`
and `sub_gate` (gate `cp(2·π·B[k]/2^(j+1), ind[k], summ[j])` for every `k`
and `j`). -/
def cpCascade (o m : ℕ) (B : List ℤ) : List QGate :=
  B.enum.flatMap fun kb =>
    (List.range m).map fun j => QGate.cp ((kb.2 : ℚ) / 2 ^ (j + 1)) kb.1 (o + j)

theorem cpCascade_eq_pairs (o m : ℕ) (B : List ℤ) :
    cpCascade o m B
      = (B.enum.flatMap fun kb => (List.range m).map fun j =>
          (((kb.2 : ℚ) / 2 ^ (j + 1)), kb.1, o + j)).map
        (fun g => QGate.cp g.1 g.2.1 g.2.2) := by
  unfold cpCascade
  rw [List.map_flatMap]
  simp only [List.map_map]
  rfl

theorem testBit_repMid_window (o m n : ℕ) {z : ℕ} (hz : z < 2 ^ m) {j : ℕ} (hj : j < m) :
    (repMid o m n z).testBit (o + j) = z.testBit j := by
  rw [testBit_eq_midb_bit o m j _ hj, midb_repMid o m n hz]

theorem runG_cpCascade_fstate {L o m : ℕ} (hm : m ≤ L + 1) (B : List ℤ)
    (hB : B.length ≤ o) (n₀ : ℕ) (w : ℤ) :
    runG L (cpCascade o m B) (fstate L o m n₀ w)
      = fstate L o m n₀
          (w + (B.enum.map fun kb => if n₀.testBit kb.1 then kb.2 else 0).sum) := by
  rw [cpCascade_eq_pairs, runG_cp_list]
  conv_lhs => rw [fstate]
  rw [diag_on_basis_sum]
  unfold fstate
  apply Finset.sum_congr rfl
  intro z hz
  have hzlt : z < 2 ^ m := Finset.mem_range.mp hz
  have hprod : ∀ x : ℕ,
      ((B.enum.flatMap fun kb => (List.range m).map fun j =>
          (((kb.2 : ℚ) / 2 ^ (j + 1)), kb.1, o + j)).map
        (fun g => cpFactor L g.1 g.2.1 g.2.2 x))
      = B.enum.flatMap fun kb => (List.range m).map fun j =>
          cpFactor L ((kb.2 : ℚ) / 2 ^ (j + 1)) kb.1 (o + j) x := by
    intro x
    rw [List.map_flatMap]
    simp only [List.map_map]
    rfl
  rw [hprod, List.flatMap_def, List.prod_flatten, List.map_map]
  have hinner : ∀ kb ∈ B.enum,
      (List.prod ∘ fun kb : ℕ × ℤ => (List.range m).map fun j =>
          cpFactor L ((kb.2 : ℚ) / 2 ^ (j + 1)) kb.1 (o + j) (repMid o m n₀ z)) kb
      = (if (repMid o m n₀ z).testBit kb.1 then wroot L m (kb.2 * (brev m z : ℤ))
          else 1) := by
    intro kb hkb
    have hklt : kb.1 < B.length := List.fst_lt_of_mem_enum hkb
    show ((List.range m).map fun j =>
        cpFactor L ((kb.2 : ℚ) / 2 ^ (j + 1)) kb.1 (o + j) (repMid o m n₀ z)).prod = _
    rw [list_prod_range_eq]
    by_cases hk : (repMid o m n₀ z).testBit kb.1
    · rw [if_pos hk, ← prod_wroot_bits]
      apply Finset.prod_congr rfl
      intro j hj
      have hjm : j < m := Finset.mem_range.mp hj
      unfold cpFactor
      rw [hk, testBit_repMid_window o m n₀ hzlt hjm]
      by_cases hzj : z.testBit j
      · simp only [hzj, Bool.and_self, if_true]
        exact phaseRat_eq_wroot hjm hm kb.2
      · simp [hzj]
    · rw [if_neg hk]
      apply Finset.prod_eq_one
      intro j _
      unfold cpFactor
      rw [show (repMid o m n₀ z).testBit kb.1 = false from by simpa using hk]
      simp
  rw [List.map_congr_left hinner]
  have hbits : ∀ kb ∈ B.enum,
      (if (repMid o m n₀ z).testBit kb.1 then wroot L m (kb.2 * (brev m z : ℤ)) else 1)
      = (if n₀.testBit kb.1 then wroot L m (kb.2 * (brev m z : ℤ)) else 1) := by
    intro kb hkb
    have hklt : kb.1 < B.length := List.fst_lt_of_mem_enum hkb
    rw [testBit_repMid_low o m n₀ z kb.1 (lt_of_lt_of_le hklt hB)]
  rw [List.map_congr_left hbits, prod_wroot_ctrl_list,
    show (w + (B.enum.map fun kb => if n₀.testBit kb.1 then kb.2 else 0).sum)
        * (brev m z : ℤ)
      = (B.enum.map fun kb => if n₀.testBit kb.1 then kb.2 else 0).sum * (brev m z : ℤ)
        + w * (brev m z : ℤ) from by ring,
    wroot_add]
  ring

/-! ### The solver, `src/ssp/solver.py` -/

/-- Bit `j` of a Python integer: `(t >> j) & 1` (arithmetic right shift, so
floor division by `2^j` followed by a nonnegative remainder mod 2). -/
def pybit (t : ℤ) (j : ℕ) : ℤ := t / 2 ^ j % 2

/-- Qubit relabelling performed by `QuantumCircuit.append(gate, qubits)` when
`qubits` is the contiguous block starting at `off`: local qubit `q` of the
appended gate becomes qubit `off + q`. -/
def shiftG (off : ℕ) : QGate → QGate
  | .x q => .x (off + q)
  | .h q => .h (off + q)
  | .cp r c t => .cp r (off + c) (off + t)
  | .mcx cs t => .mcx (cs.map (off + ·)) (off + t)
  | .qft o m => .qft (off + o) m
  | .iqft o m => .iqft (off + o) m

/-- A circuit ready to run: its gate list, register sizes, and the qubits
measured into the classical register (in order). -/
structure Circuit where
  gates : List QGate
  num_qubits : ℕ
  num_clbits : ℕ
  measured : List ℕ
  deriving DecidableEq

/-- `DGSSPSolver.__init__`: an instance is the list `A`, the target `t` and
the `assembly_type` string. -/
structure DGSSPSolver where
  A : List ℤ
  t : ℤ
  assembly_type : String

namespace DGSSPSolver

/-- `self.sum_neg = sum(a for a in A if a < 0)`. -/
def sum_neg (s : DGSSPSolver) : ℤ := (s.A.filter fun a => a < 0).sum

/-- `self.sum_pos = sum(a for a in A if a > 0)`. -/
def sum_pos (s : DGSSPSolver) : ℤ := (s.A.filter fun a => 0 < a).sum

/-- `self.range_len = self.sum_pos - self.sum_neg + 1`. -/
def range_len (s : DGSSPSolver) : ℤ := s.sum_pos - s.sum_neg + 1

/-- `self.n_sum = int(np.ceil(np.log2(self.range_len)))`: `range_len ≥ 1`
always holds, and on these magnitudes the float computation is exact, so the
value is the base-2 ceiling logarithm. -/
def n_sum (s : DGSSPSolver) : ℕ := Nat.clog 2 s.range_len.toNat

/-- `self.n_ind = len(self.A)`. -/
def n_ind (s : DGSSPSolver) : ℕ := s.A.length

/-- `DGSSPSolver.sum_gate`, at its position in the step circuit (the gate is
appended onto `ind[:] + summ[:]`, so index qubit `k` is qubit `k` and sum
qubit `j` is qubit `n_ind + j`): the gate
`cp(2·π·(a % 2^n_sum)/2^(j+1), ind[k], summ[j])` for each `k, a` in
`enumerate(A)` and each `j < n_sum`. -/
def sum_gate (s : DGSSPSolver) : List QGate :=
  cpCascade s.n_ind s.n_sum (s.A.map fun a => a % (2 : ℤ) ^ s.n_sum)

/-- `DGSSPSolver.sub_gate`: as `sum_gate` with `(-a) % 2^n_sum` in place of
`a % 2^n_sum`. -/
def sub_gate (s : DGSSPSolver) : List QGate :=
  cpCascade s.n_ind s.n_sum (s.A.map fun a => (-a) % (2 : ℤ) ^ s.n_sum)

/-- `DGSSPSolver.oracle_gate` on its own `n_sum`-qubit register: `X` on each
sum qubit `j` with `((t >> j) & 1) == 0`, an `H`–`MCX`–`H` sandwich on the
last sum qubit (`summ[-1]`, controls `summ[:-1]`), and the `X`s again.  The
negative index `summ[-1]` needs `n_sum ≥ 1`; `oracle_gateE` models the
`IndexError` of the empty register. -/
def oracle_gate (s : DGSSPSolver) : List QGate :=
  ((List.range s.n_sum).filterMap fun j =>
    if pybit s.t j = 0 then some (QGate.x j) else none)
  ++ [QGate.h (s.n_sum - 1),
      QGate.mcx (List.range (s.n_sum - 1)) (s.n_sum - 1),
      QGate.h (s.n_sum - 1)]
  ++ ((List.range s.n_sum).filterMap fun j =>
    if pybit s.t j = 0 then some (QGate.x j) else none)

/-- `DGSSPSolver.grover_diffuser` on the index register (qubits `0, …,
n_ind-1`): `H;X` on every qubit, `H`–`MCX`–`H` on `ind[-1]` with controls
`ind[:-1]`, then `X;H` on every qubit.  The negative index `ind[-1]` needs
`n_ind ≥ 1`; `grover_diffuserE` models the `IndexError`. -/
def grover_diffuser (s : DGSSPSolver) : List QGate :=
  ((List.range s.n_ind).flatMap fun q => [QGate.h q, QGate.x q])
  ++ [QGate.h (s.n_ind - 1),
      QGate.mcx (List.range (s.n_ind - 1)) (s.n_ind - 1),
      QGate.h (s.n_ind - 1)]
  ++ ((List.range s.n_ind).flatMap fun q => [QGate.x q, QGate.h q])

/-- `DGSSPSolver.assembly`: the Grover step on qubits `ind = 0, …, n_ind-1`
and `summ = n_ind, …, n_ind+n_sum-1`.  In the `HalfQFT` branch the line
`qc.append(self.iqft, summ[:]).inverse()` replaces the just-appended inverse
QFT by its inverse inside the circuit, i.e. it appends the (swap-free) QFT. -/
def assembly (s : DGSSPSolver) : List QGate :=
  if s.assembly_type = "FullQFT" then
    [QGate.qft s.n_ind s.n_sum] ++ s.sum_gate ++ [QGate.iqft s.n_ind s.n_sum]
      ++ s.oracle_gate.map (shiftG s.n_ind)
      ++ [QGate.qft s.n_ind s.n_sum] ++ s.sub_gate
      ++ [QGate.iqft s.n_ind s.n_sum]
  else if s.assembly_type = "HalfQFT" then
    ((List.range s.n_sum).map fun j => QGate.h (s.n_ind + j))
      ++ s.sum_gate ++ [QGate.iqft s.n_ind s.n_sum]
      ++ s.oracle_gate.map (shiftG s.n_ind)
      ++ [QGate.qft s.n_ind s.n_sum] ++ s.sub_gate
      ++ ((List.range s.n_sum).map fun j => QGate.h (s.n_ind + j))
  else []

/-- `DGSSPSolver.solve`: Hadamards on the index register, `iterations`
repetitions of the step gate (all qubits) followed by the diffuser (index
qubits), and a final measurement of the index register only into the
`n_ind`-bit classical register.  Barriers do not act on the state and are
omitted.  Fields: gates, `num_qubits`, `num_clbits`, measured qubits. -/
def solve (s : DGSSPSolver) (iterations : ℕ) : Circuit :=
  ⟨((List.range s.n_ind).map QGate.h)
     ++ (List.replicate iterations (s.assembly ++ s.grover_diffuser)).flatten,
   s.n_ind + s.n_sum, s.n_ind, List.range s.n_ind⟩

/-- Python `reg[-1]` on a register of `n` qubits: the last qubit, or an
`IndexError` (`none`) when the register is empty. -/
def lastQubit (n : ℕ) : Option ℕ := if n = 0 then none else some (n - 1)

/-- `oracle_gate` with the possible `IndexError` of `summ[-1]` made
explicit. -/
def oracle_gateE (s : DGSSPSolver) : Option (List QGate) :=
  (lastQubit s.n_sum).map fun _ => s.oracle_gate

/-- `grover_diffuser` with the possible `IndexError` of `ind[-1]` made
explicit. -/
def grover_diffuserE (s : DGSSPSolver) : Option (List QGate) :=
  (lastQubit s.n_ind).map fun _ => s.grover_diffuser

/-- `assembly`, propagating the oracle's possible `IndexError`: the oracle is
built in the two recognised branches only. -/
def assemblyE (s : DGSSPSolver) : Option (List QGate) :=
  if s.assembly_type = "FullQFT" ∨ s.assembly_type = "HalfQFT" then
    s.oracle_gateE.map fun _ => s.assembly
  else some s.assembly

/-- `solve` with the `IndexError`s made explicit: `solve` evaluates
`self.assembly()` first and `self.grover_diffuser()` second, both before the
iteration loop. -/
def solveE (s : DGSSPSolver) (iterations : ℕ) : Option Circuit :=
  s.assemblyE.bind fun _ => s.grover_diffuserE.map fun _ => s.solve iterations

end DGSSPSolver

/-! ### Running lists of X gates -/

theorem runG_xlist {L : ℕ} (js : List ℕ) (n₀ : ℕ) :
    runG L (js.map QGate.x) (bv L n₀)
      = bv L (js.foldl (fun n j => bflip j n) n₀) := by
  induction js generalizing n₀ with
  | nil => rfl
  | cons j js ih =>
      rw [List.map_cons, runG_cons, apply_x_bv, ih]
      rfl

theorem testBit_foldl_bflip (js : List ℕ) (hnd : js.Nodup) (n₀ q : ℕ) :
    (js.foldl (fun n j => bflip j n) n₀).testBit q
      = if q ∈ js then !(n₀.testBit q) else n₀.testBit q := by
  induction js generalizing n₀ with
  | nil => simp
  | cons j js ih =>
      rw [List.foldl_cons, ih (List.Nodup.of_cons hnd)]
      by_cases hq : q = j
      · subst hq
        have hqn : q ∉ js := (List.nodup_cons.mp hnd).1
        rw [if_neg hqn, if_pos (List.mem_cons_self q js), testBit_bflip_self]
      · rw [testBit_bflip_ne (fun h => hq h.symm)]
        by_cases hmem : q ∈ js
        · rw [if_pos hmem, if_pos (List.mem_cons_of_mem j hmem)]
        · rw [if_neg hmem, if_neg (by simp [List.mem_cons, hq, hmem])]

theorem foldl_bflip_foldl_bflip (js : List ℕ) (hnd : js.Nodup) (n₀ : ℕ) :
    js.foldl (fun n j => bflip j n) (js.foldl (fun n j => bflip j n) n₀) = n₀ := by
  apply Nat.eq_of_testBit_eq
  intro q
  rw [testBit_foldl_bflip js hnd, testBit_foldl_bflip js hnd]
  by_cases hmem : q ∈ js
  · rw [if_pos hmem, if_pos hmem, Bool.not_not]
  · rw [if_neg hmem, if_neg hmem]

theorem filterMap_x_shift (p : ℕ → Prop) [DecidablePred p] (l : List ℕ) (o : ℕ) :
    ((l.filterMap fun j => if p j then some (QGate.x j) else none).map (shiftG o))
      = (((l.filter fun j => decide (p j)).map fun j => o + j).map QGate.x) := by
  induction l with
  | nil => rfl
  | cons a l ih =>
      by_cases hp : p a
      · simp [List.filterMap_cons, List.filter_cons, hp, ih, shiftG]
      · simp [List.filterMap_cons, List.filter_cons, hp, ih]

/-! ### Python bit extraction -/

theorem pybit_natCast (n j : ℕ) :
    pybit (n : ℤ) j = ((n / 2 ^ j % 2 : ℕ) : ℤ) := by
  unfold pybit
  push_cast
  rfl

theorem pybit_emod (t : ℤ) (m j : ℕ) (hj : j < m) :
    pybit t j = pybit (t % 2 ^ m) j := by
  unfold pybit
  have hpowne : ((2 : ℤ) ^ j) ≠ 0 := ne_of_gt (K.intPow_two_pos j)
  have h1 : (2 : ℤ) ^ (m - j - 1) * 2 * 2 ^ j = 2 ^ m := by
    rw [mul_assoc, ← pow_succ', ← pow_add]
    congr 1
    omega
  have hsplit : t = t % 2 ^ m + t / 2 ^ m * 2 ^ (m - j - 1) * 2 * 2 ^ j := by
    calc t = t % 2 ^ m + 2 ^ m * (t / 2 ^ m) := (Int.emod_add_ediv t (2 ^ m)).symm
      _ = t % 2 ^ m + t / 2 ^ m * 2 ^ (m - j - 1) * 2 * 2 ^ j := by rw [← h1]; ring
  conv_lhs => rw [hsplit]
  rw [show t % 2 ^ m + t / 2 ^ m * 2 ^ (m - j - 1) * 2 * 2 ^ j
      = t % 2 ^ m + (t / 2 ^ m * 2 ^ (m - j - 1) * 2) * 2 ^ j from by ring,
    Int.add_mul_ediv_right _ _ hpowne,
    show t % 2 ^ m / 2 ^ j + t / 2 ^ m * 2 ^ (m - j - 1) * 2
      = t % 2 ^ m / 2 ^ j + 2 * (t / 2 ^ m * 2 ^ (m - j - 1)) from by ring,
    Int.add_mul_emod_self_left]

theorem pybit_pattern (t : ℤ) {m j : ℕ} (hj : j < m) :
    pybit t j = if ((t % (2 : ℤ) ^ m).toNat).testBit j then 1 else 0 := by
  rw [pybit_emod t m j hj]
  have h0 : (0 : ℤ) ≤ t % 2 ^ m := Int.emod_nonneg _ (ne_of_gt (K.intPow_two_pos m))
  rw [show t % (2 : ℤ) ^ m = (((t % (2 : ℤ) ^ m).toNat : ℕ) : ℤ) from
    (Int.toNat_of_nonneg h0).symm]
  rw [pybit_natCast, Int.toNat_natCast]
  rw [Nat.testBit_to_div_mod]
  rcases Nat.mod_two_eq_zero_or_one ((t % 2 ^ m).toNat / 2 ^ j) with hc | hc
  · rw [hc, if_neg (by simp [hc])]
    rfl
  · rw [hc, if_pos (by simp [hc])]
    rfl

theorem emod_toNat_lt_two_pow (t : ℤ) (m : ℕ) :
    (t % (2 : ℤ) ^ m).toNat < 2 ^ m := by
  have h0 : (0 : ℤ) ≤ t % 2 ^ m := Int.emod_nonneg _ (ne_of_gt (K.intPow_two_pos m))
  rw [Int.toNat_lt h0]
  exact lt_of_lt_of_eq (Int.emod_lt_of_pos t (K.intPow_two_pos m)) (by push_cast; rfl)

/-! ### The phase oracle marks exactly the target window -/

theorem oracle_core_run {L : ℕ} (hL : 2 ≤ L) {m : ℕ} (hm : 1 ≤ m) (t : ℤ)
    (o n : ℕ) :
    runG L (((((List.range m).filterMap fun j =>
          if pybit t j = 0 then some (QGate.x j) else none)
        ++ [QGate.h (m - 1), QGate.mcx (List.range (m - 1)) (m - 1),
            QGate.h (m - 1)]
        ++ ((List.range m).filterMap fun j =>
          if pybit t j = 0 then some (QGate.x j) else none)).map (shiftG o)))
        (bv L n)
      = KS (if midb o m n = (t % (2 : ℤ) ^ m).toNat then -1 else 1) (bv L n) := by
  have hτlt : (t % (2 : ℤ) ^ m).toNat < 2 ^ m := emod_toNat_lt_two_pow t m
  have hjsnd : (((List.range m).filter fun j => decide (pybit t j = 0)).map
      fun j => o + j).Nodup :=
    List.Nodup.map (fun a b h => by omega) (List.Nodup.filter _ (List.nodup_range m))
  have hmem : ∀ j < m,
      ((o + j) ∈ ((List.range m).filter fun j => decide (pybit t j = 0)).map
          (fun j => o + j)
        ↔ ((t % (2 : ℤ) ^ m).toNat).testBit j = false) := by
    intro j hj
    constructor
    · intro hmj
      obtain ⟨j', hj', hoj⟩ := List.mem_map.mp hmj
      have hj'j : j' = j := by omega
      subst hj'j
      have hpy : pybit t j' = 0 := of_decide_eq_true (List.mem_filter.mp hj').2
      rw [pybit_pattern t hj] at hpy
      by_contra hbit
      rw [if_pos (by simpa using hbit)] at hpy
      exact one_ne_zero hpy
    · intro hbit
      apply List.mem_map.mpr
      refine ⟨j, List.mem_filter.mpr ⟨List.mem_range.mpr hj, decide_eq_true ?_⟩, rfl⟩
      rw [pybit_pattern t hj, hbit]
      rfl
  rw [List.map_append, List.map_append, filterMap_x_shift, runG_append, runG_append,
    runG_xlist]
  have hmapshift : ([QGate.h (m - 1), QGate.mcx (List.range (m - 1)) (m - 1),
      QGate.h (m - 1)]).map (shiftG o)
      = [QGate.h (o + (m - 1)),
          QGate.mcx ((List.range (m - 1)).map fun i => o + i) (o + (m - 1)),
          QGate.h (o + (m - 1))] := rfl
  rw [hmapshift, mcz_bv hL ((List.range (m - 1)).map fun i => o + i) (o + (m - 1)) _ (by
    intro c hc
    obtain ⟨i, hi, hoc⟩ := List.mem_map.mp hc
    have hilt : i < m - 1 := List.mem_range.mp hi
    omega)]
  rw [runG_ks, runG_xlist]
  set js := ((List.range m).filter fun j => decide (pybit t j = 0)).map
    (fun j => o + j) with hjs
  set τ := (t % (2 : ℤ) ^ m).toNat with hτdef
  set n₁ := js.foldl (fun n j => bflip j n) n with hn₁
  have hback : js.foldl (fun n j => bflip j n) n₁ = n :=
    foldl_bflip_foldl_bflip js hjsnd n
  rw [hback]
  have hbit1 : ∀ j < m, (n₁.testBit (o + j) = true ↔ n.testBit (o + j) = τ.testBit j) := by
    intro j hj
    rw [hn₁, testBit_foldl_bflip js hjsnd]
    by_cases hmem' : (o + j) ∈ js
    · rw [if_pos hmem', (hmem j hj).mp hmem']
      cases hcase : n.testBit (o + j) <;> simp
    · rw [if_neg hmem']
      have hb : τ.testBit j = true := by
        cases hcase : τ.testBit j
        · exact absurd ((hmem j hj).mpr hcase) hmem'
        · rfl
      rw [hb]
  have hwin : (∀ j < m, n.testBit (o + j) = τ.testBit j) ↔ midb o m n = τ := by
    constructor
    · intro hall
      apply Nat.eq_of_testBit_eq
      intro i
      by_cases him : i < m
      · rw [← testBit_eq_midb_bit o m i n him]
        exact hall i him
      · rw [Nat.testBit_lt_two_pow (lt_of_lt_of_le (midb_lt o m n)
            (Nat.pow_le_pow_right (by norm_num) (by omega))),
          Nat.testBit_lt_two_pow (lt_of_lt_of_le hτlt
            (Nat.pow_le_pow_right (by norm_num) (by omega)))]
    · intro heq j hj
      rw [testBit_eq_midb_bit o m j n hj, heq]
  have hcond : (((List.range (m - 1)).map fun i => o + i).all n₁.testBit
      && n₁.testBit (o + (m - 1))) = decide (midb o m n = τ) := by
    by_cases he : midb o m n = τ
    · have hall : ∀ j < m, n₁.testBit (o + j) = true := by
        intro j hj
        rw [hbit1 j hj]
        exact hwin.mpr he j hj
      rw [decide_eq_true he, Bool.and_eq_true]
      constructor
      · apply List.all_eq_true.mpr
        intro x hx
        obtain ⟨i, hi, hox⟩ := List.mem_map.mp hx
        subst hox
        exact hall i (by have := List.mem_range.mp hi; omega)
      · exact hall (m - 1) (by omega)
    · rw [decide_eq_false he]
      by_contra hne
      have htrue : (((List.range (m - 1)).map fun i => o + i).all n₁.testBit
          && n₁.testBit (o + (m - 1))) = true := by
        cases hcase : (((List.range (m - 1)).map fun i => o + i).all n₁.testBit
            && n₁.testBit (o + (m - 1)))
        · exact absurd hcase hne
        · rfl
      rw [Bool.and_eq_true] at htrue
      obtain ⟨hallb, hlast⟩ := htrue
      apply he
      apply hwin.mp
      intro j hj
      rw [← hbit1 j hj]
      by_cases hjlast : j = m - 1
      · rw [hjlast]
        exact hlast
      · exact List.all_eq_true.mp hallb (o + j)
          (List.mem_map.mpr ⟨j, List.mem_range.mpr (by omega), rfl⟩)
  rw [hcond]
  by_cases he : midb o m n = τ <;> simp [he]

/-- The oracle, appended onto the sum register at offset `o`, phase-flips
exactly the basis states whose sum window holds `t mod 2^n_sum`. -/
theorem oracle_run {L : ℕ} (hL : 2 ≤ L) (s : DGSSPSolver) (hm : 1 ≤ s.n_sum)
    (o n : ℕ) :
    runG L (s.oracle_gate.map (shiftG o)) (bv L n)
      = KS (if midb o s.n_sum n = (s.t % (2 : ℤ) ^ s.n_sum).toNat then -1 else 1)
          (bv L n) :=
  oracle_core_run hL hm s.t o n

/-! ### Subset sums accumulated by the controlled cascades -/

/-- The value accumulated into the Fourier window by `cpCascade o m B` on a
basis state whose index bits are those of `x`. -/
def subsetSumB (B : List ℤ) (x : ℕ) : ℤ :=
  (B.enum.map fun kb => if x.testBit kb.1 then kb.2 else 0).sum

theorem runG_cpCascade_fstate' {L o m : ℕ} (hm : m ≤ L + 1) (B : List ℤ)
    (hB : B.length ≤ o) (n₀ : ℕ) (w : ℤ) :
    runG L (cpCascade o m B) (fstate L o m n₀ w)
      = fstate L o m n₀ (w + subsetSumB B n₀) :=
  runG_cpCascade_fstate hm B hB n₀ w

theorem subsetSumB_congr (B : List ℤ) {x y : ℕ}
    (h : ∀ k < B.length, x.testBit k = y.testBit k) :
    subsetSumB B x = subsetSumB B y := by
  unfold subsetSumB
  congr 1
  apply List.map_congr_left
  intro kb hkb
  rw [h kb.1 (List.fst_lt_of_mem_enum hkb)]

theorem list_sum_map_add {α : Type} (l : List α) (u v : α → ℤ) :
    (l.map u).sum + (l.map v).sum = (l.map fun a => u a + v a).sum := by
  induction l with
  | nil => simp
  | cons a l ih =>
      simp only [List.map_cons, List.sum_cons]
      rw [← ih]
      ring

theorem subsetSumB_map_add (A : List ℤ) (f g : ℤ → ℤ) (x : ℕ) :
    subsetSumB (A.map f) x + subsetSumB (A.map g) x
      = subsetSumB (A.map fun a => f a + g a) x := by
  unfold subsetSumB
  rw [List.enum_map, List.enum_map, List.enum_map, List.map_map, List.map_map,
    List.map_map, list_sum_map_add]
  congr 1
  apply List.map_congr_left
  intro kb _
  show (if x.testBit kb.1 then f kb.2 else 0) + (if x.testBit kb.1 then g kb.2 else 0)
      = if x.testBit kb.1 then f kb.2 + g kb.2 else 0
  by_cases hbit : x.testBit kb.1
  · rw [if_pos hbit, if_pos hbit, if_pos hbit]
  · rw [if_neg hbit, if_neg hbit, if_neg hbit, add_zero]

theorem dvd_subsetSumB {M : ℤ} (B : List ℤ) (hB : ∀ b ∈ B, M ∣ b) (x : ℕ) :
    M ∣ subsetSumB B x := by
  unfold subsetSumB
  apply List.dvd_sum
  intro y hy
  obtain ⟨kb, hkb, hkby⟩ := List.mem_map.mp hy
  subst hkby
  by_cases hbit : x.testBit kb.1
  · rw [if_pos hbit]
    exact hB kb.2 (List.snd_mem_of_mem_enum hkb)
  · rw [if_neg hbit]
    exact dvd_zero M

theorem sum_sub_cancel (A : List ℤ) (m : ℕ) (x : ℕ) :
    (subsetSumB (A.map fun a => a % (2 : ℤ) ^ m) x
      + subsetSumB (A.map fun a => (-a) % (2 : ℤ) ^ m) x) % (2 : ℤ) ^ m = 0 := by
  rw [subsetSumB_map_add]
  apply Int.emod_eq_zero_of_dvd
  apply dvd_subsetSumB
  intro b hb
  obtain ⟨a, ha, hab⟩ := List.mem_map.mp hb
  apply Int.dvd_of_emod_eq_zero
  rw [← hab, ← Int.add_emod]
  simp

/-! ### Small bridging lemmas for the solver circuits -/

theorem runG_singleton {L : ℕ} (g : QGate) (v : V L) :
    runG L [g] v = applyGate L g v := rfl

theorem midb_zero_off (m n : ℕ) : midb 0 m n = n % 2 ^ m := by
  unfold midb
  rw [pow_zero, Nat.div_one]

theorem repMid_off_zero (r y : ℕ) : repMid 0 r 0 y = y := by
  unfold repMid
  simp

theorem map_h_range_eq (o m : ℕ) :
    ((List.range m).map fun j => QGate.h (o + j)) = (List.range' o m).map QGate.h := by
  rw [List.range'_eq_map_range, List.map_map]
  rfl

theorem ofRat_pow (L : ℕ) (q : ℚ) (n : ℕ) :
    (K.ofRat L q) ^ n = K.ofRat L (q ^ n) := by
  induction n with
  | zero => rw [pow_zero, pow_zero, K.ofRat_one]
  | succ n ih => rw [pow_succ, pow_succ, ih, K.ofRat_mul_ofRat]

theorem fstate_zero_uniform (L o m n₀ : ℕ) :
    fstate L o m n₀ 0
      = ∑ z ∈ Finset.range (2 ^ m), KS (nrm L m) (bv L (repMid o m n₀ z)) := by
  unfold fstate
  apply Finset.sum_congr rfl
  intro z _
  rw [zero_mul, wroot_zero, mul_one]

/-! ### The Grover diffuser fixes the uniform state up to sign -/

theorem grover_diffuser_run {L : ℕ} (hL : 2 ≤ L) (s : DGSSPSolver)
    (hn : 1 ≤ s.n_ind) (c : K L) :
    runG L s.grover_diffuser (∑ y ∈ Finset.range (2 ^ s.n_ind), KS c (bv L y))
      = ∑ y ∈ Finset.range (2 ^ s.n_ind), KS (-c) (bv L y) := by
  have hsum1 : (∑ y ∈ Finset.range (2 ^ s.n_ind), KS c (bv L y))
      = ∑ y ∈ Finset.range (2 ^ s.n_ind), KS c (bv L (repMid 0 s.n_ind 0 y)) := by
    apply Finset.sum_congr rfl
    intro y _
    rw [repMid_off_zero]
  unfold DGSSPSolver.grover_diffuser
  rw [hsum1, runG_append, runG_append,
    show (List.range s.n_ind).flatMap (fun q => [QGate.h q, QGate.x q])
      = (List.range' 0 s.n_ind).flatMap (fun q => [QGate.h q, QGate.x q]) from by
        rw [List.range_eq_range'],
    hxladder, repMid_off_zero, runG_ks,
    mcz_bv hL (List.range (s.n_ind - 1)) (s.n_ind - 1) (2 ^ s.n_ind - 1) (by
      intro cq hcq
      have := List.mem_range.mp hcq
      omega)]
  have hsign : ((List.range (s.n_ind - 1)).all (2 ^ s.n_ind - 1).testBit
      && (2 ^ s.n_ind - 1).testBit (s.n_ind - 1)) = true := by
    rw [Bool.and_eq_true]
    constructor
    · apply List.all_eq_true.mpr
      intro x hx
      rw [Nat.testBit_two_pow_sub_one]
      exact decide_eq_true (by have := List.mem_range.mp hx; omega)
    · rw [Nat.testBit_two_pow_sub_one]
      exact decide_eq_true (by omega)
  rw [hsign, if_pos rfl, KS_ks,
    show (2 ^ s.n_ind - 1 : ℕ) = repMid 0 s.n_ind 0 (2 ^ s.n_ind - 1) from
      (repMid_off_zero _ _).symm,
    show (List.range s.n_ind).flatMap (fun q => [QGate.x q, QGate.h q])
      = (List.range' 0 s.n_ind).flatMap (fun q => [QGate.x q, QGate.h q]) from by
        rw [List.range_eq_range'],
    xhladder]
  have hns : nrm L s.n_ind * sq2p L s.n_ind = 1 := nrm_mul_sq2p hL s.n_ind
  have hsc : c * sq2p L s.n_ind * -1 * nrm L s.n_ind = -c := by
    calc c * sq2p L s.n_ind * -1 * nrm L s.n_ind
        = -(c * (nrm L s.n_ind * sq2p L s.n_ind)) := by ring
      _ = -c := by rw [hns, mul_one]
  apply Finset.sum_congr rfl
  intro y _
  rw [repMid_off_zero, hsc]

/-! ### Iterating an empty step plus the diffuser -/

theorem diffuser_iterations {L : ℕ} (hL : 2 ≤ L) (s : DGSSPSolver)
    (hn : 1 ≤ s.n_ind) (hasm : s.assembly = []) (k : ℕ) (c : K L) :
    runG L (List.replicate k (s.assembly ++ s.grover_diffuser)).flatten
        (∑ y ∈ Finset.range (2 ^ s.n_ind), KS c (bv L y))
      = ∑ y ∈ Finset.range (2 ^ s.n_ind), KS ((-1) ^ k * c) (bv L y) := by
  induction k generalizing c with
  | zero =>
      rw [List.replicate_zero, List.flatten_nil, runG_nil]
      apply Finset.sum_congr rfl
      intro y _
      rw [pow_zero, one_mul]
  | succ k ih =>
      have hstep : ∀ v : V L,
          runG L (s.assembly ++ s.grover_diffuser) v = runG L s.grover_diffuser v := by
        intro v
        rw [runG_append, hasm, runG_nil]
      rw [List.replicate_succ, List.flatten_cons, runG_append, hstep,
        grover_diffuser_run hL s hn c, ih]
      apply Finset.sum_congr rfl
      intro y _
      rw [pow_succ,
        show (-1 : K L) ^ k * -1 * c = (-1) ^ k * -c from by ring]

theorem solve_uniform {L : ℕ} (hL : 2 ≤ L) (s : DGSSPSolver)
    (hn : 1 ≤ s.n_ind) (hasm : s.assembly = []) (k : ℕ) :
    runG L (s.solve k).gates (bv L 0)
      = ∑ y ∈ Finset.range (2 ^ s.n_ind), KS ((-1) ^ k * nrm L s.n_ind) (bv L y) := by
  have hgates : (s.solve k).gates = ((List.range s.n_ind).map QGate.h)
      ++ (List.replicate k (s.assembly ++ s.grover_diffuser)).flatten := rfl
  rw [hgates, runG_append]
  have hpre : runG L ((List.range s.n_ind).map QGate.h) (bv L 0)
      = ∑ y ∈ Finset.range (2 ^ s.n_ind), KS (nrm L s.n_ind) (bv L y) := by
    have hbv : bv L (0 : ℕ) = bv L (repMid 0 s.n_ind 0 0) := by
      rw [repMid_off_zero]
    rw [List.range_eq_range', hbv, hladder_build]
    apply Finset.sum_congr rfl
    intro y _
    rw [repMid_off_zero]
  rw [hpre, diffuser_iterations hL s hn hasm k (nrm L s.n_ind)]

/-! ### Shape of the controlled-phase cascades -/

theorem enum_nodup {α : Type} (l : List α) : l.enum.Nodup :=
  List.Nodup.of_map Prod.fst (by rw [List.enum_map_fst]; exact List.nodup_range _)

theorem cpCascade_eq_product_map (o m : ℕ) (B : List ℤ) :
    cpCascade o m B
      = (B.enum ×ˢ List.range m).map fun p =>
          QGate.cp ((p.1.2 : ℚ) / 2 ^ (p.2 + 1)) p.1.1 (o + p.2) := by
  show cpCascade o m B
      = (B.enum.flatMap fun kb => (List.range m).map (Prod.mk kb)).map fun p =>
          QGate.cp ((p.1.2 : ℚ) / 2 ^ (p.2 + 1)) p.1.1 (o + p.2)
  rw [List.map_flatMap]
  unfold cpCascade
  simp only [List.map_map]
  rfl

theorem cpCascade_nodup (o m : ℕ) (B : List ℤ) : (cpCascade o m B).Nodup := by
  rw [cpCascade_eq_product_map]
  apply List.Nodup.map_on
  · rintro ⟨⟨k₁, b₁⟩, j₁⟩ hp ⟨⟨k₂, b₂⟩, j₂⟩ hq hpq
    rw [QGate.cp.injEq] at hpq
    obtain ⟨hr, hc, ht⟩ := hpq
    have hj : j₁ = j₂ := by omega
    have hk : k₁ = k₂ := hc
    obtain ⟨hkb₁, hj₁⟩ := List.mem_product.mp hp
    obtain ⟨hkb₂, hj₂⟩ := List.mem_product.mp hq
    have hg₁ := List.mk_mem_enum_iff_getElem?.mp hkb₁
    have hg₂ := List.mk_mem_enum_iff_getElem?.mp hkb₂
    rw [hk] at hg₁
    rw [hg₂] at hg₁
    have hb : b₂ = b₁ := Option.some_injective _ hg₁
    rw [hk, hj, hb]
  · exact List.Nodup.product (enum_nodup B) (List.nodup_range m)

theorem cpCascade_length (o m : ℕ) (B : List ℤ) :
    (cpCascade o m B).length = B.length * m := by
  rw [cpCascade_eq_product_map, List.length_map, List.length_product,
    List.enum_length, List.length_range]

theorem cpCascade_mem (o m : ℕ) (B : List ℤ) (g : QGate) :
    g ∈ cpCascade o m B
      ↔ ∃ k, ∃ hk : k < B.length, ∃ j, j < m
          ∧ g = QGate.cp ((B.get ⟨k, hk⟩ : ℚ) / 2 ^ (j + 1)) k (o + j) := by
  rw [cpCascade_eq_product_map, List.mem_map]
  constructor
  · rintro ⟨⟨⟨k, b⟩, j⟩, hpm, hg⟩
    obtain ⟨hkb, hj⟩ := List.mem_product.mp hpm
    have hk : k < B.length := List.fst_lt_of_mem_enum hkb
    have hb : B.get ⟨k, hk⟩ = b := by
      have h2 := List.mk_mem_enum_iff_getElem?.mp hkb
      rw [List.getElem?_eq_getElem hk] at h2
      exact Option.some_injective _ h2
    exact ⟨k, hk, j, List.mem_range.mp hj, by rw [← hg, hb]⟩
  · rintro ⟨k, hk, j, hj, hg⟩
    exact ⟨((k, B.get ⟨k, hk⟩), j),
      List.mem_product.mpr
        ⟨List.mk_mem_enum_iff_getElem?.mpr (List.getElem?_eq_getElem hk),
          List.mem_range.mpr hj⟩,
      hg.symm⟩

/-! ### Semantics of the assembled Grover step -/

/-- The shared middle of both assembly branches — Draper-add `A`, inverse
QFT, oracle, QFT, Draper-subtract `A` — sends the window-zero Fourier state
over `n₀` to a sign times the window-zero Fourier state over the basis point
whose window holds the accumulated subset sum; the sign is `-1` exactly when
that subset sum matches `t` modulo `2^n_sum`. -/
theorem step_mid_run {L : ℕ} (hL : 2 ≤ L) (s : DGSSPSolver) (hm1 : 1 ≤ s.n_sum)
    (hmL : s.n_sum ≤ L + 1) (n₀ : ℕ) :
    runG L (s.sum_gate ++ [QGate.iqft s.n_ind s.n_sum]
        ++ s.oracle_gate.map (shiftG s.n_ind)
        ++ [QGate.qft s.n_ind s.n_sum] ++ s.sub_gate)
        (fstate L s.n_ind s.n_sum n₀ 0)
      = KS (if ((subsetSumB (s.A.map fun a => a % (2 : ℤ) ^ s.n_sum) n₀
                % (2 : ℤ) ^ s.n_sum).toNat)
              = (s.t % (2 : ℤ) ^ s.n_sum).toNat then -1 else 1)
          (fstate L s.n_ind s.n_sum
            (repMid s.n_ind s.n_sum n₀
              ((subsetSumB (s.A.map fun a => a % (2 : ℤ) ^ s.n_sum) n₀
                % (2 : ℤ) ^ s.n_sum).toNat)) 0) := by
  have hBlen1 : (s.A.map fun a => a % (2 : ℤ) ^ s.n_sum).length ≤ s.n_ind := by
    rw [List.length_map]
    exact le_rfl
  have hBlen2 : (s.A.map fun a => (-a) % (2 : ℤ) ^ s.n_sum).length ≤ s.n_ind := by
    rw [List.length_map]
    exact le_rfl
  rw [runG_append, runG_append, runG_append, runG_append,
    show s.sum_gate
      = cpCascade s.n_ind s.n_sum (s.A.map fun a => a % (2 : ℤ) ^ s.n_sum) from rfl,
    runG_cpCascade_fstate' hmL _ hBlen1, zero_add,
    runG_singleton (QGate.iqft s.n_ind s.n_sum), apply_iqft_fstate hL hmL,
    oracle_run hL s hm1,
    midb_repMid s.n_ind s.n_sum n₀ (emod_toNat_lt_two_pow _ _),
    runG_ks, runG_singleton (QGate.qft s.n_ind s.n_sum), apply_qft_fstate,
    midb_repMid s.n_ind s.n_sum n₀ (emod_toNat_lt_two_pow _ _),
    show s.sub_gate
      = cpCascade s.n_ind s.n_sum (s.A.map fun a => (-a) % (2 : ℤ) ^ s.n_sum) from rfl,
    runG_ks, runG_cpCascade_fstate' hmL _ hBlen2]
  have hS₂ : subsetSumB (s.A.map fun a => (-a) % (2 : ℤ) ^ s.n_sum)
      (repMid s.n_ind s.n_sum n₀
        ((subsetSumB (s.A.map fun a => a % (2 : ℤ) ^ s.n_sum) n₀
          % (2 : ℤ) ^ s.n_sum).toNat))
      = subsetSumB (s.A.map fun a => (-a) % (2 : ℤ) ^ s.n_sum) n₀ := by
    apply subsetSumB_congr
    intro k hk
    rw [List.length_map] at hk
    exact testBit_repMid_low s.n_ind s.n_sum n₀ _ k hk
  rw [hS₂]
  have hcast : (((subsetSumB (s.A.map fun a => a % (2 : ℤ) ^ s.n_sum) n₀
      % (2 : ℤ) ^ s.n_sum).toNat : ℕ) : ℤ)
      = subsetSumB (s.A.map fun a => a % (2 : ℤ) ^ s.n_sum) n₀ % (2 : ℤ) ^ s.n_sum :=
    Int.toNat_of_nonneg (Int.emod_nonneg _ (ne_of_gt (K.intPow_two_pos s.n_sum)))
  have harg : fstate L s.n_ind s.n_sum
      (repMid s.n_ind s.n_sum n₀
        ((subsetSumB (s.A.map fun a => a % (2 : ℤ) ^ s.n_sum) n₀
          % (2 : ℤ) ^ s.n_sum).toNat))
      ((((subsetSumB (s.A.map fun a => a % (2 : ℤ) ^ s.n_sum) n₀
          % (2 : ℤ) ^ s.n_sum).toNat : ℕ) : ℤ)
        + subsetSumB (s.A.map fun a => (-a) % (2 : ℤ) ^ s.n_sum) n₀)
      = fstate L s.n_ind s.n_sum
        (repMid s.n_ind s.n_sum n₀
          ((subsetSumB (s.A.map fun a => a % (2 : ℤ) ^ s.n_sum) n₀
            % (2 : ℤ) ^ s.n_sum).toNat)) 0 := by
    apply fstate_congr hmL
    rw [hcast, Int.emod_add_emod, sum_sub_cancel, Int.zero_emod]
  rw [harg]

/-- The `FullQFT` step on a basis state whose sum window is zero: a sign
(`-1` exactly when the selected subset sums to `t` mod `2^n_sum`) times the
same basis state. -/
theorem assembly_run_full {L : ℕ} (hL : 2 ≤ L) (s : DGSSPSolver)
    (hty : s.assembly_type = "FullQFT") (hm1 : 1 ≤ s.n_sum)
    (hmL : s.n_sum ≤ L + 1) (n₀ : ℕ) (h0 : midb s.n_ind s.n_sum n₀ = 0) :
    runG L s.assembly (bv L n₀)
      = KS (if ((subsetSumB (s.A.map fun a => a % (2 : ℤ) ^ s.n_sum) n₀
                % (2 : ℤ) ^ s.n_sum).toNat)
              = (s.t % (2 : ℤ) ^ s.n_sum).toNat then -1 else 1)
          (bv L n₀) := by
  have hlist : s.assembly
      = [QGate.qft s.n_ind s.n_sum]
        ++ ((s.sum_gate ++ [QGate.iqft s.n_ind s.n_sum]
            ++ s.oracle_gate.map (shiftG s.n_ind)
            ++ [QGate.qft s.n_ind s.n_sum] ++ s.sub_gate)
          ++ [QGate.iqft s.n_ind s.n_sum]) := by
    unfold DGSSPSolver.assembly
    rw [if_pos hty]
    simp only [List.append_assoc]
  rw [hlist, runG_append, runG_append,
    runG_singleton (QGate.qft s.n_ind s.n_sum), apply_qft_fstate]
  have hmid0 : ((midb s.n_ind s.n_sum n₀ : ℕ) : ℤ) = (0 : ℤ) := by
    rw [h0]
    rfl
  rw [hmid0, step_mid_run hL s hm1 hmL n₀,
    runG_ks, runG_singleton (QGate.iqft s.n_ind s.n_sum), apply_iqft_fstate hL hmL,
    show ((0 : ℤ) % (2 : ℤ) ^ s.n_sum).toNat = 0 from by rw [Int.zero_emod]; rfl,
    repMid_repMid s.n_ind s.n_sum n₀ 0 (emod_toNat_lt_two_pow _ _),
    show repMid s.n_ind s.n_sum n₀ 0 = n₀ from by
      rw [← h0]
      exact repMid_midb _ _ _]

/-- The `HalfQFT` step on a basis state whose sum window is zero: the same
sign times the same basis state as the `FullQFT` step. -/
theorem assembly_run_half {L : ℕ} (hL : 2 ≤ L) (s : DGSSPSolver)
    (hty : s.assembly_type = "HalfQFT") (hm1 : 1 ≤ s.n_sum)
    (hmL : s.n_sum ≤ L + 1) (n₀ : ℕ) (h0 : midb s.n_ind s.n_sum n₀ = 0) :
    runG L s.assembly (bv L n₀)
      = KS (if ((subsetSumB (s.A.map fun a => a % (2 : ℤ) ^ s.n_sum) n₀
                % (2 : ℤ) ^ s.n_sum).toNat)
              = (s.t % (2 : ℤ) ^ s.n_sum).toNat then -1 else 1)
          (bv L n₀) := by
  have hlist : s.assembly
      = ((List.range s.n_sum).map fun j => QGate.h (s.n_ind + j))
        ++ ((s.sum_gate ++ [QGate.iqft s.n_ind s.n_sum]
            ++ s.oracle_gate.map (shiftG s.n_ind)
            ++ [QGate.qft s.n_ind s.n_sum] ++ s.sub_gate)
          ++ ((List.range s.n_sum).map fun j => QGate.h (s.n_ind + j))) := by
    unfold DGSSPSolver.assembly
    rw [if_neg (by rw [hty]; decide), if_pos hty]
    simp only [List.append_assoc]
  rw [hlist, map_h_range_eq, runG_append, runG_append]
  have hbv : bv L n₀ = bv L (repMid s.n_ind s.n_sum n₀ 0) := by
    rw [← h0, repMid_midb]
  conv_lhs => rw [hbv]
  rw [hladder_build, ← fstate_zero_uniform, step_mid_run hL s hm1 hmL n₀,
    runG_ks, fstate_zero_uniform, hladder_merge, nrm_mul_sq2p hL, KS_one,
    repMid_repMid s.n_ind s.n_sum n₀ 0 (emod_toNat_lt_two_pow _ _),
    show repMid s.n_ind s.n_sum n₀ 0 = n₀ from by
      rw [← h0]
      exact repMid_midb _ _ _]

/-! ### Measurement post-processing, `src/ssp/measurements.py` -/

/-- `subset = [A[i] for i, bit in enumerate(subset_qubits) if bit == '1']`
with `subset_qubits = list(reversed(state))`: element `A[i]` is kept when
character `i` of the reversed bitstring is set.  Callers decode strings of
length `len(A)`, so every kept index is in range (Python would raise past the
end; an out-of-range set bit is dropped here). -/
def decodeSubset (A : List ℤ) (state : List Bool) : List ℤ :=
  state.reverse.enum.filterMap fun ib => if ib.2 then A[ib.1]? else none

/-- `Results.instance_result`: sort the `(bitstring, raw count)` pairs by
descending count (Python `sorted` with a key is stable), decode each
bitstring, and keep `(subset, raw/total)` for exactly those whose subset sums
to `t`. -/
def instance_result (counts : List (List Bool × ℕ)) (A : List ℤ) (t : ℤ) :
    List (List ℤ × ℚ) :=
  (counts.mergeSort fun p q => decide (q.2 ≤ p.2)).filterMap fun sr =>
    if (decodeSubset A sr.1).sum = t then
      some (decodeSubset A sr.1,
        (sr.2 : ℚ) / (((counts.map fun p => p.2).sum : ℕ) : ℚ))
    else none

/-! ### Subset-sum bounds for register sizing -/

theorem sum_le_filter_pos_sum (T : List ℤ) :
    T.sum ≤ (T.filter fun a => decide (0 < a)).sum := by
  induction T with
  | nil => simp
  | cons a T ih =>
      rw [List.sum_cons, List.filter_cons]
      by_cases hp : 0 < a
      · rw [if_pos (decide_eq_true hp), List.sum_cons]
        exact add_le_add_left ih a
      · rw [if_neg (by simpa using hp)]
        have ha : a ≤ 0 := by omega
        linarith [ih]

theorem filter_neg_sum_le_sum (T : List ℤ) :
    (T.filter fun a => decide (a < 0)).sum ≤ T.sum := by
  induction T with
  | nil => simp
  | cons a T ih =>
      rw [List.sum_cons, List.filter_cons]
      by_cases hp : a < 0
      · rw [if_pos (decide_eq_true hp), List.sum_cons]
        exact add_le_add_left ih a
      · rw [if_neg (by simpa using hp)]
        have ha : 0 ≤ a := by omega
        linarith [ih]

theorem sublist_sum_le_of_nonneg {l₁ l₂ : List ℤ} (h : l₁.Sublist l₂) :
    (∀ a ∈ l₂, 0 ≤ a) → l₁.sum ≤ l₂.sum := by
  induction h with
  | slnil => intro _; exact le_refl 0
  | cons a h ih =>
      intro hpos
      rw [List.sum_cons]
      have ha : 0 ≤ a := hpos a (List.mem_cons_self a _)
      have h2 := ih (fun b hb => hpos b (List.mem_cons_of_mem a hb))
      linarith
  | cons₂ a h ih =>
      intro hpos
      rw [List.sum_cons, List.sum_cons]
      have h2 := ih (fun b hb => hpos b (List.mem_cons_of_mem a hb))
      linarith

theorem sublist_sum_ge_of_nonpos {l₁ l₂ : List ℤ} (h : l₁.Sublist l₂) :
    (∀ a ∈ l₂, a ≤ 0) → l₂.sum ≤ l₁.sum := by
  induction h with
  | slnil => intro _; exact le_refl 0
  | cons a h ih =>
      intro hpos
      rw [List.sum_cons]
      have ha : a ≤ 0 := hpos a (List.mem_cons_self a _)
      have h2 := ih (fun b hb => hpos b (List.mem_cons_of_mem a hb))
      linarith
  | cons₂ a h ih =>
      intro hpos
      rw [List.sum_cons, List.sum_cons]
      have h2 := ih (fun b hb => hpos b (List.mem_cons_of_mem a hb))
      linarith

theorem list_sum_nonpos (l : List ℤ) (h : ∀ a ∈ l, a ≤ 0) : l.sum ≤ 0 := by
  induction l with
  | nil => simp
  | cons a l ih =>
      rw [List.sum_cons]
      have h2 := ih (fun b hb => h b (List.mem_cons_of_mem a hb))
      have ha := h a (List.mem_cons_self a l)
      linarith

theorem sublist_sum_bounds {A T : List ℤ} (hsub : T.Sublist A) :
    (A.filter fun a => decide (a < 0)).sum ≤ T.sum
      ∧ T.sum ≤ (A.filter fun a => decide (0 < a)).sum := by
  constructor
  · calc (A.filter fun a => decide (a < 0)).sum
        ≤ (T.filter fun a => decide (a < 0)).sum := by
          apply sublist_sum_ge_of_nonpos (List.Sublist.filter _ hsub)
          intro a ha
          have h2 := of_decide_eq_true (List.mem_filter.mp ha).2
          omega
      _ ≤ T.sum := filter_neg_sum_le_sum T
  · calc T.sum ≤ (T.filter fun a => decide (0 < a)).sum := sum_le_filter_pos_sum T
      _ ≤ (A.filter fun a => decide (0 < a)).sum := by
          apply sublist_sum_le_of_nonneg (List.Sublist.filter _ hsub)
          intro a ha
          have h2 := of_decide_eq_true (List.mem_filter.mp ha).2
          omega

/-! ### Decoding measured bitstrings -/

theorem decode_spec (A : List ℤ) :
    ∀ s : List Bool, s.length ≤ A.length →
      (s.enum.filterMap fun ib => if ib.2 then A[ib.1]? else none)
        = ((List.range s.length).filter fun i => s.getD i false).map
            fun i => A.getD i 0 := by
  intro s
  induction s using List.reverseRecOn with
  | nil => intro _; rfl
  | append_singleton s' b ih =>
      intro hlen
      rw [List.length_append, List.length_singleton] at hlen
      rw [List.enum_append, List.filterMap_append,
        show List.enumFrom s'.length [b] = [(s'.length, b)] from rfl,
        List.length_append,
        show (s'.length + [b].length) = s'.length + 1 from rfl,
        List.range_succ, List.filter_append, List.map_append,
        ih (by omega)]
      have hfc : ((List.range s'.length).filter fun i => (s' ++ [b]).getD i false)
          = (List.range s'.length).filter fun i => s'.getD i false := by
        apply List.filter_congr
        intro i hi
        rw [List.getD_append s' [b] false i (List.mem_range.mp hi)]
      rw [hfc]
      congr 1
      have hgd : (s' ++ [b]).getD s'.length false = b := by
        rw [List.getD_append_right s' [b] false s'.length (le_refl _)]
        simp
      have hslt : s'.length < A.length := by omega
      by_cases hbb : b = true
      · subst hbb
        rw [show (List.filterMap (fun ib : ℕ × Bool => if ib.2 then A[ib.1]? else none)
              [(s'.length, true)]) = [A.getD s'.length 0] from by
            simp [List.filterMap_cons, List.getElem?_eq_getElem hslt,
              List.getD_eq_getElem A 0 hslt],
          show (([s'.length].filter fun i => (s' ++ [true]).getD i false))
              = [s'.length] from by
            simp [List.filter_cons, hgd]]
        rfl
      · have hbf : b = false := by
          cases b
          · rfl
          · exact absurd rfl hbb
        subst hbf
        rw [show (List.filterMap (fun ib : ℕ × Bool => if ib.2 then A[ib.1]? else none)
              [(s'.length, false)]) = [] from by simp,
          show (([s'.length].filter fun i => (s' ++ [false]).getD i false))
              = ([] : List ℕ) from by
            simp [List.filter_cons, hgd]]
        rfl

/-- `self.assembly_types = ["FullQFT", "HalfQFT"]`. -/
def assembly_types : List String := ["FullQFT", "HalfQFT"]

/-- One record of `Stats.run` (the fields the claims speak about; the timing
and gate-count columns are reporting glue over the backend). -/
structure StatsRecord where
  size : ℕ
  instance_id : ℕ
  assembly_type : String
  circuit : Circuit
  solutions : List (List ℤ)
  success_probability : ℚ

/-- `Stats.run`: per dataset size, per instance id, per assembly type, build
the solver circuit with `iterations=1`, obtain counts from the simulation
`backend` (the external collaborator), and record the solutions and the
summed success probability from `instance_result`.  Fields of the record, in
order: size, instance id, assembly type, circuit, solutions, success
probability. -/
def statsRun (ds : List (ℕ × List (ℕ × List ℤ × ℤ)))
    (backend : Circuit → List (List Bool × ℕ)) : List StatsRecord :=
  ds.flatMap fun si =>
    si.2.flatMap fun inst =>
      assembly_types.map fun aty =>
        let solver : DGSSPSolver := ⟨inst.2.1, inst.2.2, aty⟩
        let qc := solver.solve 1
        let swp := instance_result (backend qc) inst.2.1 inst.2.2
        ⟨si.1, inst.1, aty, qc, swp.map fun p => p.1,
          (swp.map fun p => p.2).sum⟩

/-! ### Characterising `instance_result` and `Stats.run` -/

theorem filterMap_if_eq_filter_map {α β : Type} (p : α → Prop) [DecidablePred p]
    (f : α → β) (l : List α) :
    (l.filterMap fun a => if p a then some (f a) else none)
      = (l.filter fun a => decide (p a)).map f := by
  induction l with
  | nil => rfl
  | cons a l ih =>
      by_cases hp : p a
      · simp [List.filterMap_cons, List.filter_cons, hp, ih]
      · simp [List.filterMap_cons, List.filter_cons, hp, ih]

theorem instance_result_perm (counts : List (List Bool × ℕ)) (A : List ℤ) (t : ℤ) :
    (instance_result counts A t).Perm
      ((counts.filter fun sr => decide ((decodeSubset A sr.1).sum = t)).map
        fun sr => (decodeSubset A sr.1,
          (sr.2 : ℚ) / (((counts.map fun p => p.2).sum : ℕ) : ℚ))) := by
  unfold instance_result
  have h1 := List.Perm.filterMap
    (fun sr : List Bool × ℕ =>
      if (decodeSubset A sr.1).sum = t then
        some (decodeSubset A sr.1,
          (sr.2 : ℚ) / (((counts.map fun p => p.2).sum : ℕ) : ℚ))
      else none)
    (List.mergeSort_perm counts fun p q => decide (q.2 ≤ p.2))
  refine h1.trans ?_
  rw [filterMap_if_eq_filter_map
    (fun sr : List Bool × ℕ => (decodeSubset A sr.1).sum = t)
    (fun sr => (decodeSubset A sr.1,
      (sr.2 : ℚ) / (((counts.map fun p => p.2).sum : ℕ) : ℚ))) counts]

theorem instance_result_prob_sum (counts : List (List Bool × ℕ)) (A : List ℤ)
    (t : ℤ) :
    ((instance_result counts A t).map fun p => p.2).sum
      = ((counts.filter fun sr => decide ((decodeSubset A sr.1).sum = t)).map
          fun sr => (sr.2 : ℚ) / (((counts.map fun p => p.2).sum : ℕ) : ℚ)).sum := by
  have h2 := List.Perm.map (fun p : List ℤ × ℚ => p.2) (instance_result_perm counts A t)
  rw [List.Perm.sum_eq h2, List.map_map]
  rfl

theorem statsRun_keys (ds : List (ℕ × List (ℕ × List ℤ × ℤ)))
    (backend : Circuit → List (List Bool × ℕ)) :
    (statsRun ds backend).map (fun r => (r.size, r.instance_id, r.assembly_type))
      = ds.flatMap fun si => si.2.flatMap fun inst =>
          assembly_types.map fun aty => (si.1, inst.1, aty) := by
  unfold statsRun
  rw [List.map_flatMap]
  congr 1
  funext si
  rw [List.map_flatMap]
  congr 1

theorem statsRun_records (ds : List (ℕ × List (ℕ × List ℤ × ℤ)))
    (backend : Circuit → List (List Bool × ℕ)) :
    ∀ r ∈ statsRun ds backend, ∃ si ∈ ds, ∃ inst ∈ si.2,
      r.size = si.1 ∧ r.instance_id = inst.1 ∧ r.assembly_type ∈ assembly_types
      ∧ r.circuit = (DGSSPSolver.mk inst.2.1 inst.2.2 r.assembly_type).solve 1
      ∧ r.success_probability
          = (((backend r.circuit).filter fun sr =>
              decide ((decodeSubset inst.2.1 sr.1).sum = inst.2.2)).map
              fun sr => (sr.2 : ℚ)
                / ((((backend r.circuit).map fun p => p.2).sum : ℕ) : ℚ)).sum := by
  intro r hr
  unfold statsRun at hr
  rw [List.mem_flatMap] at hr
  obtain ⟨si, hsi, hr⟩ := hr
  rw [List.mem_flatMap] at hr
  obtain ⟨inst, hinst, hr⟩ := hr
  rw [List.mem_map] at hr
  obtain ⟨aty, haty, hrec⟩ := hr
  subst hrec
  exact ⟨si, hsi, inst, hinst, rfl, rfl, haty, rfl,
    instance_result_prob_sum _ inst.2.1 inst.2.2⟩

/-! ### Qubits touched by each gate -/

/-- The qubits a gate acts on. -/
def gateQubits : QGate → List ℕ
  | .x q => [q]
  | .h q => [q]
  | .cp _ c t => [c, t]
  | .mcx cs t => cs ++ [t]
  | .qft o m => (List.range m).map fun j => o + j
  | .iqft o m => (List.range m).map fun j => o + j

theorem gateQubits_shiftG (off : ℕ) (g : QGate) :
    gateQubits (shiftG off g) = (gateQubits g).map fun q => off + q := by
  cases g with
  | x q => rfl
  | h q => rfl
  | cp r c t => rfl
  | mcx cs t =>
      show (cs.map fun q => off + q) ++ [off + t] = (cs ++ [t]).map fun q => off + q
      rw [List.map_append]
      rfl
  | qft o' m' =>
      show ((List.range m').map fun j => off + o' + j)
          = ((List.range m').map fun j => o' + j).map fun q => off + q
      rw [List.map_map]
      apply List.map_congr_left
      intro j _
      show off + o' + j = off + (o' + j)
      omega
  | iqft o' m' =>
      show ((List.range m').map fun j => off + o' + j)
          = ((List.range m').map fun j => o' + j).map fun q => off + q
      rw [List.map_map]
      apply List.map_congr_left
      intro j _
      show off + o' + j = off + (o' + j)
      omega

theorem cpCascade_qubits (o m : ℕ) (B : List ℤ) (hB : B.length ≤ o) :
    ∀ g ∈ cpCascade o m B, ∀ q ∈ gateQubits g, q < o + m := by
  intro g hg q hq
  obtain ⟨k, hk, j, hj, hgk⟩ := (cpCascade_mem o m B g).mp hg
  subst hgk
  have hq2 : q = k ∨ q = o + j := by simpa [gateQubits] using hq
  omega

theorem oracle_gate_qubits (s : DGSSPSolver) (hm : 1 ≤ s.n_sum) :
    ∀ g ∈ s.oracle_gate, ∀ q ∈ gateQubits g, q < s.n_sum := by
  intro g hg q hq
  unfold DGSSPSolver.oracle_gate at hg
  rw [List.mem_append, List.mem_append] at hg
  have hx : ∀ hg' : g ∈ ((List.range s.n_sum).filterMap fun j =>
      if pybit s.t j = 0 then some (QGate.x j) else none), q < s.n_sum := by
    intro hg'
    rw [List.mem_filterMap] at hg'
    obtain ⟨j, hj, hgj⟩ := hg'
    have hjlt := List.mem_range.mp hj
    by_cases hpy : pybit s.t j = 0
    · rw [if_pos hpy] at hgj
      have hgx : QGate.x j = g := Option.some_injective _ hgj
      subst hgx
      have : q = j := by simpa [gateQubits] using hq
      omega
    · rw [if_neg hpy] at hgj
      exact Option.noConfusion hgj
  rcases hg with (hg | hg) | hg
  · exact hx hg
  · have h3 : g = QGate.h (s.n_sum - 1)
        ∨ g = QGate.mcx (List.range (s.n_sum - 1)) (s.n_sum - 1)
        ∨ g = QGate.h (s.n_sum - 1) := by simpa using hg
    rcases h3 with h3 | h3 | h3
    · subst h3
      have : q = s.n_sum - 1 := by simpa [gateQubits] using hq
      omega
    · subst h3
      have : q ∈ List.range (s.n_sum - 1) ++ [s.n_sum - 1] := hq
      rw [List.mem_append] at this
      rcases this with h4 | h4
      · have := List.mem_range.mp h4
        omega
      · have : q = s.n_sum - 1 := by simpa using h4
        omega
    · subst h3
      have : q = s.n_sum - 1 := by simpa [gateQubits] using hq
      omega
  · exact hx hg

theorem grover_diffuser_qubits (s : DGSSPSolver) (hn : 1 ≤ s.n_ind) :
    ∀ g ∈ s.grover_diffuser, ∀ q ∈ gateQubits g, q < s.n_ind := by
  intro g hg q hq
  unfold DGSSPSolver.grover_diffuser at hg
  rw [List.mem_append, List.mem_append] at hg
  have hpair : ∀ k < s.n_ind, g = QGate.h k ∨ g = QGate.x k → q < s.n_ind := by
    intro k hk hcase
    rcases hcase with h3 | h3 <;>
      · subst h3
        have : q = k := by simpa [gateQubits] using hq
        omega
  rcases hg with (hg | hg) | hg
  · rw [List.mem_flatMap] at hg
    obtain ⟨k, hk, hgk⟩ := hg
    exact hpair k (List.mem_range.mp hk) (by simpa using hgk)
  · have h3 : g = QGate.h (s.n_ind - 1)
        ∨ g = QGate.mcx (List.range (s.n_ind - 1)) (s.n_ind - 1)
        ∨ g = QGate.h (s.n_ind - 1) := by simpa using hg
    rcases h3 with h3 | h3 | h3
    · subst h3
      have : q = s.n_ind - 1 := by simpa [gateQubits] using hq
      omega
    · subst h3
      have : q ∈ List.range (s.n_ind - 1) ++ [s.n_ind - 1] := hq
      rw [List.mem_append] at this
      rcases this with h4 | h4
      · have := List.mem_range.mp h4
        omega
      · have : q = s.n_ind - 1 := by simpa using h4
        omega
    · subst h3
      have : q = s.n_ind - 1 := by simpa [gateQubits] using hq
      omega
  · rw [List.mem_flatMap] at hg
    obtain ⟨k, hk, hgk⟩ := hg
    exact hpair k (List.mem_range.mp hk) (by simpa [Or.comm] using hgk)

theorem assembly_qubits (s : DGSSPSolver) (hm : 1 ≤ s.n_sum) :
    ∀ g ∈ s.assembly, ∀ q ∈ gateQubits g, q < s.n_ind + s.n_sum := by
  intro g hg q hq
  have hsum : g ∈ s.sum_gate → q < s.n_ind + s.n_sum := fun h2 =>
    cpCascade_qubits s.n_ind s.n_sum _ (by rw [List.length_map]; exact le_rfl) g h2 q hq
  have hsub : g ∈ s.sub_gate → q < s.n_ind + s.n_sum := fun h2 =>
    cpCascade_qubits s.n_ind s.n_sum _ (by rw [List.length_map]; exact le_rfl) g h2 q hq
  have hqft : ∀ o' m', g = QGate.qft o' m' ∨ g = QGate.iqft o' m' →
      ∀ q' ∈ gateQubits g, q' < o' + m' := by
    intro o' m' hcase q' hq'
    rcases hcase with h3 | h3 <;>
      · subst h3
        obtain ⟨j, hj, hoj⟩ := List.mem_map.mp hq'
        have := List.mem_range.mp hj
        omega
  have horacle : g ∈ s.oracle_gate.map (shiftG s.n_ind) → q < s.n_ind + s.n_sum := by
    intro h2
    obtain ⟨g₀, hg₀, hgg⟩ := List.mem_map.mp h2
    subst hgg
    rw [gateQubits_shiftG] at hq
    obtain ⟨q₀, hq₀, hqq⟩ := List.mem_map.mp hq
    have := oracle_gate_qubits s hm g₀ hg₀ q₀ hq₀
    omega
  have hhl : g ∈ ((List.range s.n_sum).map fun j => QGate.h (s.n_ind + j)) →
      q < s.n_ind + s.n_sum := by
    intro h2
    obtain ⟨j, hj, hgj⟩ := List.mem_map.mp h2
    subst hgj
    have hjm := List.mem_range.mp hj
    have : q = s.n_ind + j := by simpa [gateQubits] using hq
    omega
  unfold DGSSPSolver.assembly at hg
  by_cases h1 : s.assembly_type = "FullQFT"
  · rw [if_pos h1] at hg
    simp only [List.mem_append] at hg
    rcases hg with ((((((hg | hg) | hg) | hg) | hg) | hg) | hg)
    · exact hqft s.n_ind s.n_sum (Or.inl (by simpa using hg)) q hq
    · exact hsum hg
    · exact hqft s.n_ind s.n_sum (Or.inr (by simpa using hg)) q hq
    · exact horacle hg
    · exact hqft s.n_ind s.n_sum (Or.inl (by simpa using hg)) q hq
    · exact hsub hg
    · exact hqft s.n_ind s.n_sum (Or.inr (by simpa using hg)) q hq
  · rw [if_neg h1] at hg
    by_cases h2 : s.assembly_type = "HalfQFT"
    · rw [if_pos h2] at hg
      simp only [List.mem_append] at hg
      rcases hg with ((((((hg | hg) | hg) | hg) | hg) | hg) | hg)
      · exact hhl hg
      · exact hsum hg
      · exact hqft s.n_ind s.n_sum (Or.inr (by simpa using hg)) q hq
      · exact horacle hg
      · exact hqft s.n_ind s.n_sum (Or.inl (by simpa using hg)) q hq
      · exact hsub hg
      · exact hhl hg
    · rw [if_neg h2] at hg
      exact absurd hg (List.not_mem_nil g)

/-! ### Evaluating the ceiling logarithm on small values -/

theorem clog_two_two : Nat.clog 2 2 = 1 := by
  rw [Nat.clog_of_two_le (by norm_num) (by norm_num),
    show (2 + 2 - 1) / 2 = 1 from by norm_num, Nat.clog_one_right]

theorem clog_two_three : Nat.clog 2 3 = 2 := by
  rw [Nat.clog_of_two_le (by norm_num) (by norm_num),
    show (3 + 2 - 1) / 2 = 2 from by norm_num, clog_two_two]

theorem range_len_ex (aty : String) :
    (DGSSPSolver.mk [2] 2 aty).range_len = 3 := by
  unfold DGSSPSolver.range_len DGSSPSolver.sum_pos DGSSPSolver.sum_neg
  rfl

theorem n_sum_ex (aty : String) : (DGSSPSolver.mk [2] 2 aty).n_sum = 2 := by
  unfold DGSSPSolver.n_sum
  rw [range_len_ex aty]
  rw [show ((3 : ℤ)).toNat = 3 from rfl, clog_two_three]

theorem shiftG_zero (g : QGate) : shiftG 0 g = g := by
  cases g with
  | x q =>
      show QGate.x (0 + q) = QGate.x q
      rw [Nat.zero_add]
  | h q =>
      show QGate.h (0 + q) = QGate.h q
      rw [Nat.zero_add]
  | cp r c t =>
      show QGate.cp r (0 + c) (0 + t) = QGate.cp r c t
      rw [Nat.zero_add, Nat.zero_add]
  | mcx cs t =>
      show QGate.mcx (cs.map fun q => 0 + q) (0 + t) = QGate.mcx cs t
      rw [Nat.zero_add]
      congr 1
      calc cs.map (fun q => 0 + q) = cs.map id :=
            List.map_congr_left (fun a _ => Nat.zero_add a)
        _ = cs := List.map_id cs
  | qft o m =>
      show QGate.qft (0 + o) m = QGate.qft o m
      rw [Nat.zero_add]
  | iqft o m =>
      show QGate.iqft (0 + o) m = QGate.iqft o m
      rw [Nat.zero_add]

theorem cpCascade_map_mem (o m : ℕ) (A : List ℤ) (f : ℤ → ℤ) (g : QGate) :
    g ∈ cpCascade o m (A.map f)
      ↔ ∃ k, ∃ hk : k < A.length, ∃ j, j < m
          ∧ g = QGate.cp (((f A[k] : ℤ) : ℚ) / 2 ^ (j + 1)) k (o + j) := by
  rw [cpCascade_mem]
  constructor
  · rintro ⟨k, hk, j, hj, hgk⟩
    have hk' : k < A.length := by
      rw [List.length_map] at hk
      exact hk
    refine ⟨k, hk', j, hj, ?_⟩
    rw [hgk, show (A.map f).get ⟨k, hk⟩ = f A[k] from List.getElem_map f]
  · rintro ⟨k, hk, j, hj, hg⟩
    have hk' : k < (A.map f).length := by
      rw [List.length_map]
      exact hk
    refine ⟨k, hk', j, hj, ?_⟩
    rw [hg, show (A.map f).get ⟨k, hk'⟩ = f A[k] from List.getElem_map f]

/-! ## The ten claims -/

/-- C1: on an instance with `n_sum ≥ 1` and a target `0 ≤ t < 2^n_sum`, the
oracle contains an `X` exactly on the sum qubits `j` where bit `j` of `t` is
0 (applied both before and after the `H`–`MCX`–`H` multi-controlled `Z` on
the last sum qubit), and as a whole it phase-flips exactly the sum-register
basis state whose little-endian value is `t`, leaving every other basis
state unchanged. -/
theorem C1_oracle_marks_target {L : ℕ} (hL : 2 ≤ L) (s : DGSSPSolver)
    (hm : 1 ≤ s.n_sum) (ht0 : 0 ≤ s.t) (htlt : s.t < 2 ^ s.n_sum) (n₀ : ℕ) :
    (∀ j, QGate.x j ∈ s.oracle_gate ↔ j < s.n_sum ∧ pybit s.t j = 0)
    ∧ runG L s.oracle_gate (bv L n₀)
        = KS (if n₀ % 2 ^ s.n_sum = s.t.toNat then -1 else 1) (bv L n₀) := by
  have hshift : s.oracle_gate.map (shiftG 0) = s.oracle_gate :=
    calc s.oracle_gate.map (shiftG 0) = s.oracle_gate.map id :=
          List.map_congr_left (fun g _ => shiftG_zero g)
      _ = s.oracle_gate := List.map_id _
  constructor
  · intro j
    unfold DGSSPSolver.oracle_gate
    rw [List.mem_append, List.mem_append]
    constructor
    · have hxs : QGate.x j ∈ ((List.range s.n_sum).filterMap fun j' =>
          if pybit s.t j' = 0 then some (QGate.x j') else none) →
          j < s.n_sum ∧ pybit s.t j = 0 := by
        intro h
        rw [List.mem_filterMap] at h
        obtain ⟨j', hj', hjj⟩ := h
        by_cases hpy : pybit s.t j' = 0
        · rw [if_pos hpy] at hjj
          have hx : QGate.x j' = QGate.x j := Option.some_injective _ hjj
          rw [QGate.x.injEq] at hx
          subst hx
          exact ⟨List.mem_range.mp hj', hpy⟩
        · rw [if_neg hpy] at hjj
          exact Option.noConfusion hjj
      rintro ((h | h) | h)
      · exact hxs h
      · simp at h
      · exact hxs h
    · rintro ⟨hjm, hpy⟩
      left
      left
      rw [List.mem_filterMap]
      exact ⟨j, List.mem_range.mpr hjm, by rw [if_pos hpy]⟩
  · rw [← hshift, oracle_run hL s hm 0 n₀, midb_zero_off,
      Int.emod_eq_of_lt ht0 htlt]

theorem C1_oracle_marks_target_witness :
    (∀ j, QGate.x j ∈ (DGSSPSolver.mk [2] 2 "FullQFT").oracle_gate
        ↔ j < (DGSSPSolver.mk [2] 2 "FullQFT").n_sum
          ∧ pybit (DGSSPSolver.mk [2] 2 "FullQFT").t j = 0)
    ∧ runG 4 (DGSSPSolver.mk [2] 2 "FullQFT").oracle_gate (bv 4 2)
        = KS (if 2 % 2 ^ (DGSSPSolver.mk [2] 2 "FullQFT").n_sum
            = ((DGSSPSolver.mk [2] 2 "FullQFT").t).toNat then -1 else 1)
            (bv 4 2) :=
  C1_oracle_marks_target (by norm_num) (DGSSPSolver.mk [2] 2 "FullQFT")
    (by rw [n_sum_ex]; norm_num) (by norm_num)
    (by rw [n_sum_ex]; norm_num) 2

/-- C2: `sum_gate` is a duplicate-free list of `n_ind · n_sum` gates whose
members are exactly one controlled-phase gate per index `k < len(A)` and sum
qubit `j < n_sum`, with angle `2·π·(A[k] mod 2^n_sum)/2^(j+1)`, control
`ind[k]` and target `summ[j]`. -/
theorem C2_sum_gate_shape (s : DGSSPSolver) :
    s.sum_gate.Nodup
    ∧ s.sum_gate.length = s.n_ind * s.n_sum
    ∧ ∀ g, g ∈ s.sum_gate
        ↔ ∃ k, ∃ hk : k < s.A.length, ∃ j, j < s.n_sum
            ∧ g = QGate.cp (((s.A[k] % 2 ^ s.n_sum : ℤ) : ℚ) / 2 ^ (j + 1))
                k (s.n_ind + j) := by
  refine ⟨cpCascade_nodup _ _ _, ?_, ?_⟩
  · rw [show s.sum_gate
        = cpCascade s.n_ind s.n_sum (s.A.map fun a => a % (2 : ℤ) ^ s.n_sum) from
        rfl, cpCascade_length, List.length_map]
    rfl
  · intro g
    exact cpCascade_map_mem s.n_ind s.n_sum s.A (fun a => a % (2 : ℤ) ^ s.n_sum) g

/-- C3: `sub_gate` contains exactly one controlled-phase per `(k, j)` with
angle `2·π·((-A[k]) mod 2^n_sum)/2^(j+1)` on `(ind[k], summ[j])`, and for
each pair the sum of the `sub_gate` and `sum_gate` angles is an integer
multiple of `2·π/2^j`: `SubGate` is the modular inverse adder of `SumGate`,
element by element. -/
theorem C3_sub_gate_inverse (s : DGSSPSolver) :
    (∀ g, g ∈ s.sub_gate
        ↔ ∃ k, ∃ hk : k < s.A.length, ∃ j, j < s.n_sum
            ∧ g = QGate.cp ((((-s.A[k]) % 2 ^ s.n_sum : ℤ) : ℚ) / 2 ^ (j + 1))
                k (s.n_ind + j))
    ∧ ∀ k, ∀ hk : k < s.A.length, ∀ j, j < s.n_sum →
        ∃ c : ℤ, ((s.A[k] % 2 ^ s.n_sum : ℤ) : ℚ) / 2 ^ (j + 1)
            + (((-s.A[k]) % 2 ^ s.n_sum : ℤ) : ℚ) / 2 ^ (j + 1)
          = (c : ℚ) / 2 ^ j := by
  constructor
  · intro g
    exact cpCascade_map_mem s.n_ind s.n_sum s.A (fun a => (-a) % (2 : ℤ) ^ s.n_sum) g
  · intro k hk j hj
    have hdvd : ((2 : ℤ) ^ s.n_sum) ∣ (s.A[k] % 2 ^ s.n_sum + (-s.A[k]) % 2 ^ s.n_sum) := by
      apply Int.dvd_of_emod_eq_zero
      rw [← Int.add_emod]
      simp
    obtain ⟨d, hd⟩ := hdvd
    refine ⟨d * 2 ^ (s.n_sum - 1), ?_⟩
    rw [div_add_div_same,
      show ((s.A[k] % 2 ^ s.n_sum : ℤ) : ℚ) + (((-s.A[k]) % 2 ^ s.n_sum : ℤ) : ℚ)
        = ((s.A[k] % 2 ^ s.n_sum + (-s.A[k]) % 2 ^ s.n_sum : ℤ) : ℚ) from by
          push_cast
          ring,
      hd]
    have hpow2 : (2 : ℚ) ^ (s.n_sum - 1) * 2 ^ (j + 1) = 2 ^ s.n_sum * 2 ^ j := by
      rw [← pow_add, ← pow_add]
      congr 1
      omega
    push_cast
    rw [div_eq_div_iff (by positivity) (by positivity)]
    linear_combination (-(d : ℚ)) * hpow2

/-- C4: on every basis state whose sum register is `|0…0⟩`, the `FullQFT`
step circuit and the `HalfQFT` step circuit (Hadamards in place of the
outermost QFT and inverse QFT) act identically, so the two assembly
strategies are interchangeable as a Grover step. -/
theorem C4_full_half_agree {L : ℕ} (hL : 2 ≤ L) (A : List ℤ) (t : ℤ)
    (hm1 : 1 ≤ (DGSSPSolver.mk A t "FullQFT").n_sum)
    (hmL : (DGSSPSolver.mk A t "FullQFT").n_sum ≤ L + 1)
    (hn1 : 1 ≤ (DGSSPSolver.mk A t "FullQFT").n_ind)
    (n₀ : ℕ)
    (h0 : midb (DGSSPSolver.mk A t "FullQFT").n_ind
      (DGSSPSolver.mk A t "FullQFT").n_sum n₀ = 0) :
    runG L (DGSSPSolver.mk A t "FullQFT").assembly (bv L n₀)
      = runG L (DGSSPSolver.mk A t "HalfQFT").assembly (bv L n₀) := by
  rw [assembly_run_full hL (DGSSPSolver.mk A t "FullQFT") rfl hm1 hmL n₀ h0,
    assembly_run_half hL (DGSSPSolver.mk A t "HalfQFT") rfl hm1 hmL n₀ h0]
  rfl

theorem C4_full_half_agree_witness :
    runG 4 (DGSSPSolver.mk [2] 2 "FullQFT").assembly (bv 4 1)
      = runG 4 (DGSSPSolver.mk [2] 2 "HalfQFT").assembly (bv 4 1) :=
  C4_full_half_agree (by norm_num) [2] 2
    (by rw [n_sum_ex]; norm_num) (by rw [n_sum_ex]; norm_num) (by decide) 1
    (by rw [n_sum_ex]; decide)

/-- C5: `__init__` sets `n_ind = len(A)` and `n_sum = ⌈log₂(P - N + 1)⌉`
with `P` the positive and `N` the negative part of `A`; every subset sum of
`A` lies in `[N, P]`, an interval of at most `2^n_sum` values, so the sum
register can represent every achievable subset sum (as an offset from `N`).
-/
theorem C5_register_sizing (s : DGSSPSolver) :
    s.n_ind = s.A.length
    ∧ s.n_sum = Nat.clog 2 (s.sum_pos - s.sum_neg + 1).toNat
    ∧ s.range_len.toNat ≤ 2 ^ s.n_sum
    ∧ ∀ T : List ℤ, T.Sublist s.A →
        s.sum_neg ≤ T.sum ∧ T.sum ≤ s.sum_pos
        ∧ (T.sum - s.sum_neg).toNat < 2 ^ s.n_sum := by
  refine ⟨rfl, rfl, Nat.le_pow_clog (by norm_num) _, ?_⟩
  intro T hT
  obtain ⟨hlo, hhi⟩ := sublist_sum_bounds hT
  have hsneg : s.sum_neg = (List.filter (fun a => decide (a < 0)) s.A).sum := rfl
  have hspos : s.sum_pos = (List.filter (fun a => decide (0 < a)) s.A).sum := rfl
  rw [← hsneg] at hlo
  rw [← hspos] at hhi
  refine ⟨hlo, hhi, ?_⟩
  have h2 : s.range_len.toNat ≤ 2 ^ s.n_sum := Nat.le_pow_clog (by norm_num) _
  have hP : 0 ≤ s.sum_pos :=
    List.sum_nonneg (by
      intro a ha
      have h3 := of_decide_eq_true (List.mem_filter.mp ha).2
      omega)
  have hN : s.sum_neg ≤ 0 :=
    list_sum_nonpos _ (by
      intro a ha
      have h3 := of_decide_eq_true (List.mem_filter.mp ha).2
      omega)
  have hrl : s.range_len = s.sum_pos - s.sum_neg + 1 := rfl
  have h3 : (0 : ℤ) ≤ T.sum - s.sum_neg := by linarith
  rw [Int.toNat_lt h3]
  have h4 : s.range_len ≤ ((2 ^ s.n_sum : ℕ) : ℤ) := by
    calc s.range_len = ((s.range_len.toNat : ℕ) : ℤ) :=
          (Int.toNat_of_nonneg (by rw [hrl]; linarith)).symm
      _ ≤ _ := by exact_mod_cast h2
  linarith

/-- C6: `solve` returns a circuit on `n_ind + n_sum` qubits with exactly
`n_ind` classical bits; its gates begin with a Hadamard on every index
qubit, each further iteration appends exactly one copy of the step gate
followed by the diffuser, and only the index qubits (all below `n_ind`) are
measured — the sum register is never measured.  The diffuser acts on index
qubits only and the step stays inside the circuit's qubits. -/
theorem C6_solve_structure (s : DGSSPSolver) (k : ℕ) :
    (s.solve k).num_qubits = s.n_ind + s.n_sum
    ∧ (s.solve k).num_clbits = s.n_ind
    ∧ (s.solve k).measured = List.range s.n_ind
    ∧ (∀ q ∈ (s.solve k).measured, q < s.n_ind)
    ∧ (s.solve 0).gates = (List.range s.n_ind).map QGate.h
    ∧ (s.solve (k + 1)).gates
        = (s.solve k).gates ++ (s.assembly ++ s.grover_diffuser)
    ∧ (1 ≤ s.n_ind → ∀ g ∈ s.grover_diffuser, ∀ q ∈ gateQubits g, q < s.n_ind)
    ∧ (1 ≤ s.n_sum → ∀ g ∈ s.assembly, ∀ q ∈ gateQubits g,
        q < s.n_ind + s.n_sum) := by
  refine ⟨rfl, rfl, rfl, ?_, ?_, ?_, grover_diffuser_qubits s, assembly_qubits s⟩
  · intro q hq
    exact List.mem_range.mp hq
  · show (List.range s.n_ind).map QGate.h
        ++ (List.replicate 0 (s.assembly ++ s.grover_diffuser)).flatten
      = (List.range s.n_ind).map QGate.h
    simp
  · show (List.range s.n_ind).map QGate.h
        ++ (List.replicate (k + 1) (s.assembly ++ s.grover_diffuser)).flatten
      = ((List.range s.n_ind).map QGate.h
          ++ (List.replicate k (s.assembly ++ s.grover_diffuser)).flatten)
        ++ (s.assembly ++ s.grover_diffuser)
    rw [List.replicate_succ', List.flatten_append,
      show (List.flatten [s.assembly ++ s.grover_diffuser])
        = s.assembly ++ s.grover_diffuser from by simp,
      List.append_assoc]

/-- C7: `instance_result` returns (in descending-count order, so up to a
permutation) exactly one pair per measured bitstring whose decoded subset
sums to `t`, with probability the raw count over the total count; the
decoded subset takes `A[i]` exactly when character `i` of the reversed
bitstring is set; bitstrings whose subsets miss `t` contribute nothing. -/
theorem C7_instance_result (counts : List (List Bool × ℕ)) (A : List ℤ) (t : ℤ)
    (htot : 0 < (counts.map fun p => p.2).sum)
    (hlen : ∀ p ∈ counts, p.1.length = A.length) :
    (instance_result counts A t).Perm
      ((counts.filter fun sr => decide ((decodeSubset A sr.1).sum = t)).map
        fun sr => (decodeSubset A sr.1,
          (sr.2 : ℚ) / (((counts.map fun p => p.2).sum : ℕ) : ℚ)))
    ∧ ∀ p ∈ counts, decodeSubset A p.1
        = ((List.range A.length).filter fun i => p.1.reverse.getD i false).map
            fun i => A.getD i 0 := by
  refine ⟨instance_result_perm counts A t, ?_⟩
  intro p hp
  have hlp : p.1.reverse.length ≤ A.length := by
    rw [List.length_reverse]
    exact le_of_eq (hlen p hp)
  have h2 := decode_spec A p.1.reverse hlp
  rw [show decodeSubset A p.1 = (p.1.reverse.enum.filterMap fun ib =>
      if ib.2 then A[ib.1]? else none) from rfl, h2, List.length_reverse,
    hlen p hp]

theorem C7_instance_result_witness :
    (instance_result [([true], 3)] [2] 2).Perm
      (([([true], 3)].filter fun sr => decide ((decodeSubset [2] sr.1).sum = 2)).map
        fun sr => (decodeSubset [2] sr.1,
          (sr.2 : ℚ) / ((([([true], 3)].map fun p => p.2).sum : ℕ) : ℚ)))
    ∧ ∀ p ∈ [([true], 3)], decodeSubset [2] p.1
        = ((List.range ([2] : List ℤ).length).filter
            fun i => p.1.reverse.getD i false).map
              fun i => ([2] : List ℤ).getD i 0 :=
  C7_instance_result [([true], 3)] [2] 2 (by decide) (by decide)

/-- C8: `Stats.run` produces exactly one record per triple
`(size, instance id, assembly type)` with the assembly types ranging over
exactly `["FullQFT", "HalfQFT"]`; each record is built from the solver
circuit with `iterations = 1`, and its success probability is the sum of
the probabilities of all measured bitstrings whose decoded subsets sum to
that instance's `t`. -/
theorem C8_stats_run (ds : List (ℕ × List (ℕ × List ℤ × ℤ)))
    (backend : Circuit → List (List Bool × ℕ)) :
    assembly_types = ["FullQFT", "HalfQFT"]
    ∧ (statsRun ds backend).map (fun r => (r.size, r.instance_id, r.assembly_type))
        = (ds.flatMap fun si => si.2.flatMap fun inst =>
            assembly_types.map fun aty => (si.1, inst.1, aty))
    ∧ ∀ r ∈ statsRun ds backend, ∃ si ∈ ds, ∃ inst ∈ si.2,
        r.size = si.1 ∧ r.instance_id = inst.1 ∧ r.assembly_type ∈ assembly_types
        ∧ r.circuit = (DGSSPSolver.mk inst.2.1 inst.2.2 r.assembly_type).solve 1
        ∧ r.success_probability
            = (((backend r.circuit).filter fun sr =>
                decide ((decodeSubset inst.2.1 sr.1).sum = inst.2.2)).map
                fun sr => (sr.2 : ℚ)
                  / ((((backend r.circuit).map fun p => p.2).sum : ℕ) : ℚ)).sum :=
  ⟨rfl, statsRun_keys ds backend, statsRun_records ds backend⟩

/-- C9: for any assembly type other than `FullQFT` and `HalfQFT`, `assembly`
raises no error and returns a circuit with no gates, so `solve` also raises
no error and builds a Grover loop whose step is the identity: on the all-zero
input its final state is the uniform superposition over the index register
(up to a global sign), every outcome carrying probability `1/2^n_ind`. -/
theorem C9_unknown_assembly {L : ℕ} (hL : 2 ≤ L) (s : DGSSPSolver)
    (hty1 : s.assembly_type ≠ "FullQFT") (hty2 : s.assembly_type ≠ "HalfQFT")
    (hn : 1 ≤ s.n_ind) (k : ℕ) :
    s.assembly = []
    ∧ s.assemblyE = some []
    ∧ s.solveE k = some (s.solve k)
    ∧ runG L (s.solve k).gates (bv L 0)
        = ∑ y ∈ Finset.range (2 ^ s.n_ind), KS ((-1) ^ k * nrm L s.n_ind) (bv L y)
    ∧ ((-1 : K L) ^ k * nrm L s.n_ind) * ((-1) ^ k * nrm L s.n_ind)
        = K.ofRat L ((1 : ℚ) / 2 ^ s.n_ind) := by
  have hasm : s.assembly = [] := by
    unfold DGSSPSolver.assembly
    rw [if_neg hty1, if_neg hty2]
  have hAE : s.assemblyE = some [] := by
    unfold DGSSPSolver.assemblyE
    rw [if_neg (by
      rintro (h | h)
      · exact hty1 h
      · exact hty2 h), hasm]
  have hGE : s.grover_diffuserE = some s.grover_diffuser := by
    unfold DGSSPSolver.grover_diffuserE DGSSPSolver.lastQubit
    rw [if_neg (by omega)]
    rfl
  refine ⟨hasm, hAE, ?_, solve_uniform hL s hn hasm k, ?_⟩
  · unfold DGSSPSolver.solveE
    rw [hAE, hGE]
    rfl
  · have h1 : ((-1 : K L) ^ k * nrm L s.n_ind) * ((-1) ^ k * nrm L s.n_ind)
        = ((-1 : K L) * -1) ^ k * (nrm L s.n_ind * nrm L s.n_ind) := by
      rw [mul_pow]
      ring
    rw [h1, show ((-1 : K L) * -1) = 1 from by ring, one_pow, one_mul]
    unfold nrm
    rw [← mul_pow, K.invSqrt2_mul_self hL, ofRat_pow]
    congr 1
    rw [div_pow, one_pow]

theorem C9_unknown_assembly_witness :
    (DGSSPSolver.mk [2] 2 "Foo").assembly = []
    ∧ (DGSSPSolver.mk [2] 2 "Foo").assemblyE = some []
    ∧ (DGSSPSolver.mk [2] 2 "Foo").solveE 1
        = some ((DGSSPSolver.mk [2] 2 "Foo").solve 1)
    ∧ runG 4 ((DGSSPSolver.mk [2] 2 "Foo").solve 1).gates (bv 4 0)
        = ∑ y ∈ Finset.range (2 ^ (DGSSPSolver.mk [2] 2 "Foo").n_ind),
            KS ((-1) ^ 1 * nrm 4 (DGSSPSolver.mk [2] 2 "Foo").n_ind) (bv 4 y)
    ∧ ((-1 : K 4) ^ 1 * nrm 4 (DGSSPSolver.mk [2] 2 "Foo").n_ind)
        * ((-1) ^ 1 * nrm 4 (DGSSPSolver.mk [2] 2 "Foo").n_ind)
        = K.ofRat 4 ((1 : ℚ) / 2 ^ (DGSSPSolver.mk [2] 2 "Foo").n_ind) :=
  C9_unknown_assembly (by norm_num) (DGSSPSolver.mk [2] 2 "Foo")
    (by decide) (by decide) (by decide) 1

/-- C10 (amended): `solve` hits the `IndexError` of `summ[-1]`/`ind[-1]`
whenever `A` is empty (any assembly type), and whenever `n_sum = 0` under a
recognised assembly type (`FullQFT` or `HalfQFT`, where the oracle is
built); with `n_ind ≥ 1` and `n_sum ≥ 1` no error occurs and a circuit is
returned — the implicit precondition of the public interface. -/
theorem C10_index_error (s : DGSSPSolver) (k : ℕ) :
    (s.A = [] → s.solveE k = none)
    ∧ ((s.assembly_type = "FullQFT" ∨ s.assembly_type = "HalfQFT") →
        s.n_sum = 0 → s.solveE k = none)
    ∧ (1 ≤ s.n_ind → 1 ≤ s.n_sum → s.solveE k = some (s.solve k)) := by
  refine ⟨?_, ?_, ?_⟩
  · intro hA
    have hni : s.n_ind = 0 := by
      unfold DGSSPSolver.n_ind
      rw [hA]
      rfl
    have hns : s.n_sum = 0 := by
      unfold DGSSPSolver.n_sum DGSSPSolver.range_len DGSSPSolver.sum_pos
        DGSSPSolver.sum_neg
      rw [hA]
      exact Nat.clog_one_right 2
    have hGE : s.grover_diffuserE = none := by
      unfold DGSSPSolver.grover_diffuserE DGSSPSolver.lastQubit
      rw [if_pos hni]
      rfl
    unfold DGSSPSolver.solveE
    by_cases hty : s.assembly_type = "FullQFT" ∨ s.assembly_type = "HalfQFT"
    · have hAE : s.assemblyE = none := by
        unfold DGSSPSolver.assemblyE DGSSPSolver.oracle_gateE
          DGSSPSolver.lastQubit
        rw [if_pos hty, if_pos hns]
        rfl
      rw [hAE]
      rfl
    · have hAE : s.assemblyE = some s.assembly := by
        unfold DGSSPSolver.assemblyE
        rw [if_neg hty]
      rw [hAE, hGE]
      rfl
  · intro hty hns
    have hAE : s.assemblyE = none := by
      unfold DGSSPSolver.assemblyE DGSSPSolver.oracle_gateE DGSSPSolver.lastQubit
      rw [if_pos hty, if_pos hns]
      rfl
    unfold DGSSPSolver.solveE
    rw [hAE]
    rfl
  · intro hni hns
    have hGE : s.grover_diffuserE = some s.grover_diffuser := by
      unfold DGSSPSolver.grover_diffuserE DGSSPSolver.lastQubit
      rw [if_neg (by omega)]
      rfl
    have hOE : s.oracle_gateE = some s.oracle_gate := by
      unfold DGSSPSolver.oracle_gateE DGSSPSolver.lastQubit
      rw [if_neg (by omega)]
      rfl
    unfold DGSSPSolver.solveE
    by_cases hty : s.assembly_type = "FullQFT" ∨ s.assembly_type = "HalfQFT"
    · have hAE : s.assemblyE = some s.assembly := by
        unfold DGSSPSolver.assemblyE
        rw [if_pos hty, hOE]
        rfl
      rw [hAE, hGE]
      rfl
    · have hAE : s.assemblyE = some s.assembly := by
        unfold DGSSPSolver.assemblyE
        rw [if_neg hty]
      rw [hAE, hGE]
      rfl

/-- C10, counterexample to the claim as stated: an instance with a nonempty
`A` whose positive sum minus negative sum is 0 (so `n_sum = 0`) but whose
`solve` raises no index error — under an unrecognised assembly type the
oracle, and with it `summ[-1]`, is never evaluated, and `ind[-1]` exists
since `n_ind = 2`. -/
theorem C10_index_error_counterexample :
    (DGSSPSolver.mk [0, 0] 0 "Foo").A ≠ []
    ∧ (DGSSPSolver.mk [0, 0] 0 "Foo").n_sum = 0
    ∧ (DGSSPSolver.mk [0, 0] 0 "Foo").solveE 1
        = some ((DGSSPSolver.mk [0, 0] 0 "Foo").solve 1) := by
  refine ⟨by decide, ?_, ?_⟩
  · have h1 : ((DGSSPSolver.mk [0, 0] 0 "Foo").range_len).toNat = 1 := rfl
    unfold DGSSPSolver.n_sum
    rw [h1]
    exact Nat.clog_one_right 2
  · have hAE : (DGSSPSolver.mk [0, 0] 0 "Foo").assemblyE
        = some (DGSSPSolver.mk [0, 0] 0 "Foo").assembly := by
      unfold DGSSPSolver.assemblyE
      rw [if_neg (by decide)]
    have hGE : (DGSSPSolver.mk [0, 0] 0 "Foo").grover_diffuserE
        = some (DGSSPSolver.mk [0, 0] 0 "Foo").grover_diffuser := by
      unfold DGSSPSolver.grover_diffuserE DGSSPSolver.lastQubit
      rw [if_neg (by decide)]
      rfl
    unfold DGSSPSolver.solveE
    rw [hAE, hGE]
    rfl

end SSP
